import Mathlib

/-!
# SSD1306 OLED driver (`oled.c`): shallow embedding and verified properties

The C driver keeps a software mirror (`GRAM`) of the display memory and talks to
the controller through three injected bus functions.  The embedding below is a
line-by-line translation of `oled.c`:

* `int` values are `Int` (C division and remainder are `Int.tdiv` / `Int.tmod`),
* `uint8` / `uint16` values are `Nat`, with an explicit reduction modulo `2^8`
  wherever the C code stores an `int` expression into a `uint8`,
* the mirror `uint8 GRAM[1024]` is a map from index to byte,
* the calls made through the injected function pointers `SendStart`,
  `WriteByte` and `SendStop` are recorded, in order, in the field `bus`.
-/

namespace OLED

/-! ## Constants of `oled.h` -/

def OLED_WIDTH : Int := 128
def OLED_HEIGHT : Int := 64

def OLED_BM_NORMAL : Nat := 0
def OLED_BM_INV : Nat := 1
def OLED_BM_WHITE_TRAN : Nat := 2
def OLED_BM_BLACK_TRAN : Nat := 3
def OLED_BM_WHITE_FILL : Nat := 4
def OLED_BM_BLACK_FILL : Nat := 5

def OLED_TEXT_TRAN : Nat := OLED_BM_WHITE_TRAN
def OLED_TEXT_FILL : Nat := OLED_BM_WHITE_TRAN

def SSD1306_SETCOLUMNADDRESS : Nat := 0x21
def SSD1306_SETPAGEADDRESS : Nat := 0x22

/-! ## Data model -/

/-- One call through an injected bus function pointer. -/
inductive BusOp where
  | start (slaveAddr : Nat) (rnw : Nat)
  | write (byte : Nat)
  | stop
  deriving DecidableEq, Repr

/-- The struct `font_t` of `font.h`: glyph width and height and the table
`characters[95][32]`, read as glyph index, then byte index. -/
structure font_t where
  width : Nat
  height : Nat
  characters : Nat → Nat → Nat

/-- The struct `oled_t` of `oled.h`.  The three function pointers are replaced
by the trace `bus` of the calls made through them. -/
structure oled_t where
  slaveAddr : Nat
  bkColor : Nat
  color : Nat
  penSize : Nat
  font : font_t
  bmMode : Nat
  textMode : Nat
  GRAM : Nat → Nat
  bus : List BusOp

/-- Conversion of an `int` to `uint8`. -/
def toU8 (i : Int) : Nat := (i % 256).toNat

/-- The low eight bits of the C complement `~v` of a `uint8` value `v`: the
complement is computed in `int` and only its low byte survives the conversion
back to `uint8`. -/
def not8 (v : Nat) : Nat := (v ^^^ 0xFF) % 256

/-- The values taken by `i` in `for (int i = lo; i <= hi; i++)`. -/
def intRange (lo hi : Int) : List Int :=
  (List.range (hi + 1 - lo).toNat).map (fun (k : Nat) => lo + (k : Int))

/-- The call `oled->SendStart(addr, rnw)`. -/
def SendStart (o : oled_t) (addr rnw : Nat) : oled_t :=
  { o with bus := o.bus ++ [BusOp.start addr rnw] }

/-- The call `oled->WriteByte(b)`. -/
def WriteByte (o : oled_t) (b : Nat) : oled_t :=
  { o with bus := o.bus ++ [BusOp.write b] }

/-- The call `oled->SendStop()`. -/
def SendStop (o : oled_t) : oled_t :=
  { o with bus := o.bus ++ [BusOp.stop] }

/-- Bit `y % 8` of `GRAM[(y / 8) * 128 + x]`: the mirror's value of the display
pixel `(x, y)`. -/
def getPixel (g : Nat → Nat) (x y : Int) : Nat :=
  (g (y.tdiv 8 * OLED_WIDTH + x).toNat / 2 ^ (y.tmod 8).toNat) % 2

/-! ## Initialisation and accessors -/

def oled_SetColor (o : oled_t) (color : Nat) : oled_t :=
  if color = 0 ∨ color = 1 then { o with color := color } else o

def oled_GetColor (o : oled_t) : Nat := o.color

def oled_SetBkColor (o : oled_t) (bkColor : Nat) : oled_t :=
  if bkColor = 0 ∨ bkColor = 1 then { o with bkColor := bkColor } else o

def oled_GetBkColor (o : oled_t) : Nat := o.bkColor

def oled_SetPenSize (o : oled_t) (penSize : Nat) : oled_t :=
  { o with penSize := penSize }

def oled_GetPenSize (o : oled_t) : Nat := o.penSize

def oled_SetFont (o : oled_t) (font : font_t) : oled_t :=
  { o with font := font }

def oled_SetBmMode (o : oled_t) (bmMode : Nat) : oled_t :=
  if bmMode = OLED_BM_NORMAL ∨ bmMode = OLED_BM_INV ∨ bmMode = OLED_BM_WHITE_TRAN ∨
     bmMode = OLED_BM_BLACK_TRAN ∨ bmMode = OLED_BM_WHITE_FILL ∨ bmMode = OLED_BM_BLACK_FILL
  then { o with bmMode := bmMode } else o

def oled_GetBmMode (o : oled_t) : Nat := o.bmMode

def oled_SetTextMode (o : oled_t) (textMode : Nat) : oled_t :=
  if textMode = OLED_TEXT_TRAN ∨ textMode = OLED_TEXT_FILL
  then { o with textMode := textMode } else o

def oled_GetTextMode (o : oled_t) : Nat := o.textMode

/-! ## Addressing commands and the mirror write `WriteGRAM` -/

def SetPageAddress (o : oled_t) (A B : Nat) : oled_t :=
  if A > 7 ∨ B > 7 then o else
  let o := SendStart o o.slaveAddr 0x00
  let o := WriteByte o 0x00
  let o := WriteByte o SSD1306_SETPAGEADDRESS
  let o := WriteByte o A
  let o := WriteByte o B
  SendStop o

def SetColumnAddress (o : oled_t) (A B : Nat) : oled_t :=
  if A > 127 ∨ B > 127 then o else
  let o := SendStart o o.slaveAddr 0x00
  let o := WriteByte o 0x00
  let o := WriteByte o SSD1306_SETCOLUMNADDRESS
  let o := WriteByte o A
  let o := WriteByte o B
  SendStop o

/-- The preserve-mask computed by `WriteGRAM` at the top of its page loop, for
page `i` and the clipped rows `y0`, `y1`; each assignment to the `uint8 mask`
truncates to eight bits. -/
def pageMask (y0 y1 i : Int) : Nat :=
  let mask := 0x00
  let mask := if i = y0.tdiv 8 then (0xFF >>> (8 - y0.tmod 8).toNat) % 256 else mask
  let mask := if i = y1.tdiv 8 then (mask ||| (0xFF <<< (1 + y1.tmod 8).toNat)) % 256 else mask
  mask

/-- The byte stored into the mirror by the inner loop of `WriteGRAM`:
`g & mask` when painting 0, `~mask | (g & mask)` otherwise, as a `uint8`. -/
def newByte (color mask g : Nat) : Nat :=
  if color = 0 then (g &&& mask) % 256
  else (not8 mask ||| (g &&& mask)) % 256

/-- Body of the column loop of `WriteGRAM`: update `GRAM[i*OLED_WIDTH + j]`,
then send the stored byte. -/
def gramColumn (mask color : Nat) (i : Int) (o : oled_t) (j : Int) : oled_t :=
  let idx := (i * OLED_WIDTH + j).toNat
  let o := { o with GRAM := Function.update o.GRAM idx (newByte color mask (o.GRAM idx)) }
  WriteByte o (o.GRAM idx)

/-- Body of the page loop of `WriteGRAM`. -/
def gramPage (x0 y0 x1 y1 : Int) (color : Nat) (o : oled_t) (i : Int) : oled_t :=
  (intRange x0 x1).foldl (gramColumn (pageMask y0 y1 i) color i) o

def WriteGRAM (o : oled_t) (x0 y0 x1 y1 : Int) (color : Nat) : oled_t :=
  let x0 := if x0 < 0 then 0 else x0
  let x1 := if x1 > OLED_WIDTH - 1 then OLED_WIDTH - 1 else x1
  if x1 < x0 then o else
  let y0 := if y0 < 0 then 0 else y0
  let y1 := if y1 > OLED_HEIGHT - 1 then OLED_HEIGHT - 1 else y1
  if y1 < y0 then o else
  let o := SetPageAddress o (toU8 (y0.tdiv 8)) (toU8 (y1.tdiv 8))
  let o := SetColumnAddress o (toU8 x0) (toU8 x1)
  let o := SendStart o o.slaveAddr 0x00
  let o := WriteByte o 0x40
  let o := (intRange (y0.tdiv 8) (y1.tdiv 8)).foldl (gramPage x0 y0 x1 y1 color) o
  SendStop o

/-! ## Rectangles, pixels and axis-aligned lines -/

def oled_Clear (o : oled_t) : oled_t :=
  WriteGRAM o 0 0 (OLED_WIDTH - 1) (OLED_HEIGHT - 1) o.bkColor

def oled_ClearRect (o : oled_t) (x0 y0 x1 y1 : Int) : oled_t :=
  WriteGRAM o x0 y0 x1 y1 o.bkColor

def oled_DrawPixel (o : oled_t) (x y : Int) : oled_t :=
  WriteGRAM o x y x y o.color

def oled_FillRect (o : oled_t) (x0 y0 x1 y1 : Int) : oled_t :=
  WriteGRAM o x0 y0 x1 y1 o.color

def DrawHLine (o : oled_t) (y x0 x1 : Int) : oled_t :=
  if x0 ≤ x1 then
    WriteGRAM o (x0 - o.penSize) (y - o.penSize) (x1 + o.penSize) (y + o.penSize) o.color
  else
    WriteGRAM o (x1 - o.penSize) (y - o.penSize) (x0 + o.penSize) (y + o.penSize) o.color

def DrawVLine (o : oled_t) (x y0 y1 : Int) : oled_t :=
  if y0 ≤ y1 then
    WriteGRAM o (x - o.penSize) (y0 - o.penSize) (x + o.penSize) (y1 + o.penSize) o.color
  else
    WriteGRAM o (x - o.penSize) (y1 - o.penSize) (x + o.penSize) (y0 + o.penSize) o.color

/-! ## The line rasterizer -/

def PlotPoint (o : oled_t) (x0 y0 x y : Int) (rot : Nat) : oled_t :=
  if rot = 0 then oled_DrawPixel o (y0 + y) (x0 + x)
  else if rot = 1 then oled_DrawPixel o (x0 + x) (y0 + y)
  else if rot = 2 then oled_DrawPixel o (x0 + x) (-y0 - y)
  else if rot = 3 then oled_DrawPixel o (y0 + y) (-x0 - x)
  else o

/-- Loop state of `PlotPerpLineL` / `PlotPerpLineR`: the locals `error`, `x`,
`y` and the display context. -/
structure PerpState where
  error : Int
  x : Int
  y : Int
  o : oled_t

/-- One iteration of the loop of `PlotPerpLineL`. -/
def perpStepL (x0 y0 dx dy step : Int) (rot : Nat) (s : PerpState) (i : Int) : PerpState :=
  let thresh := dx - 2 * dy
  let o := PlotPoint s.o x0 y0 s.x s.y rot
  if s.error > thresh then
    let x := s.x - 1
    let error := s.error + (2 * dy - 2 * dx)
    let o := if step = 1 ∧ i ≠ (o.penSize : Int) then PlotPoint o x0 y0 x s.y rot else o
    { error := error, x := x, y := s.y + 1, o := o }
  else
    { error := s.error + 2 * dy, x := s.x, y := s.y + 1, o := o }

def PlotPerpLineL (o : oled_t) (x0 y0 dx dy x y step : Int) (rot : Nat) : oled_t :=
  ((intRange 0 ((o.penSize : Int) + 1 - 1)).foldl (perpStepL x0 y0 dx dy step rot)
    { error := 0, x := x, y := y, o := o }).o

/-- One iteration of the loop of `PlotPerpLineR`. -/
def perpStepR (x0 y0 dx dy step : Int) (rot : Nat) (s : PerpState) (i : Int) : PerpState :=
  let thresh := dx - 2 * dy
  let o := if i ≠ 0 then PlotPoint s.o x0 y0 s.x s.y rot else s.o
  if s.error > thresh then
    let x := s.x + 1
    let error := s.error + (2 * dy - 2 * dx)
    let o := if step = 1 ∧ i ≠ (o.penSize : Int) then PlotPoint o x0 y0 (x - 1) (s.y - 1) rot else o
    { error := error, x := x, y := s.y - 1, o := o }
  else
    { error := s.error + 2 * dy, x := s.x, y := s.y - 1, o := o }

def PlotPerpLineR (o : oled_t) (x0 y0 dx dy x y step : Int) (rot : Nat) : oled_t :=
  ((intRange 0 ((o.penSize : Int) + 1 - 1)).foldl (perpStepR x0 y0 dx dy step rot)
    { error := 0, x := x, y := y, o := o }).o

/-- Loop state of `BresenhamLineAlgorithm`: the locals `error`, `y`, `step`
and the display context (`x` is the loop counter). -/
structure LineState where
  error : Int
  y : Int
  step : Nat
  o : oled_t

/-- One iteration of the loop of `BresenhamLineAlgorithm`. -/
def lineStep (x0 y0 dx dy : Int) (rot : Nat) (s : LineState) (x : Int) : LineState :=
  let thresh := dx - 2 * dy
  let step := if x = 0 ∧ -2 * dy + 2 * dx > thresh then 1 else s.step
  let o := PlotPerpLineL s.o x0 y0 dx dy x s.y step rot
  let o := PlotPerpLineR o x0 y0 dx dy x s.y step rot
  if s.error > thresh then
    { error := s.error + (2 * dy - 2 * dx), y := s.y + 1, step := 1, o := o }
  else
    { error := s.error + 2 * dy, y := s.y, step := 0, o := o }

def BresenhamLineAlgorithm (o : oled_t) (x0 y0 dx dy : Int) (rot : Nat) : oled_t :=
  if dx < 0 ∨ dy < 0 ∨ dy > dx then o else
  ((intRange 0 dx).foldl (lineStep x0 y0 dx dy rot)
    { error := 0, y := 0, step := 0, o := o }).o

def oled_DrawLine (o : oled_t) (x0 y0 x1 y1 : Int) : oled_t :=
  if x0 = x1 then DrawVLine o x0 y1 y0
  else if y0 = y1 then DrawHLine o y0 x1 x0
  else
    let (x0, y0, x1, y1) := if x1 < x0 then (x1, y1, x0, y0) else (x0, y0, x1, y1)
    if x1 - x0 < y1 - y0 then
      BresenhamLineAlgorithm o y0 x0 (y1 - y0) (x1 - x0) 0
    else if x1 - x0 ≥ y0 - y1 ∧ y0 > y1 then
      BresenhamLineAlgorithm o x0 (-y0) (x1 - x0) (-y1 - -y0) 2
    else if x1 - x0 < y0 - y1 then
      BresenhamLineAlgorithm o (-y0) x0 (-y1 - -y0) (x1 - x0) 3
    else
      BresenhamLineAlgorithm o x0 y0 (x1 - x0) (y1 - y0) 1

/-! ## The circle / annulus rasterizer -/

def PlotCircle (o : oled_t) (xc yc x yIn yOut : Int) (octants : Nat) : oled_t :=
  let o := if octants &&& 0x01 ≠ 0 then WriteGRAM o (xc + yIn) (yc + x) (xc + yOut) (yc + x) o.color else o
  let o := if octants &&& 0x02 ≠ 0 then WriteGRAM o (xc + x) (yc + yIn) (xc + x) (yc + yOut) o.color else o
  let o := if octants &&& 0x04 ≠ 0 then WriteGRAM o (xc - x) (yc + yIn) (xc - x) (yc + yOut) o.color else o
  let o := if octants &&& 0x08 ≠ 0 then WriteGRAM o (xc - yOut) (yc + x) (xc - yIn) (yc + x) o.color else o
  let o := if octants &&& 0x10 ≠ 0 then WriteGRAM o (xc - yOut) (yc - x) (xc - yIn) (yc - x) o.color else o
  let o := if octants &&& 0x20 ≠ 0 then WriteGRAM o (xc - x) (yc - yOut) (xc - x) (yc - yIn) o.color else o
  let o := if octants &&& 0x40 ≠ 0 then WriteGRAM o (xc + x) (yc - yOut) (xc + x) (yc - yIn) o.color else o
  let o := if octants &&& 0x80 ≠ 0 then WriteGRAM o (xc + yIn) (yc - x) (xc + yOut) (yc - x) o.color else o
  o

/-- The locals `x`, `yIn`, `yOut`, `dIn`, `dOut` of `BresenhamCircleAlgorithm`. -/
structure CircleVars where
  x : Int
  yIn : Int
  yOut : Int
  dIn : Int
  dOut : Int

/-- The updates of the locals made by one iteration of the `while` loop of
`BresenhamCircleAlgorithm`, after the call of `PlotCircle`. -/
def circleNext (v : CircleVars) : CircleVars :=
  let dOut := if v.dOut < 0 then v.dOut + (4 * v.x + 6) else v.dOut + (4 * (v.x - v.yOut) + 10)
  let yOut := if v.dOut < 0 then v.yOut else v.yOut - 1
  let dIn :=
    if v.x < v.yIn then
      (if v.dIn < 0 then v.dIn + (4 * v.x + 6) else v.dIn + (4 * (v.x - v.yIn) + 10))
    else v.dIn
  let yIn :=
    if v.x < v.yIn then (if v.dIn < 0 then v.yIn else v.yIn - 1)
    else v.yIn + 1
  { x := v.x + 1, yIn := yIn, yOut := yOut, dIn := dIn, dOut := dOut }

/-- The `while (yIn <= yOut)` loop of `BresenhamCircleAlgorithm`, run for at
most `fuel` iterations; `none` means the loop was still running when the fuel
ran out. -/
def circleLoop (xc yc : Int) (octants : Nat) : Nat → CircleVars → oled_t → Option oled_t
  | 0, v, o => if v.yIn ≤ v.yOut then none else some o
  | fuel + 1, v, o =>
    if v.yIn ≤ v.yOut then
      circleLoop xc yc octants fuel (circleNext v) (PlotCircle o xc yc v.x v.yIn v.yOut octants)
    else some o

/-- An iteration bound for the loop of `BresenhamCircleAlgorithm` started with
the radii `rIn`, `rOut` (see `circleLoop_fuel`). -/
def circleFuel (rIn rOut : Int) : Nat :=
  (2 * max 0 rIn + max 0 (rOut - rIn + 1)).toNat

def BresenhamCircleAlgorithm (o : oled_t) (xc yc rIn rOut : Int) (octants : Nat) : oled_t :=
  if rIn > rOut ∨ rOut = 0 then o else
  match circleLoop xc yc octants (circleFuel rIn rOut)
      { x := 0, yIn := rIn, yOut := rOut, dIn := 3 - 2 * rIn, dOut := 3 - 2 * rOut } o with
  | some o => o
  | none => o

/-- The octant selector `(0xFF >> (8-a1)) & (0xFF << a0)` stored into a `uint8`. -/
def octantMask (a0 a1 : Int) : Nat :=
  ((0xFF >>> (8 - a1).toNat) &&& (0xFF <<< a0.toNat)) % 256

def oled_DrawCircle (o : oled_t) (xc yc r : Int) : oled_t :=
  BresenhamCircleAlgorithm o xc yc (r - o.penSize) (r + o.penSize) 0xFF

def oled_DrawArc (o : oled_t) (xc yc r a0 a1 : Int) : oled_t :=
  let (a0, a1) := if a1 < a0 then (a1, a0) else (a0, a1)
  if a0 < 0 ∨ a1 > 8 then o else
  BresenhamCircleAlgorithm o xc yc (r - o.penSize) (r + o.penSize) (octantMask a0 a1)

def oled_FillCircle (o : oled_t) (xc yc r : Int) : oled_t :=
  BresenhamCircleAlgorithm o xc yc 0 r 0xFF

def oled_DrawPoint (o : oled_t) (xc yc : Int) : oled_t :=
  BresenhamCircleAlgorithm o xc yc 0 o.penSize 0xFF

def oled_DrawPie (o : oled_t) (xc yc r a0 a1 : Int) : oled_t :=
  let (a0, a1) := if a1 < a0 then (a1, a0) else (a0, a1)
  if a0 < 0 ∨ a1 > 8 then o else
  BresenhamCircleAlgorithm o xc yc 0 r (octantMask a0 a1)

/-! ## Composite shapes -/

def oled_FillRoundedRect (o : oled_t) (x0 y0 x1 y1 r : Int) : oled_t :=
  if x1 - x0 < 2 * r ∨ y1 - y0 < 2 * r then o else
  let o := oled_FillRect o (x0 + r) y0 (x1 - r) y1
  let o := oled_FillRect o x0 (y0 + r) (x0 + r) (y1 - r)
  let o := oled_FillRect o (x1 - r) (y0 + r) x1 (y1 - r)
  let o := oled_DrawPie o (x1 - r) (y0 + r) r 6 8
  let o := oled_DrawPie o (x0 + r) (y0 + r) r 4 6
  let o := oled_DrawPie o (x0 + r) (y1 - r) r 2 4
  oled_DrawPie o (x1 - r) (y1 - r) r 0 2

def oled_DrawRect (o : oled_t) (x0 y0 x1 y1 : Int) : oled_t :=
  if x1 < x0 ∨ y1 < y0 then o else
  let o := DrawHLine o y0 x0 x1
  let o := DrawHLine o y1 x0 x1
  let o := DrawVLine o x0 y0 y1
  DrawVLine o x1 y0 y1

def oled_DrawRoundedRect (o : oled_t) (x0 y0 x1 y1 r : Int) : oled_t :=
  if x1 - x0 < 2 * r ∨ y1 - y0 < 2 * r then o else
  let o := DrawHLine o y0 (x0 + r) (x1 - r)
  let o := DrawHLine o y1 (x0 + r) (x1 - r)
  let o := DrawVLine o x0 (y0 + r) (y1 - r)
  let o := DrawVLine o x1 (y0 + r) (y1 - r)
  let o := oled_DrawArc o (x1 - r) (y0 + r) r 6 8
  let o := oled_DrawArc o (x0 + r) (y0 + r) r 4 6
  let o := oled_DrawArc o (x0 + r) (y1 - r) r 2 4
  oled_DrawArc o (x1 - r) (y1 - r) r 0 2

/-! ## Bitmaps and text -/

/-- The source pixel read by `oled_DispBitmap` for row `i`, column `j`:
`(bitmap[i*((width-1)/8 + 1) + j/8] >> (j%8)) & 0x01`. -/
def bitmapColor (bitmap : Nat → Nat) (width : Nat) (i j : Int) : Nat :=
  (bitmap (i * (((width : Int) - 1).tdiv 8 + 1) + j.tdiv 8).toNat >>> (j.tmod 8).toNat) &&& 0x01

/-- Body of the inner loop of `oled_DispBitmap`. -/
def bitmapPixel (x0 y0 : Int) (bitmap : Nat → Nat) (width : Nat) (i : Int)
    (o : oled_t) (j : Int) : oled_t :=
  let color := bitmapColor bitmap width i j
  let o :=
    if o.bmMode = OLED_BM_NORMAL then
      WriteGRAM o (x0 + j) (y0 + i) (x0 + j) (y0 + i) color
    else if o.bmMode = OLED_BM_INV then
      WriteGRAM o (x0 + j) (y0 + i) (x0 + j) (y0 + i) (not8 (color ||| 0xFE))
    else o
  if o.bmMode = OLED_BM_WHITE_TRAN then
    (if color = 1 then WriteGRAM o (x0 + j) (y0 + i) (x0 + j) (y0 + i) o.color else o)
  else if o.bmMode = OLED_BM_BLACK_TRAN then
    (if color = 0 then WriteGRAM o (x0 + j) (y0 + i) (x0 + j) (y0 + i) o.color else o)
  else if o.bmMode = OLED_BM_WHITE_FILL then
    (if color = 1 then WriteGRAM o (x0 + j) (y0 + i) (x0 + j) (y0 + i) o.color
     else WriteGRAM o (x0 + j) (y0 + i) (x0 + j) (y0 + i) o.bkColor)
  else if o.bmMode = OLED_BM_BLACK_FILL then
    (if color = 0 then WriteGRAM o (x0 + j) (y0 + i) (x0 + j) (y0 + i) o.color
     else WriteGRAM o (x0 + j) (y0 + i) (x0 + j) (y0 + i) o.bkColor)
  else o

/-- Body of the outer loop of `oled_DispBitmap`. -/
def bitmapRow (x0 y0 : Int) (bitmap : Nat → Nat) (width : Nat) (o : oled_t) (i : Int) : oled_t :=
  (intRange 0 ((width : Int) - 1)).foldl (bitmapPixel x0 y0 bitmap width i) o

def oled_DispBitmap (o : oled_t) (x0 y0 : Int) (bitmap : Nat → Nat) (width height : Nat) : oled_t :=
  (intRange 0 ((height : Int) - 1)).foldl (bitmapRow x0 y0 bitmap width) o

def oled_DispChar (o : oled_t) (x0 y0 : Int) (c : Int) : oled_t :=
  let bmMode := oled_GetBmMode o
  let o := oled_SetBmMode o o.textMode
  let i := c - 32
  if i < 0 ∨ i > 94 then o else
  let o := oled_DispBitmap o x0 y0 (o.font.characters i.toNat) o.font.width o.font.height
  oled_SetBmMode o bmMode

/-- The `while (s[i] != 0)` loop of `oled_DispString`; `s` lists the characters
of the string in front of its terminating NUL, `j` is the column counter. -/
def dispStringLoop : List Int → Int → Int → Int → oled_t → oled_t
  | [], _, _, _, o => o
  | c :: s, x0, y0, j, o =>
    if c = 0 then o
    else if c = 10 then dispStringLoop s x0 (y0 + o.font.height) 0 o
    else dispStringLoop s x0 y0 (j + 1) (oled_DispChar o (x0 + j * o.font.width) y0 c)

def oled_DispString (o : oled_t) (x0 y0 : Int) (s : List Int) : oled_t :=
  dispStringLoop s x0 y0 0 o

/-! ## Auxiliary notions used to state the properties -/

/-- The (page, column) cells visited by the two loops of `WriteGRAM` for the
clipped rectangle, in loop order. -/
def gramCells (x0 y0 x1 y1 : Int) : List (Int × Int) :=
  (intRange (y0.tdiv 8) (y1.tdiv 8)).flatMap (fun i => (intRange x0 x1).map (fun j => (i, j)))

/-- The mirror index `i*OLED_WIDTH + j` of a cell. -/
def cellIndex (c : Int × Int) : Nat := (c.1 * OLED_WIDTH + c.2).toNat

/-- The column-loop body of `WriteGRAM` at a cell. -/
def gramCell (y0 y1 : Int) (color : Nat) (o : oled_t) (c : Int × Int) : oled_t :=
  gramColumn (pageMask y0 y1 c.1) color c.1 o c.2

/-- The left edge after the clipping at the top of `WriteGRAM`. -/
def clipX0 (x0 : Int) : Int := if x0 < 0 then 0 else x0

/-- The right edge after the clipping at the top of `WriteGRAM`. -/
def clipX1 (x1 : Int) : Int := if x1 > OLED_WIDTH - 1 then OLED_WIDTH - 1 else x1

/-- The top edge after the clipping at the top of `WriteGRAM`. -/
def clipY0 (y0 : Int) : Int := if y0 < 0 then 0 else y0

/-- The bottom edge after the clipping at the top of `WriteGRAM`. -/
def clipY1 (y1 : Int) : Int := if y1 > OLED_HEIGHT - 1 then OLED_HEIGHT - 1 else y1

/-- Mirror index `k` is one of the cells `i*128 + j` visited by `WriteGRAM` for
the clipped, non-empty rectangle `[x0..x1] x [y0..y1]`. -/
def hitCell (x0 y0 x1 y1 : Int) (k : Nat) : Prop :=
  x0 ≤ x1 ∧ y0 ≤ y1 ∧ y0.tdiv 8 ≤ ((k / 128 : Nat) : Int) ∧ ((k / 128 : Nat) : Int) ≤ y1.tdiv 8 ∧
    x0 ≤ ((k % 128 : Nat) : Int) ∧ ((k % 128 : Nat) : Int) ≤ x1

instance (x0 y0 x1 y1 : Int) (k : Nat) : Decidable (hitCell x0 y0 x1 y1 k) := by
  unfold hitCell
  infer_instance

/-- The bytes streamed by the data transaction of `WriteGRAM`, read from the
mirror `g`: `g[i*128 + j]` for the pages `i` (outer) and columns `j` (inner) of
the clipped rectangle. -/
def dataBytes (g : Nat → Nat) (x0 y0 x1 y1 : Int) : List Nat :=
  (intRange (y0.tdiv 8) (y1.tdiv 8)).flatMap
    (fun i => (intRange x0 x1).map (fun j => g (i * OLED_WIDTH + j).toNat))

/-- The two addressing transactions issued by `WriteGRAM` for the clipped
rectangle, followed by the Start of the data transaction. -/
def addrPrefix (slaveAddr : Nat) (x0 y0 x1 y1 : Int) : List BusOp :=
  [BusOp.start slaveAddr 0, BusOp.write 0x00, BusOp.write 0x22,
   BusOp.write (y0.tdiv 8).toNat, BusOp.write (y1.tdiv 8).toNat, BusOp.stop,
   BusOp.start slaveAddr 0, BusOp.write 0x00, BusOp.write 0x21,
   BusOp.write x0.toNat, BusOp.write x1.toNat, BusOp.stop,
   BusOp.start slaveAddr 0]

/-- Everything `WriteGRAM` sends before the data bytes: `addrPrefix` and the
"GRAM write" control byte 0x40. -/
def addrTrace (slaveAddr : Nat) (x0 y0 x1 y1 : Int) : List BusOp :=
  addrPrefix slaveAddr x0 y0 x1 y1 ++ [BusOp.write 0x40]

/-- The naive per-pixel painter: pixel `(x, y)` takes the colour `c` inside the
inclusive rectangle `[x0..x1] x [y0..y1]` and keeps its value in the mirror `g`
elsewhere. -/
def naivePaint (g : Nat → Nat) (x0 y0 x1 y1 : Int) (c : Nat) (x y : Int) : Nat :=
  if (x0 ≤ x ∧ x ≤ x1) ∧ (y0 ≤ y ∧ y ≤ y1) then c else getPixel g x y

/-- A display context with an all-zero mirror and an empty bus trace, with the
settings made by `oled_Init`; used to instantiate the properties. -/
def blank : oled_t :=
  { slaveAddr := 0x3c, bkColor := 0, color := 1, penSize := 0,
    font := { width := 8, height := 16, characters := fun _ _ => 0 },
    bmMode := OLED_BM_NORMAL, textMode := OLED_TEXT_TRAN, GRAM := fun _ => 0, bus := [] }

/-- The arguments `x0 y0 x1 y1` of one call of `WriteGRAM`: the inclusive
rectangle `[x0..x1] x [y0..y1]`, not yet clipped to the display. -/
structure Rect where
  x0 : Int
  y0 : Int
  x1 : Int
  y1 : Int

/-- One call of `WriteGRAM` on a rectangle in the current foreground colour. -/
def fillRectCall (o : oled_t) (r : Rect) : oled_t :=
  WriteGRAM o r.x0 r.y0 r.x1 r.y1 o.color

/-- Position `(x, y)` lies in one of the rectangles of the list. -/
def painted (rs : List Rect) (x y : Int) : Prop :=
  ∃ r ∈ rs, (r.x0 ≤ x ∧ x ≤ r.x1) ∧ (r.y0 ≤ y ∧ y ≤ r.y1)

/-- The rectangles passed to `WriteGRAM` by one call of `PlotCircle`, in call
order: the rectangle of octant `n` is present when bit `n` of `octants` is set. -/
def plotRects (xc yc x yIn yOut : Int) (octants : Nat) : List Rect :=
  (if octants &&& 0x01 ≠ 0 then [Rect.mk (xc + yIn) (yc + x) (xc + yOut) (yc + x)] else []) ++
  (if octants &&& 0x02 ≠ 0 then [Rect.mk (xc + x) (yc + yIn) (xc + x) (yc + yOut)] else []) ++
  (if octants &&& 0x04 ≠ 0 then [Rect.mk (xc - x) (yc + yIn) (xc - x) (yc + yOut)] else []) ++
  (if octants &&& 0x08 ≠ 0 then [Rect.mk (xc - yOut) (yc + x) (xc - yIn) (yc + x)] else []) ++
  (if octants &&& 0x10 ≠ 0 then [Rect.mk (xc - yOut) (yc - x) (xc - yIn) (yc - x)] else []) ++
  (if octants &&& 0x20 ≠ 0 then [Rect.mk (xc - x) (yc - yOut) (xc - x) (yc - yIn)] else []) ++
  (if octants &&& 0x40 ≠ 0 then [Rect.mk (xc + x) (yc - yOut) (xc + x) (yc - yIn)] else []) ++
  (if octants &&& 0x80 ≠ 0 then [Rect.mk (xc + yIn) (yc - x) (xc + yOut) (yc - x)] else [])

/-- The values of the locals at the successive calls of `PlotCircle` made by
the `while` loop of `BresenhamCircleAlgorithm` (its control flow does not
depend on the display context); `none` when the fuel runs out. -/
def circleSteps : Nat → CircleVars → Option (List CircleVars)
  | 0, v => if v.yIn ≤ v.yOut then none else some []
  | fuel + 1, v =>
    if v.yIn ≤ v.yOut then (circleSteps fuel (circleNext v)).map (fun l => v :: l)
    else some []

/-- The iterations of the loop of `BresenhamCircleAlgorithm` for the radii
`rIn`, `rOut`, with the fuel used by the embedding. -/
def circleTrace (rIn rOut : Int) : List CircleVars :=
  match circleSteps (circleFuel rIn rOut)
      { x := 0, yIn := rIn, yOut := rOut, dIn := 3 - 2 * rIn, dOut := 3 - 2 * rOut } with
  | some l => l
  | none => []

/-- All rectangles passed to `WriteGRAM` by `BresenhamCircleAlgorithm`, in call
order. -/
def circleRects (xc yc rIn rOut : Int) (octants : Nat) : List Rect :=
  if rIn > rOut ∨ rOut = 0 then []
  else (circleTrace rIn rOut).flatMap (fun v => plotRects xc yc v.x v.yIn v.yOut octants)

/-- Mirror byte `k` is one of the bytes rewritten by `WriteGRAM` for the
rectangle `r`. -/
def hits (r : Rect) (k : Nat) : Prop :=
  hitCell (clipX0 r.x0) (clipY0 r.y0) (clipX1 r.x1) (clipY1 r.y1) k

/-- Bit `i` of mirror byte `k` is a display pixel of the rectangle `r`. -/
def covers (r : Rect) (k i : Nat) : Prop :=
  hits r k ∧ (clipY0 r.y0 ≤ 8 * ((k / 128 : Nat) : Int) + i ∧
    8 * ((k / 128 : Nat) : Int) + i ≤ clipY1 r.y1)

/-- The two contexts agree on every field other than the mirror and the bus
trace: bus address, colours, pen size, font and both modes. -/
def sameConfig (o' o : oled_t) : Prop :=
  o'.slaveAddr = o.slaveAddr ∧ o'.bkColor = o.bkColor ∧ o'.color = o.color ∧
    o'.penSize = o.penSize ∧ o'.font = o.font ∧ o'.bmMode = o.bmMode ∧
    o'.textMode = o.textMode

/-- The display value painted by `WriteGRAM` for a colour byte: 0 for the byte
0, 1 for any other byte. -/
def pixelOf (c : Nat) : Nat := if c = 0 then 0 else 1

/-- The value a display pixel takes when `oled_DispBitmap` processes a source
pixel of colour `s` over it, read off the branches of the loop body for the
bitmap mode of `o`; `old` is the pixel's value before. -/
def composite (o : oled_t) (s old : Nat) : Nat :=
  if o.bmMode = OLED_BM_NORMAL then pixelOf s
  else if o.bmMode = OLED_BM_INV then pixelOf (not8 (s ||| 0xFE))
  else if o.bmMode = OLED_BM_WHITE_TRAN then (if s = 1 then pixelOf o.color else old)
  else if o.bmMode = OLED_BM_BLACK_TRAN then (if s = 0 then pixelOf o.color else old)
  else if o.bmMode = OLED_BM_WHITE_FILL then (if s = 1 then pixelOf o.color else pixelOf o.bkColor)
  else if o.bmMode = OLED_BM_BLACK_FILL then (if s = 0 then pixelOf o.color else pixelOf o.bkColor)
  else old

/-- Position `(x, y)` is a pixel of the `width x height` bitmap placed with its
top left corner at `(x0, y0)`. -/
def inBitmap (x0 y0 : Int) (width height : Nat) (x y : Int) : Prop :=
  (0 ≤ x - x0 ∧ x - x0 < width) ∧ (0 ≤ y - y0 ∧ y - y0 < height)

instance (x0 y0 : Int) (width height : Nat) (x y : Int) :
    Decidable (inBitmap x0 y0 width height x y) := by
  unfold inBitmap
  infer_instance

/-- The value is one of the six bitmap modes accepted by `oled_SetBmMode`. -/
def validMode (m : Nat) : Prop :=
  m = OLED_BM_NORMAL ∨ m = OLED_BM_INV ∨ m = OLED_BM_WHITE_TRAN ∨
    m = OLED_BM_BLACK_TRAN ∨ m = OLED_BM_WHITE_FILL ∨ m = OLED_BM_BLACK_FILL

/-- The blank context with every pixel of the mirror lit. -/
def litScreen : oled_t := { blank with GRAM := fun _ => 0xFF }

/-- A font whose glyphs are solid 8 x 16 blocks. -/
def solidFont : font_t := { width := 8, height := 16, characters := fun _ _ => 0xFF }

instance (m : Nat) : Decidable (validMode m) := by
  unfold validMode
  infer_instance

/-- A context whose text mode holds the value 9, which is none of the bitmap
modes, with the solid font; the other fields are those of `blank`. -/
def badTextMode : oled_t := { blank with textMode := 9, font := solidFont }

/-- The number of newline characters in `p`, the part of a string in front of
a character: the line the character is on. -/
def lineOf (p : List Int) : Nat := p.count 10

/-- The number of non-newline characters of `p` since its last newline, or
since its start if it has none: the column the next character is in. -/
def colOf (p : List Int) : Nat := (p.reverse.takeWhile (fun c => decide (c ≠ 10))).length

/-- The calls of `oled_DispChar` described by the layout rule, for the
characters of `s` that follow the prefix `p` of a string: a non-newline
character `c` is placed at `(x0 + k*W, y0 + l*H)` with `l = lineOf p` and
`k = colOf p`, as `(x, y, c)`; newlines place nothing. -/
def layoutFrom (x0 y0 : Int) (W H : Nat) : List Int → List Int → List (Int × Int × Int)
  | _, [] => []
  | p, c :: s =>
    (if c = 10 then [] else [(x0 + colOf p * W, y0 + lineOf p * H, c)]) ++
      layoutFrom x0 y0 W H (p ++ [c]) s

/-- The layout of a whole string drawn at `(x0, y0)` in a font of glyph size
`W x H`. -/
def stringLayout (x0 y0 : Int) (W H : Nat) (s : List Int) : List (Int × Int × Int) :=
  layoutFrom x0 y0 W H [] s

/-- One call of `oled_DispChar` at a layout entry `(x, y, c)`. -/
def dispCharAt (o : oled_t) (e : Int × Int × Int) : oled_t :=
  oled_DispChar o e.1 e.2.1 e.2.2

/-- Rectangle `a` lies inside rectangle `b`. -/
def Rect.inside (a b : Rect) : Prop :=
  (b.x0 ≤ a.x0 ∧ a.x1 ≤ b.x1) ∧ (b.y0 ≤ a.y0 ∧ a.y1 ≤ b.y1)

/-- One call of `PlotPoint` for the line started at `(x0, y0)` with rotation
`rot`, at the offset `pt = (x, y)`. -/
def plotAt (x0 y0 : Int) (rot : Nat) (o : oled_t) (pt : Int × Int) : oled_t :=
  PlotPoint o x0 y0 pt.1 pt.2 rot

/-- The locals `error`, `x`, `y` of `PlotPerpLineL` / `PlotPerpLineR`. -/
structure PerpVars where
  error : Int
  x : Int
  y : Int

/-- The update of the locals made by one iteration of `PlotPerpLineL`. -/
def perpNextL (dx dy : Int) (v : PerpVars) : PerpVars :=
  if v.error > dx - 2 * dy then
    { error := v.error + (2 * dy - 2 * dx), x := v.x - 1, y := v.y + 1 }
  else
    { error := v.error + 2 * dy, x := v.x, y := v.y + 1 }

/-- The offsets passed to `PlotPoint` by iteration `i` of `PlotPerpLineL`, in
call order, for pen size `p`: the current offset, then the gap pixel. -/
def perpEmitL (p : Nat) (dx dy step : Int) (v : PerpVars) (i : Int) : List (Int × Int) :=
  (v.x, v.y) ::
    (if v.error > dx - 2 * dy ∧ (step = 1 ∧ i ≠ (p : Int)) then [(v.x - 1, v.y)] else [])

/-- The offsets passed to `PlotPoint` by the loop of `PlotPerpLineL` over the
counter values `is`. -/
def perpPointsL (p : Nat) (dx dy step : Int) : PerpVars → List Int → List (Int × Int)
  | _, [] => []
  | v, i :: is => perpEmitL p dx dy step v i ++ perpPointsL p dx dy step (perpNextL dx dy v) is

/-- The update of the locals made by one iteration of `PlotPerpLineR`. -/
def perpNextR (dx dy : Int) (v : PerpVars) : PerpVars :=
  if v.error > dx - 2 * dy then
    { error := v.error + (2 * dy - 2 * dx), x := v.x + 1, y := v.y - 1 }
  else
    { error := v.error + 2 * dy, x := v.x, y := v.y - 1 }

/-- The offsets passed to `PlotPoint` by iteration `i` of `PlotPerpLineR`, in
call order, for pen size `p`. -/
def perpEmitR (p : Nat) (dx dy step : Int) (v : PerpVars) (i : Int) : List (Int × Int) :=
  (if i ≠ 0 then [(v.x, v.y)] else []) ++
    (if v.error > dx - 2 * dy ∧ (step = 1 ∧ i ≠ (p : Int)) then [(v.x + 1 - 1, v.y - 1)] else [])

/-- The offsets passed to `PlotPoint` by the loop of `PlotPerpLineR` over the
counter values `is`. -/
def perpPointsR (p : Nat) (dx dy step : Int) : PerpVars → List Int → List (Int × Int)
  | _, [] => []
  | v, i :: is => perpEmitR p dx dy step v i ++ perpPointsR p dx dy step (perpNextR dx dy v) is

/-- The locals `error`, `y`, `step` of `BresenhamLineAlgorithm`. -/
structure LineVars where
  error : Int
  y : Int
  step : Nat

/-- The update of the locals made by one iteration of
`BresenhamLineAlgorithm`. -/
def lineNext (dx dy : Int) (v : LineVars) : LineVars :=
  if v.error > dx - 2 * dy then
    { error := v.error + (2 * dy - 2 * dx), y := v.y + 1, step := 1 }
  else
    { error := v.error + 2 * dy, y := v.y, step := 0 }

/-- The value of `step` handed to the two perpendicular passes at column `x`. -/
def lineStepFlag (dx dy : Int) (v : LineVars) (x : Int) : Nat :=
  if x = 0 ∧ -2 * dy + 2 * dx > dx - 2 * dy then 1 else v.step

/-- The offsets passed to `PlotPoint` at column `x` of
`BresenhamLineAlgorithm`: the left pass, then the right pass. -/
def lineEmit (p : Nat) (dx dy : Int) (v : LineVars) (x : Int) : List (Int × Int) :=
  perpPointsL p dx dy (lineStepFlag dx dy v x) { error := 0, x := x, y := v.y }
      (intRange 0 ((p : Int) + 1 - 1)) ++
    perpPointsR p dx dy (lineStepFlag dx dy v x) { error := 0, x := x, y := v.y }
      (intRange 0 ((p : Int) + 1 - 1))

/-- The offsets passed to `PlotPoint` by the loop of `BresenhamLineAlgorithm`
over the columns `xs`. -/
def linePointsFrom (p : Nat) (dx dy : Int) : LineVars → List Int → List (Int × Int)
  | _, [] => []
  | v, x :: xs => lineEmit p dx dy v x ++ linePointsFrom p dx dy (lineNext dx dy v) xs

/-- All offsets passed to `PlotPoint` by `BresenhamLineAlgorithm` for pen size
`p`, in call order. -/
def linePoints (p : Nat) (dx dy : Int) : List (Int × Int) :=
  if dx < 0 ∨ dy < 0 ∨ dy > dx then []
  else linePointsFrom p dx dy { error := 0, y := 0, step := 0 } (intRange 0 dx)

/-- The ideal row of column `x` of the canonical line `(0,0)..(dx,dy)`:
`ceil((2*dy*x - dx) / (2*dx))`, that is `dy*x/dx` rounded to the nearest
integer with ties rounded down, written with the floor division of `Int`. -/
def idealY (dx dy x : Int) : Int := -((dx - 2 * dy * x) / (2 * dx))

/-- The endpoint of the segment `(x0,y0)-(x1,y1)` with the smaller `x`: the
first point after the swap made by `oled_DrawLine` when `x1 < x0`. -/
def leftEnd (x0 y0 x1 y1 : Int) : Int × Int := if x1 < x0 then (x1, y1) else (x0, y0)

/-- The endpoint of the segment `(x0,y0)-(x1,y1)` with the larger `x`. -/
def rightEnd (x0 y0 x1 y1 : Int) : Int × Int := if x1 < x0 then (x0, y0) else (x1, y1)

/-- Slope of the segment `(x0,y0)-(x1,y1)` ordered by increasing `x`. -/
def slope (x0 y0 x1 y1 : Int) : ℚ :=
  (((rightEnd x0 y0 x1 y1).2 - (leftEnd x0 y0 x1 y1).2 : Int) : ℚ) /
    (((rightEnd x0 y0 x1 y1).1 - (leftEnd x0 y0 x1 y1).1 : Int) : ℚ)

/-- The guard at the head of `BresenhamLineAlgorithm`. -/
def lineGuard (dx dy : Int) : Prop := dx < 0 ∨ dy < 0 ∨ dy > dx

/-- Display position painted by `PlotPoint` for the canonical offset `pt`: the
arguments of its call of `oled_DrawPixel` for the rotations 0 to 3. -/
def plotPos (x0 y0 : Int) (rot : Nat) (pt : Int × Int) : Int × Int :=
  if rot = 0 then (y0 + pt.2, x0 + pt.1)
  else if rot = 1 then (x0 + pt.1, y0 + pt.2)
  else if rot = 2 then (x0 + pt.1, -y0 - pt.2)
  else (y0 + pt.2, -x0 - pt.1)

/-- The locals of `BresenhamCircleAlgorithm` on entry to its `while` loop. -/
def circleInit (rIn rOut : Int) : CircleVars :=
  { x := 0, yIn := rIn, yOut := rOut, dIn := 3 - 2 * rIn, dOut := 3 - 2 * rOut }

/-- The locals of `BresenhamCircleAlgorithm` after `n` passes through the body
of its `while` loop (the loop test is not consulted). -/
def circleIter (rIn rOut : Int) (n : Nat) : CircleVars :=
  circleNext^[n] (circleInit rIn rOut)

/-- The rectangles passed to `WriteGRAM` by `oled_FillRoundedRect` when the
radius is accepted, in call order: the three body rectangles, then the fills of
the four corner pies. -/
def roundedRects (x0 y0 x1 y1 r : Int) : List Rect :=
  [Rect.mk (x0 + r) y0 (x1 - r) y1, Rect.mk x0 (y0 + r) (x0 + r) (y1 - r),
    Rect.mk (x1 - r) (y0 + r) x1 (y1 - r)] ++
  circleRects (x1 - r) (y0 + r) 0 r (octantMask 6 8) ++
  circleRects (x0 + r) (y0 + r) 0 r (octantMask 4 6) ++
  circleRects (x0 + r) (y1 - r) 0 r (octantMask 2 4) ++
  circleRects (x1 - r) (y1 - r) 0 r (octantMask 0 2)

/-- The value of `step` seen by the perpendicular passes at column `x` of the
canonical line: 1 at column 0, and 1 at a later column exactly when the row
increased on entering it. -/
def stepAt (dx dy x : Int) : Int :=
  if x = 0 then 1 else if idealY dx dy x = idealY dx dy (x - 1) + 1 then 1 else 0

/-- The offsets plotted by iteration `i` of `PlotPerpLineL` started at
`(X, y0)`, written with the ideal rows: the offset `i` rows up, shifted left by
`idealY i`, then the gap pixel. -/
def thickL (p : Nat) (dx dy step X y0 i : Int) : List (Int × Int) :=
  (X - idealY dx dy i, y0 + i) ::
    (if idealY dx dy (i + 1) = idealY dx dy i + 1 ∧ (step = 1 ∧ i ≠ (p : Int))
      then [(X - idealY dx dy i - 1, y0 + i)] else [])

/-- The offsets plotted by iteration `i` of `PlotPerpLineR` started at
`(X, y0)`, written with the ideal rows. -/
def thickR (p : Nat) (dx dy step X y0 i : Int) : List (Int × Int) :=
  (if i ≠ 0 then [(X + idealY dx dy i, y0 - i)] else []) ++
    (if idealY dx dy (i + 1) = idealY dx dy i + 1 ∧ (step = 1 ∧ i ≠ (p : Int))
      then [(X + idealY dx dy i, y0 - i - 1)] else [])

/-- The offsets plotted at column `x` of the canonical line with pen size `p`. -/
def thickColumn (p : Nat) (dx dy x : Int) : List (Int × Int) :=
  (intRange 0 p).flatMap (thickL p dx dy (stepAt dx dy x) x (idealY dx dy x)) ++
    (intRange 0 p).flatMap (thickR p dx dy (stepAt dx dy x) x (idealY dx dy x))

/-- The shift of the perpendicular at signed level `i`: `idealY i` above the
line and `-(idealY (-i))` below it. -/
def perpShift (dx dy i : Int) : Int :=
  if 0 ≤ i then idealY dx dy i else -idealY dx dy (-i)

/-! ## Integer ranges -/

theorem mem_intRange {lo hi j : Int} : j ∈ intRange lo hi ↔ lo ≤ j ∧ j ≤ hi := by
  unfold intRange
  simp only [List.mem_map, List.mem_range]
  constructor
  · rintro ⟨k, hk, rfl⟩
    omega
  · rintro ⟨h1, h2⟩
    exact ⟨(j - lo).toNat, by omega, by omega⟩

theorem intRange_nodup (lo hi : Int) : (intRange lo hi).Nodup := by
  unfold intRange
  apply List.Nodup.map _ (List.nodup_range _)
  intro a b h
  simpa using h

theorem intRange_length (lo hi : Int) : (intRange lo hi).length = (hi + 1 - lo).toNat := by
  simp [intRange]

theorem intRange_empty {lo hi : Int} (h : hi < lo) : intRange lo hi = [] := by
  unfold intRange
  have : (hi + 1 - lo).toNat = 0 := by omega
  simp [this]

theorem intRange_cons {lo hi : Int} (h : lo ≤ hi) : intRange lo hi = lo :: intRange (lo + 1) hi := by
  unfold intRange
  have : (hi + 1 - lo).toNat = (hi + 1 - (lo + 1)).toNat + 1 := by omega
  rw [this, List.range_succ_eq_map]
  simp only [List.map_cons, List.map_map]
  congr 1
  · simp
  · apply List.map_congr_left
    intro k _
    simp only [Function.comp]
    push_cast
    ring

/-! ## The loops of `WriteGRAM` -/

theorem foldl_gramPage (x0 y0 x1 y1 : Int) (color : Nat) (ps : List Int) (o : oled_t) :
    ps.foldl (gramPage x0 y0 x1 y1 color) o =
      (ps.flatMap (fun i => (intRange x0 x1).map (fun j => (i, j)))).foldl (gramCell y0 y1 color) o := by
  induction ps generalizing o with
  | nil => rfl
  | cons p ps ih =>
    rw [List.foldl_cons, ih, List.flatMap_cons, List.foldl_append, List.foldl_map]
    rfl

theorem gramCell_eq (y0 y1 : Int) (color : Nat) (o : oled_t) (a : Int × Int) :
    gramCell y0 y1 color o a =
      { o with
        GRAM := Function.update o.GRAM (cellIndex a)
          (newByte color (pageMask y0 y1 a.1) (o.GRAM (cellIndex a)))
        bus := o.bus ++ [BusOp.write (newByte color (pageMask y0 y1 a.1) (o.GRAM (cellIndex a)))] } := by
  simp [gramCell, gramColumn, WriteByte, cellIndex]

theorem foldl_gramCell_frame (y0 y1 : Int) (color : Nat) (l : List (Int × Int)) (o : oled_t) :
    l.foldl (gramCell y0 y1 color) o =
      { o with GRAM := (l.foldl (gramCell y0 y1 color) o).GRAM
               bus := (l.foldl (gramCell y0 y1 color) o).bus } := by
  induction l generalizing o with
  | nil => rfl
  | cons a l ih =>
    rw [List.foldl_cons, ih, gramCell_eq]

theorem foldl_gramCell_miss (y0 y1 : Int) (color : Nat) (l : List (Int × Int)) (o : oled_t)
    (k : Nat) (h : ∀ a ∈ l, cellIndex a ≠ k) :
    (l.foldl (gramCell y0 y1 color) o).GRAM k = o.GRAM k := by
  induction l generalizing o with
  | nil => rfl
  | cons a l ih =>
    rw [List.foldl_cons, ih _ (fun b hb => h b (List.mem_cons_of_mem _ hb)), gramCell_eq]
    have : k ≠ cellIndex a := fun e => h a (List.mem_cons_self _ _) e.symm
    simp [Function.update_noteq this]

theorem foldl_gramCell_hit (y0 y1 : Int) (color : Nat) (l : List (Int × Int)) (o : oled_t)
    (hn : (l.map cellIndex).Nodup) (a : Int × Int) (ha : a ∈ l) :
    (l.foldl (gramCell y0 y1 color) o).GRAM (cellIndex a) =
      newByte color (pageMask y0 y1 a.1) (o.GRAM (cellIndex a)) := by
  induction l generalizing o with
  | nil => cases ha
  | cons b l ih =>
    rw [List.map_cons, List.nodup_cons] at hn
    rw [List.foldl_cons]
    rcases List.mem_cons.1 ha with rfl | hal
    · rw [foldl_gramCell_miss, gramCell_eq]
      · simp
      · intro c hc e
        exact hn.1 (e ▸ List.mem_map_of_mem _ hc)
    · rw [ih _ hn.2 hal, gramCell_eq]
      have : cellIndex a ≠ cellIndex b := fun e => hn.1 (e ▸ List.mem_map_of_mem _ hal)
      simp [Function.update_noteq this]

theorem foldl_gramCell_bus (y0 y1 : Int) (color : Nat) (l : List (Int × Int)) (o : oled_t)
    (hn : (l.map cellIndex).Nodup) :
    (l.foldl (gramCell y0 y1 color) o).bus =
      o.bus ++ l.map (fun a => BusOp.write (newByte color (pageMask y0 y1 a.1) (o.GRAM (cellIndex a)))) := by
  induction l generalizing o with
  | nil => simp
  | cons b l ih =>
    rw [List.map_cons, List.nodup_cons] at hn
    rw [List.foldl_cons, ih _ hn.2, gramCell_eq]
    simp only [List.map_cons, List.append_assoc, List.singleton_append]
    congr 2
    apply List.map_congr_left
    intro a ha
    have : cellIndex a ≠ cellIndex b := fun e => hn.1 (e ▸ List.mem_map_of_mem _ ha)
    simp [Function.update_noteq this]

/-! ## Closed form of `WriteGRAM` -/

theorem clip_bounds (x0 y0 x1 y1 : Int) :
    0 ≤ clipX0 x0 ∧ clipX1 x1 ≤ 127 ∧ 0 ≤ clipY0 y0 ∧ clipY1 y1 ≤ 63 := by
  unfold clipX0 clipX1 clipY0 clipY1 OLED_WIDTH OLED_HEIGHT
  refine ⟨?_, ?_, ?_, ?_⟩ <;> split <;> omega

theorem tdiv8 {y : Int} (h : 0 ≤ y) : y.tdiv 8 = y / 8 :=
  Int.tdiv_eq_ediv h (by norm_num)

theorem tmod8 {y : Int} (h : 0 ≤ y) : y.tmod 8 = y % 8 :=
  Int.tmod_eq_emod h (by norm_num)

theorem mem_gramCells {x0 y0 x1 y1 : Int} {a : Int × Int} :
    a ∈ gramCells x0 y0 x1 y1 ↔
      (y0.tdiv 8 ≤ a.1 ∧ a.1 ≤ y1.tdiv 8) ∧ (x0 ≤ a.2 ∧ a.2 ≤ x1) := by
  obtain ⟨p, j⟩ := a
  simp only [gramCells, List.mem_flatMap, List.mem_map, mem_intRange, Prod.mk.injEq]
  constructor
  · rintro ⟨i, hi, j', hj, rfl, rfl⟩
    exact ⟨hi, hj⟩
  · rintro ⟨hi, hj⟩
    exact ⟨p, hi, j, hj, rfl, rfl⟩

theorem gramCells_nodup (x0 y0 x1 y1 : Int) : (gramCells x0 y0 x1 y1).Nodup :=
  List.Nodup.product (intRange_nodup _ _) (intRange_nodup _ _)

theorem cellIndex_of_mem {x0 y0 x1 y1 : Int} (hx0 : 0 ≤ x0) (hx1 : x1 ≤ 127) (hy0 : 0 ≤ y0)
    {a : Int × Int} (ha : a ∈ gramCells x0 y0 x1 y1) :
    (((cellIndex a / 128 : Nat) : Int) = a.1) ∧ (((cellIndex a % 128 : Nat) : Int) = a.2) := by
  rw [mem_gramCells, tdiv8 hy0] at ha
  unfold cellIndex OLED_WIDTH
  omega

theorem gramCells_index_nodup {x0 y0 x1 y1 : Int} (hx0 : 0 ≤ x0) (hx1 : x1 ≤ 127) (hy0 : 0 ≤ y0) :
    ((gramCells x0 y0 x1 y1).map cellIndex).Nodup := by
  apply List.Nodup.map_on _ (gramCells_nodup _ _ _ _)
  intro a ha b hb e
  have h1 := cellIndex_of_mem hx0 hx1 hy0 ha
  have h2 := cellIndex_of_mem hx0 hx1 hy0 hb
  rw [e] at h1
  exact Prod.ext (h1.1.symm.trans h2.1) (h1.2.symm.trans h2.2)

theorem hitCell_iff {x0 y0 x1 y1 : Int} (hx0 : 0 ≤ x0) (hx1 : x1 ≤ 127) (hy0 : 0 ≤ y0)
    (hx : x0 ≤ x1) (hy : y0 ≤ y1) (k : Nat) :
    hitCell x0 y0 x1 y1 k ↔ ∃ a ∈ gramCells x0 y0 x1 y1, cellIndex a = k := by
  constructor
  · rintro ⟨_, _, h1, h2, h3, h4⟩
    refine ⟨(((k / 128 : Nat) : Int), ((k % 128 : Nat) : Int)), mem_gramCells.2 ⟨⟨h1, h2⟩, h3, h4⟩, ?_⟩
    unfold cellIndex OLED_WIDTH
    simp only
    omega
  · rintro ⟨a, ha, rfl⟩
    have h := cellIndex_of_mem hx0 hx1 hy0 ha
    rw [mem_gramCells] at ha
    refine ⟨hx, hy, ?_, ?_, ?_, ?_⟩ <;> omega

theorem toU8_of_lt {v : Int} (h0 : 0 ≤ v) (h1 : v < 256) : toU8 v = v.toNat := by
  unfold toU8
  congr 1
  omega

/-- The state in which `WriteGRAM` enters its page loop. -/
theorem WriteGRAM_unfold (o : oled_t) (x0 y0 x1 y1 : Int) (color : Nat) :
    WriteGRAM o x0 y0 x1 y1 color =
      if clipX1 x1 < clipX0 x0 then o
      else if clipY1 y1 < clipY0 y0 then o
      else SendStop ((gramCells (clipX0 x0) (clipY0 y0) (clipX1 x1) (clipY1 y1)).foldl
        (gramCell (clipY0 y0) (clipY1 y1) color)
        { o with bus := o.bus ++
            addrTrace o.slaveAddr (clipX0 x0) (clipY0 y0) (clipX1 x1) (clipY1 y1) }) := by
  obtain ⟨hx0, hx1, hy0, hy1⟩ := clip_bounds x0 y0 x1 y1
  have key : WriteGRAM o x0 y0 x1 y1 color =
      if clipX1 x1 < clipX0 x0 then o
      else if clipY1 y1 < clipY0 y0 then o
      else
        let o1 := SetColumnAddress
          (SetPageAddress o (toU8 ((clipY0 y0).tdiv 8)) (toU8 ((clipY1 y1).tdiv 8)))
          (toU8 (clipX0 x0)) (toU8 (clipX1 x1))
        SendStop ((intRange ((clipY0 y0).tdiv 8) ((clipY1 y1).tdiv 8)).foldl
          (gramPage (clipX0 x0) (clipY0 y0) (clipX1 x1) (clipY1 y1) color)
          (WriteByte (SendStart o1 o1.slaveAddr 0x00) 0x40)) := rfl
  rw [key]
  simp only []
  rw [foldl_gramPage]
  by_cases hx : clipX1 x1 < clipX0 x0
  · simp [hx]
  by_cases hy : clipY1 y1 < clipY0 y0
  · simp [hy]
  rw [if_neg hx, if_neg hy, if_neg hx, if_neg hy]
  have e1 : toU8 ((clipY0 y0).tdiv 8) = ((clipY0 y0).tdiv 8).toNat :=
    toU8_of_lt (by rw [tdiv8 hy0]; omega) (by rw [tdiv8 hy0]; omega)
  have e2 : toU8 ((clipY1 y1).tdiv 8) = ((clipY1 y1).tdiv 8).toNat :=
    toU8_of_lt (by rw [tdiv8 (by omega)]; omega) (by rw [tdiv8 (by omega)]; omega)
  have e3 : toU8 (clipX0 x0) = (clipX0 x0).toNat := toU8_of_lt hx0 (by omega)
  have e4 : toU8 (clipX1 x1) = (clipX1 x1).toNat := toU8_of_lt (by omega) (by omega)
  have g1 : ¬ (((clipY0 y0).tdiv 8).toNat > 7 ∨ ((clipY1 y1).tdiv 8).toNat > 7) := by
    rw [tdiv8 hy0, tdiv8 (by omega)]; omega
  have g2 : ¬ ((clipX0 x0).toNat > 127 ∨ (clipX1 x1).toNat > 127) := by omega
  rw [e1, e2, e3, e4]
  unfold SetPageAddress SetColumnAddress
  rw [if_neg g1]
  simp only [SendStart, WriteByte, SendStop, if_neg g2, gramCells, addrTrace, addrPrefix,
    SSD1306_SETPAGEADDRESS, SSD1306_SETCOLUMNADDRESS, List.append_assoc, List.cons_append,
    List.nil_append]

@[simp]
theorem SendStop_GRAM (o : oled_t) : (SendStop o).GRAM = o.GRAM := rfl

@[simp]
theorem SendStop_bus (o : oled_t) : (SendStop o).bus = o.bus ++ [BusOp.stop] := rfl

theorem length_flatMap_const {α β : Type} (l : List α) (f : α → List β) (n : Nat)
    (h : ∀ a, (f a).length = n) : (l.flatMap f).length = l.length * n := by
  induction l with
  | nil => simp
  | cons a l ih => rw [List.flatMap_cons, List.length_append, ih, h, List.length_cons]; ring

theorem WriteGRAM_frame (o : oled_t) (x0 y0 x1 y1 : Int) (color : Nat) :
    WriteGRAM o x0 y0 x1 y1 color =
      { o with GRAM := (WriteGRAM o x0 y0 x1 y1 color).GRAM
               bus := (WriteGRAM o x0 y0 x1 y1 color).bus } := by
  rw [WriteGRAM_unfold]
  split
  · rfl
  split
  · rfl
  rw [foldl_gramCell_frame]
  rfl

@[simp]
theorem WriteGRAM_slaveAddr (o : oled_t) (x0 y0 x1 y1 : Int) (color : Nat) :
    (WriteGRAM o x0 y0 x1 y1 color).slaveAddr = o.slaveAddr := by
  rw [WriteGRAM_frame]

@[simp]
theorem WriteGRAM_bkColor (o : oled_t) (x0 y0 x1 y1 : Int) (color : Nat) :
    (WriteGRAM o x0 y0 x1 y1 color).bkColor = o.bkColor := by
  rw [WriteGRAM_frame]

@[simp]
theorem WriteGRAM_color (o : oled_t) (x0 y0 x1 y1 : Int) (color : Nat) :
    (WriteGRAM o x0 y0 x1 y1 color).color = o.color := by
  rw [WriteGRAM_frame]

@[simp]
theorem WriteGRAM_penSize (o : oled_t) (x0 y0 x1 y1 : Int) (color : Nat) :
    (WriteGRAM o x0 y0 x1 y1 color).penSize = o.penSize := by
  rw [WriteGRAM_frame]

@[simp]
theorem WriteGRAM_font (o : oled_t) (x0 y0 x1 y1 : Int) (color : Nat) :
    (WriteGRAM o x0 y0 x1 y1 color).font = o.font := by
  rw [WriteGRAM_frame]

@[simp]
theorem WriteGRAM_bmMode (o : oled_t) (x0 y0 x1 y1 : Int) (color : Nat) :
    (WriteGRAM o x0 y0 x1 y1 color).bmMode = o.bmMode := by
  rw [WriteGRAM_frame]

@[simp]
theorem WriteGRAM_textMode (o : oled_t) (x0 y0 x1 y1 : Int) (color : Nat) :
    (WriteGRAM o x0 y0 x1 y1 color).textMode = o.textMode := by
  rw [WriteGRAM_frame]

/-- The mirror after `WriteGRAM`, byte by byte. -/
theorem WriteGRAM_GRAM (o : oled_t) (x0 y0 x1 y1 : Int) (color : Nat) (k : Nat) :
    (WriteGRAM o x0 y0 x1 y1 color).GRAM k =
      if hitCell (clipX0 x0) (clipY0 y0) (clipX1 x1) (clipY1 y1) k
      then newByte color (pageMask (clipY0 y0) (clipY1 y1) ((k / 128 : Nat) : Int)) (o.GRAM k)
      else o.GRAM k := by
  obtain ⟨hx0, hx1, hy0, hy1⟩ := clip_bounds x0 y0 x1 y1
  rw [WriteGRAM_unfold]
  by_cases hx : clipX1 x1 < clipX0 x0
  · have : ¬ hitCell (clipX0 x0) (clipY0 y0) (clipX1 x1) (clipY1 y1) k := fun h => by
      have := h.1; omega
    rw [if_pos hx, if_neg this]
  by_cases hy : clipY1 y1 < clipY0 y0
  · have : ¬ hitCell (clipX0 x0) (clipY0 y0) (clipX1 x1) (clipY1 y1) k := fun h => by
      have := h.2.1; omega
    rw [if_neg hx, if_pos hy, if_neg this]
  rw [if_neg hx, if_neg hy, SendStop_GRAM]
  by_cases hk : hitCell (clipX0 x0) (clipY0 y0) (clipX1 x1) (clipY1 y1) k
  · rw [if_pos hk]
    obtain ⟨a, ha, rfl⟩ := (hitCell_iff hx0 hx1 hy0 (by omega) (by omega) k).1 hk
    rw [foldl_gramCell_hit _ _ _ _ _ (gramCells_index_nodup hx0 hx1 hy0) a ha,
      (cellIndex_of_mem hx0 hx1 hy0 ha).1]
  · rw [if_neg hk]
    apply foldl_gramCell_miss
    intro a ha e
    exact hk ((hitCell_iff hx0 hx1 hy0 (by omega) (by omega) k).2 ⟨a, ha, e⟩)

/-- `WriteGRAM` returns the context as it was when the clipped rectangle is empty. -/
theorem WriteGRAM_of_empty (o : oled_t) (x0 y0 x1 y1 : Int) (color : Nat)
    (h : clipX1 x1 < clipX0 x0 ∨ clipY1 y1 < clipY0 y0) :
    WriteGRAM o x0 y0 x1 y1 color = o := by
  rw [WriteGRAM_unfold]
  by_cases hx : clipX1 x1 < clipX0 x0
  · rw [if_pos hx]
  · rw [if_neg hx, if_pos (h.resolve_left hx)]

/-- The bus trace of `WriteGRAM` for a rectangle whose clipped form is not
empty, with the data bytes expressed from the mirror before the call. -/
theorem WriteGRAM_bus_pre (o : oled_t) (x0 y0 x1 y1 : Int) (color : Nat)
    (hx : clipX0 x0 ≤ clipX1 x1) (hy : clipY0 y0 ≤ clipY1 y1) :
    (WriteGRAM o x0 y0 x1 y1 color).bus =
      o.bus ++ addrTrace o.slaveAddr (clipX0 x0) (clipY0 y0) (clipX1 x1) (clipY1 y1) ++
        (gramCells (clipX0 x0) (clipY0 y0) (clipX1 x1) (clipY1 y1)).map
          (fun a => BusOp.write
            (newByte color (pageMask (clipY0 y0) (clipY1 y1) a.1) (o.GRAM (cellIndex a)))) ++
        [BusOp.stop] := by
  obtain ⟨hx0, hx1, hy0, hy1⟩ := clip_bounds x0 y0 x1 y1
  rw [WriteGRAM_unfold, if_neg (by omega), if_neg (by omega), SendStop_bus,
    foldl_gramCell_bus _ _ _ _ _ (gramCells_index_nodup hx0 hx1 hy0)]

/-- The bus trace of `WriteGRAM` for a rectangle whose clipped form is not
empty, with the data bytes expressed from the mirror after the call. -/
theorem WriteGRAM_bus_post (o : oled_t) (x0 y0 x1 y1 : Int) (color : Nat)
    (hx : clipX0 x0 ≤ clipX1 x1) (hy : clipY0 y0 ≤ clipY1 y1) :
    (WriteGRAM o x0 y0 x1 y1 color).bus =
      o.bus ++ addrTrace o.slaveAddr (clipX0 x0) (clipY0 y0) (clipX1 x1) (clipY1 y1) ++
        (dataBytes (WriteGRAM o x0 y0 x1 y1 color).GRAM
          (clipX0 x0) (clipY0 y0) (clipX1 x1) (clipY1 y1)).map BusOp.write ++
        [BusOp.stop] := by
  obtain ⟨hx0, hx1, hy0, hy1⟩ := clip_bounds x0 y0 x1 y1
  rw [WriteGRAM_bus_pre o x0 y0 x1 y1 color hx hy]
  congr 2
  have e : dataBytes (WriteGRAM o x0 y0 x1 y1 color).GRAM
      (clipX0 x0) (clipY0 y0) (clipX1 x1) (clipY1 y1) =
      (gramCells (clipX0 x0) (clipY0 y0) (clipX1 x1) (clipY1 y1)).map
        (fun a => (WriteGRAM o x0 y0 x1 y1 color).GRAM (cellIndex a)) := by
    simp only [dataBytes, gramCells, List.map_flatMap, List.map_map]
    rfl
  rw [e, List.map_map]
  apply List.map_congr_left
  intro a ha
  simp only [Function.comp]
  rw [WriteGRAM_GRAM, if_pos ((hitCell_iff hx0 hx1 hy0 hx hy _).2 ⟨a, ha, rfl⟩),
    (cellIndex_of_mem hx0 hx1 hy0 ha).1]

theorem dataBytes_length (g : Nat → Nat) (x0 y0 x1 y1 : Int) :
    (dataBytes g x0 y0 x1 y1).length =
      (y1.tdiv 8 - y0.tdiv 8 + 1).toNat * (x1 - x0 + 1).toNat := by
  unfold dataBytes
  rw [length_flatMap_const _ _ (x1 - x0 + 1).toNat, intRange_length]
  · congr 2
    omega
  · intro a
    rw [List.length_map, intRange_length]
    congr 1
    omega

/-! ## Bit-level reading of the masks -/

theorem testBit_255 (j : Nat) : Nat.testBit 255 j = decide (j < 8) :=
  Nat.testBit_two_pow_sub_one 8 j

theorem testBit_not8 (m i : Nat) : (not8 m).testBit i = (decide (i < 8) && !m.testBit i) := by
  unfold not8
  rw [show (256 : Nat) = 2 ^ 8 from rfl, Nat.testBit_mod_two_pow, Nat.testBit_xor, testBit_255]
  by_cases h : i < 8 <;> simp [h]

theorem testBit_newByte (color m g i : Nat) :
    (newByte color m g).testBit i =
      (decide (i < 8) && (if color = 0 then (g.testBit i && m.testBit i)
        else (!m.testBit i || g.testBit i))) := by
  unfold newByte
  by_cases hc : color = 0
  · simp only [if_pos hc]
    rw [show (256 : Nat) = 2 ^ 8 from rfl, Nat.testBit_mod_two_pow, Nat.testBit_and]
  · simp only [if_neg hc]
    rw [show (256 : Nat) = 2 ^ 8 from rfl, Nat.testBit_mod_two_pow, Nat.testBit_or,
      Nat.testBit_and, testBit_not8]
    by_cases h : i < 8 <;> cases m.testBit i <;> cases g.testBit i <;> simp [h]

theorem testBit_pageMask {y0 y1 : Int} (hy0 : 0 ≤ y0) (hy1 : 0 ≤ y1) (p : Int) (i : Nat) :
    (pageMask y0 y1 p).testBit i =
      decide (i < 8 ∧ ((p = y0 / 8 ∧ (i : Int) < y0 % 8) ∨ (p = y1 / 8 ∧ y1 % 8 < (i : Int)))) := by
  unfold pageMask
  simp only []
  rw [tdiv8 hy0, tdiv8 hy1, tmod8 hy0, tmod8 hy1]
  have h256 : (256 : Nat) = 2 ^ 8 := rfl
  by_cases h0 : p = y0 / 8 <;> by_cases h1 : p = y1 / 8
  · rw [if_pos h0, if_pos h1, h256, Nat.testBit_mod_two_pow, Nat.testBit_or,
      Nat.testBit_mod_two_pow, Nat.testBit_shiftRight, Nat.testBit_shiftLeft, testBit_255,
      testBit_255]
    rw [Bool.eq_iff_iff]
    simp only [Bool.and_eq_true, Bool.or_eq_true, decide_eq_true_eq, h0, h1, true_and]
    omega
  · rw [if_pos h0, if_neg h1, h256, Nat.testBit_mod_two_pow, Nat.testBit_shiftRight, testBit_255]
    rw [Bool.eq_iff_iff]
    simp only [Bool.and_eq_true, decide_eq_true_eq, h0, h1, true_and, false_and, or_false]
    omega
  · rw [if_neg h0, if_pos h1, h256, Nat.testBit_mod_two_pow, Nat.testBit_or,
      Nat.testBit_shiftLeft, testBit_255]
    rw [Bool.eq_iff_iff]
    simp only [Nat.zero_testBit, Bool.false_or, Bool.and_eq_true, decide_eq_true_eq, h0, h1,
      true_and, false_and, false_or]
    omega
  · rw [if_neg h0, if_neg h1]
    simp [h0, h1]

/-- The mirror after `WriteGRAM`, bit by bit: in a visited byte the bits of the
rows `y0..y1` take the colour, the other bits of the low eight are kept. -/
theorem WriteGRAM_testBit (o : oled_t) (x0 y0 x1 y1 : Int) (color : Nat) (k i : Nat) :
    ((WriteGRAM o x0 y0 x1 y1 color).GRAM k).testBit i =
      if hitCell (clipX0 x0) (clipY0 y0) (clipX1 x1) (clipY1 y1) k then
        (decide (i < 8) &&
          (if clipY0 y0 ≤ 8 * ((k / 128 : Nat) : Int) + i ∧ 8 * ((k / 128 : Nat) : Int) + i ≤ clipY1 y1
           then decide (color ≠ 0) else (o.GRAM k).testBit i))
      else (o.GRAM k).testBit i := by
  obtain ⟨hx0, hx1, hy0, hy1⟩ := clip_bounds x0 y0 x1 y1
  rw [WriteGRAM_GRAM]
  by_cases hk : hitCell (clipX0 x0) (clipY0 y0) (clipX1 x1) (clipY1 y1) k
  · rw [if_pos hk, if_pos hk]
    obtain ⟨hx, hy, h1, h2, h3, h4⟩ := hk
    rw [tdiv8 hy0] at h1
    rw [tdiv8 (by omega)] at h2
    rw [testBit_newByte, testBit_pageMask hy0 (by omega)]
    by_cases hi : i < 8
    · by_cases hin : clipY0 y0 ≤ 8 * ((k / 128 : Nat) : Int) + i ∧
          8 * ((k / 128 : Nat) : Int) + i ≤ clipY1 y1
      · have hm : ¬ (i < 8 ∧ ((((k / 128 : Nat) : Int) = clipY0 y0 / 8 ∧ (i : Int) < clipY0 y0 % 8) ∨
            (((k / 128 : Nat) : Int) = clipY1 y1 / 8 ∧ clipY1 y1 % 8 < (i : Int)))) := by omega
        rw [if_pos hin, decide_eq_false hm]
        by_cases hc : color = 0 <;> simp [hc, hi]
      · have hm : (i < 8 ∧ ((((k / 128 : Nat) : Int) = clipY0 y0 / 8 ∧ (i : Int) < clipY0 y0 % 8) ∨
            (((k / 128 : Nat) : Int) = clipY1 y1 / 8 ∧ clipY1 y1 % 8 < (i : Int)))) := by omega
        rw [if_neg hin, decide_eq_true hm]
        by_cases hc : color = 0 <;> simp [hc, hi]
    · simp [hi]
  · rw [if_neg hk, if_neg hk]

theorem getPixel_eq (g : Nat → Nat) (x y : Int) :
    getPixel g x y =
      if (g (y.tdiv 8 * OLED_WIDTH + x).toNat).testBit (y.tmod 8).toNat then 1 else 0 := by
  unfold getPixel
  rw [Nat.testBit_to_div_mod]
  by_cases h : g (y.tdiv 8 * OLED_WIDTH + x).toNat / 2 ^ (y.tmod 8).toNat % 2 = 1
  · simp [h]
  · have : g (y.tdiv 8 * OLED_WIDTH + x).toNat / 2 ^ (y.tmod 8).toNat % 2 = 0 := by omega
    simp [this]

/-- Effect of `WriteGRAM` on a display pixel, for any colour argument. -/
theorem WriteGRAM_getPixel (o : oled_t) (x0 y0 x1 y1 : Int) (color : Nat) (x y : Int)
    (hx : 0 ≤ x ∧ x ≤ 127) (hy : 0 ≤ y ∧ y ≤ 63) :
    getPixel (WriteGRAM o x0 y0 x1 y1 color).GRAM x y =
      if (x0 ≤ x ∧ x ≤ x1) ∧ (y0 ≤ y ∧ y ≤ y1) then (if color = 0 then 0 else 1)
      else getPixel o.GRAM x y := by
  rw [getPixel_eq, getPixel_eq, WriteGRAM_testBit, tdiv8 hy.1, tmod8 hy.1]
  have hk1 : (((((y / 8 * OLED_WIDTH + x).toNat) / 128 : Nat)) : Int) = y / 8 := by
    unfold OLED_WIDTH; omega
  have hk2 : (((((y / 8 * OLED_WIDTH + x).toNat) % 128 : Nat)) : Int) = x := by
    unfold OLED_WIDTH; omega
  have hi : (y % 8).toNat < 8 := by omega
  have hi2 : (((y % 8).toNat : Nat) : Int) = y % 8 := by omega
  have hc : 0 ≤ clipX0 x0 ∧ clipX1 x1 ≤ 127 ∧ 0 ≤ clipY0 y0 ∧ clipY1 y1 ≤ 63 := clip_bounds x0 y0 x1 y1
  have cx0 : clipX0 x0 = max x0 0 := by unfold clipX0; split <;> omega
  have cx1 : clipX1 x1 = min x1 127 := by unfold clipX1 OLED_WIDTH; split <;> omega
  have cy0 : clipY0 y0 = max y0 0 := by unfold clipY0; split <;> omega
  have cy1 : clipY1 y1 = min y1 63 := by unfold clipY1 OLED_HEIGHT; split <;> omega
  simp only [hitCell, hk1, hk2, hi2, tdiv8 hc.2.2.1]
  by_cases hin : (x0 ≤ x ∧ x ≤ x1) ∧ (y0 ≤ y ∧ y ≤ y1)
  · have h1 : clipX0 x0 ≤ clipX1 x1 ∧ clipY0 y0 ≤ clipY1 y1 ∧ clipY0 y0 / 8 ≤ y / 8 ∧
        y / 8 ≤ (clipY1 y1).tdiv 8 ∧ clipX0 x0 ≤ x ∧ x ≤ clipX1 x1 := by
      rw [tdiv8 (by omega)]; omega
    have h2 : clipY0 y0 ≤ 8 * (y / 8) + y % 8 ∧ 8 * (y / 8) + y % 8 ≤ clipY1 y1 := by omega
    rw [if_pos h1, if_pos h2, if_pos hin]
    by_cases hc0 : color = 0 <;> simp [hc0, hi]
  · rw [if_neg hin]
    by_cases h1 : clipX0 x0 ≤ clipX1 x1 ∧ clipY0 y0 ≤ clipY1 y1 ∧ clipY0 y0 / 8 ≤ y / 8 ∧
        y / 8 ≤ (clipY1 y1).tdiv 8 ∧ clipX0 x0 ≤ x ∧ x ≤ clipX1 x1
    · have h2 : ¬ (clipY0 y0 ≤ 8 * (y / 8) + y % 8 ∧ 8 * (y / 8) + y % 8 ≤ clipY1 y1) := by omega
      rw [if_pos h1, if_neg h2]
      simp [hi]
    · rw [if_neg h1]

/-! ## Framebuffer synchronisation: claims C1 to C4 -/

/-- C1: `WriteGRAM` equals the naive per-pixel painter.  For all integers
`x0 y0 x1 y1`, every colour `c` in {0,1} and every initial mirror, after
`WriteGRAM o x0 y0 x1 y1 c` each display pixel `(x, y)` with `0 <= x <= 127`,
`0 <= y <= 63` equals `c` if `x0 <= x <= x1` and `y0 <= y <= y1`, and otherwise
keeps its previous value. -/
theorem WriteGRAM_eq_naivePaint (o : oled_t) (x0 y0 x1 y1 : Int) (c : Nat)
    (hc : c = 0 ∨ c = 1) (x y : Int) (hx : 0 ≤ x ∧ x ≤ 127) (hy : 0 ≤ y ∧ y ≤ 63) :
    getPixel (WriteGRAM o x0 y0 x1 y1 c).GRAM x y = naivePaint o.GRAM x0 y0 x1 y1 c x y := by
  rw [WriteGRAM_getPixel o x0 y0 x1 y1 c x y hx hy]
  unfold naivePaint
  rcases hc with rfl | rfl <;> simp

theorem WriteGRAM_eq_naivePaint_witness :
    ((1 : Nat) = 0 ∨ (1 : Nat) = 1) ∧ ((0 : Int) ≤ 10 ∧ (10 : Int) ≤ 127) ∧
      ((0 : Int) ≤ 7 ∧ (7 : Int) ≤ 63) ∧
      getPixel (WriteGRAM blank (-3) 5 200 20 1).GRAM 10 7 =
        naivePaint blank.GRAM (-3) 5 200 20 1 10 7 :=
  ⟨by decide, by decide, by decide,
    WriteGRAM_eq_naivePaint blank (-3) 5 200 20 1 (by decide) 10 7 (by decide) (by decide)⟩

/-- C2: mirror/hardware consistency of `WriteGRAM`.  Whenever the clipped
rectangle is non-empty, the bytes streamed after the 0x40 control byte are
exactly the post-update mirror bytes `GRAM[i*128+j]` for page `i` from `y0/8` to
`y1/8` (outer) and column `j` from `x0` to `x1` (inner), in that order; their
number is `(y1/8 - y0/8 + 1) * (x1 - x0 + 1)` (clipped coordinates); and every
mirror byte that changed is one of those sent. -/
theorem WriteGRAM_streams_mirror (o : oled_t) (x0 y0 x1 y1 : Int) (c : Nat)
    (hx : clipX0 x0 ≤ clipX1 x1) (hy : clipY0 y0 ≤ clipY1 y1) :
    (WriteGRAM o x0 y0 x1 y1 c).bus =
        o.bus ++ addrPrefix o.slaveAddr (clipX0 x0) (clipY0 y0) (clipX1 x1) (clipY1 y1) ++
          [BusOp.write 0x40] ++
          (dataBytes (WriteGRAM o x0 y0 x1 y1 c).GRAM
            (clipX0 x0) (clipY0 y0) (clipX1 x1) (clipY1 y1)).map BusOp.write ++
          [BusOp.stop] ∧
      (dataBytes (WriteGRAM o x0 y0 x1 y1 c).GRAM
          (clipX0 x0) (clipY0 y0) (clipX1 x1) (clipY1 y1)).length =
        ((clipY1 y1).tdiv 8 - (clipY0 y0).tdiv 8 + 1).toNat * (clipX1 x1 - clipX0 x0 + 1).toNat ∧
      ∀ k, (WriteGRAM o x0 y0 x1 y1 c).GRAM k ≠ o.GRAM k →
        ∃ i j, ((clipY0 y0).tdiv 8 ≤ i ∧ i ≤ (clipY1 y1).tdiv 8) ∧
          (clipX0 x0 ≤ j ∧ j ≤ clipX1 x1) ∧ k = (i * OLED_WIDTH + j).toNat := by
  obtain ⟨hx0, hx1, hy0, hy1⟩ := clip_bounds x0 y0 x1 y1
  refine ⟨?_, dataBytes_length _ _ _ _ _, ?_⟩
  · rw [WriteGRAM_bus_post o x0 y0 x1 y1 c hx hy]
    simp [addrTrace]
  · intro k hk
    rw [WriteGRAM_GRAM] at hk
    by_cases h : hitCell (clipX0 x0) (clipY0 y0) (clipX1 x1) (clipY1 y1) k
    · obtain ⟨a, ha, rfl⟩ := (hitCell_iff hx0 hx1 hy0 hx hy k).1 h
      exact ⟨a.1, a.2, (mem_gramCells.1 ha).1, (mem_gramCells.1 ha).2, rfl⟩
    · rw [if_neg h] at hk
      exact absurd rfl hk

theorem WriteGRAM_streams_mirror_witness :
    clipX0 3 ≤ clipX1 9 ∧ clipY0 5 ≤ clipY1 20 ∧
      (dataBytes (WriteGRAM blank 3 5 9 20 1).GRAM (clipX0 3) (clipY0 5) (clipX1 9) (clipY1 20)).length =
        ((clipY1 20).tdiv 8 - (clipY0 5).tdiv 8 + 1).toNat * (clipX1 9 - clipX0 3 + 1).toNat :=
  ⟨by decide, by decide, (WriteGRAM_streams_mirror blank 3 5 9 20 1 (by decide) (by decide)).2.1⟩

/-- C3: for every rectangle that does not intersect the display (`x1 < 0`,
`x0 > 127`, `y1 < 0`, `y0 > 63`) or is empty (`x1 < x0` or `y1 < y0`),
`WriteGRAM` performs no bus operation and leaves the mirror, and the whole
context, unchanged. -/
theorem WriteGRAM_outside_noop (o : oled_t) (x0 y0 x1 y1 : Int) (c : Nat)
    (h : x1 < 0 ∨ x0 > 127 ∨ y1 < 0 ∨ y0 > 63 ∨ x1 < x0 ∨ y1 < y0) :
    (WriteGRAM o x0 y0 x1 y1 c).bus = o.bus ∧ (WriteGRAM o x0 y0 x1 y1 c).GRAM = o.GRAM ∧
      WriteGRAM o x0 y0 x1 y1 c = o := by
  have e : WriteGRAM o x0 y0 x1 y1 c = o := by
    apply WriteGRAM_of_empty
    unfold clipX0 clipX1 clipY0 clipY1 OLED_WIDTH OLED_HEIGHT
    split <;> split <;> split <;> split <;> omega
  rw [e]
  exact ⟨rfl, rfl, rfl⟩

theorem WriteGRAM_outside_noop_witness :
    ((-1 : Int) < 0 ∨ (-5 : Int) > 127 ∨ (30 : Int) < 0 ∨ (10 : Int) > 63 ∨
        (-1 : Int) < -5 ∨ (30 : Int) < 10) ∧
      WriteGRAM blank (-5) 10 (-1) 30 1 = blank :=
  ⟨by decide, (WriteGRAM_outside_noop blank (-5) 10 (-1) 30 1 (by decide)).2.2⟩

/-- C4: for every rectangle whose clipped form is non-empty, the bus trace of
`WriteGRAM` is exactly three transactions in this order: Start(addr,0), bytes
0x00, 0x22, y0/8, y1/8, Stop; Start(addr,0), bytes 0x00, 0x21, x0, x1, Stop;
Start(addr,0), byte 0x40, the data bytes, Stop (clipped coordinates).  The
range guards of `SetPageAddress` and `SetColumnAddress` are false for the
arguments passed by `WriteGRAM`. -/
theorem WriteGRAM_three_transactions (o : oled_t) (x0 y0 x1 y1 : Int) (c : Nat)
    (hx : clipX0 x0 ≤ clipX1 x1) (hy : clipY0 y0 ≤ clipY1 y1) :
    (WriteGRAM o x0 y0 x1 y1 c).bus =
        o.bus ++
          [BusOp.start o.slaveAddr 0, BusOp.write 0x00, BusOp.write 0x22,
            BusOp.write (clipY0 y0 / 8).toNat, BusOp.write (clipY1 y1 / 8).toNat, BusOp.stop] ++
          [BusOp.start o.slaveAddr 0, BusOp.write 0x00, BusOp.write 0x21,
            BusOp.write (clipX0 x0).toNat, BusOp.write (clipX1 x1).toNat, BusOp.stop] ++
          ([BusOp.start o.slaveAddr 0, BusOp.write 0x40] ++
            (dataBytes (WriteGRAM o x0 y0 x1 y1 c).GRAM
              (clipX0 x0) (clipY0 y0) (clipX1 x1) (clipY1 y1)).map BusOp.write ++
            [BusOp.stop]) ∧
      ¬ (toU8 ((clipY0 y0).tdiv 8) > 7 ∨ toU8 ((clipY1 y1).tdiv 8) > 7) ∧
      ¬ (toU8 (clipX0 x0) > 127 ∨ toU8 (clipX1 x1) > 127) := by
  obtain ⟨hx0, hx1, hy0, hy1⟩ := clip_bounds x0 y0 x1 y1
  refine ⟨?_, ?_, ?_⟩
  · rw [WriteGRAM_bus_post o x0 y0 x1 y1 c hx hy]
    simp [addrTrace, addrPrefix, tdiv8 hy0, tdiv8 (le_trans hy0 hy)]
  · rw [tdiv8 hy0, tdiv8 (le_trans hy0 hy)]
    unfold toU8
    omega
  · unfold toU8
    omega

theorem WriteGRAM_three_transactions_witness :
    clipX0 (-4) ≤ clipX1 300 ∧ clipY0 5 ≤ clipY1 20 ∧
      ¬ (toU8 ((clipY0 5).tdiv 8) > 7 ∨ toU8 ((clipY1 20).tdiv 8) > 7) :=
  ⟨by decide, by decide,
    (WriteGRAM_three_transactions blank (-4) 5 300 20 0 (by decide) (by decide)).2.1⟩

/-! ## Bitmap compositing: claim C5 -/

theorem bitmapColor_le_one (bitmap : Nat → Nat) (width : Nat) (i j : Int) :
    bitmapColor bitmap width i j = 0 ∨ bitmapColor bitmap width i j = 1 := by
  unfold bitmapColor
  have h := Nat.and_one_is_mod (bitmap (i * (((width : Int) - 1).tdiv 8 + 1) + j.tdiv 8).toNat >>> (j.tmod 8).toNat)
  omega

theorem bitmapPixel_normal (x0 y0 : Int) (bitmap : Nat → Nat) (width : Nat) (i : Int)
    (o : oled_t) (j : Int) (hm : o.bmMode = OLED_BM_NORMAL) :
    bitmapPixel x0 y0 bitmap width i o j =
      WriteGRAM o (x0 + j) (y0 + i) (x0 + j) (y0 + i) (bitmapColor bitmap width i j) := by
  unfold bitmapPixel
  simp [hm, OLED_BM_NORMAL, OLED_BM_WHITE_TRAN, OLED_BM_BLACK_TRAN, OLED_BM_WHITE_FILL,
    OLED_BM_BLACK_FILL]

theorem foldl_bitmapPixel_normal (x0 y0 : Int) (bitmap : Nat → Nat) (width : Nat) (i : Int)
    (js : List Int) (o : oled_t) (hm : o.bmMode = OLED_BM_NORMAL) (x y : Int)
    (hx : 0 ≤ x ∧ x ≤ 127) (hy : 0 ≤ y ∧ y ≤ 63) :
    (js.foldl (bitmapPixel x0 y0 bitmap width i) o).bmMode = OLED_BM_NORMAL ∧
    getPixel (js.foldl (bitmapPixel x0 y0 bitmap width i) o).GRAM x y =
      if y = y0 + i ∧ (x - x0) ∈ js then bitmapColor bitmap width i (x - x0)
      else getPixel o.GRAM x y := by
  induction js generalizing o with
  | nil => simp [hm]
  | cons j js ih =>
    rw [List.foldl_cons, bitmapPixel_normal _ _ _ _ _ _ _ hm]
    have hm2 : (WriteGRAM o (x0 + j) (y0 + i) (x0 + j) (y0 + i)
        (bitmapColor bitmap width i j)).bmMode = OLED_BM_NORMAL := by
      rw [WriteGRAM_bmMode, hm]
    refine ⟨(ih _ hm2).1, ?_⟩
    rw [(ih _ hm2).2, WriteGRAM_getPixel _ _ _ _ _ _ _ _ hx hy]
    by_cases h1 : y = y0 + i ∧ (x - x0) ∈ js
    · have : y = y0 + i ∧ (x - x0) ∈ j :: js := ⟨h1.1, List.mem_cons_of_mem _ h1.2⟩
      rw [if_pos h1, if_pos this]
    · rw [if_neg h1]
      by_cases h2 : (x0 + j ≤ x ∧ x ≤ x0 + j) ∧ (y0 + i ≤ y ∧ y ≤ y0 + i)
      · have hj : x - x0 = j := by omega
        have : y = y0 + i ∧ (x - x0) ∈ j :: js := ⟨by omega, by rw [hj]; exact List.mem_cons_self _ _⟩
        rw [if_pos h2, if_pos this, hj]
        rcases bitmapColor_le_one bitmap width i j with h | h <;> rw [h] <;> rfl
      · have : ¬ (y = y0 + i ∧ (x - x0) ∈ j :: js) := by
          rintro ⟨e1, e2⟩
          rcases List.mem_cons.1 e2 with e | e
          · exact h2 (by omega)
          · exact h1 ⟨e1, e⟩
        rw [if_neg h2, if_neg this]

theorem foldl_bitmapRow_normal (x0 y0 : Int) (bitmap : Nat → Nat) (width : Nat)
    (is : List Int) (o : oled_t) (hm : o.bmMode = OLED_BM_NORMAL) (x y : Int)
    (hx : 0 ≤ x ∧ x ≤ 127) (hy : 0 ≤ y ∧ y ≤ 63) :
    (is.foldl (bitmapRow x0 y0 bitmap width) o).bmMode = OLED_BM_NORMAL ∧
    getPixel (is.foldl (bitmapRow x0 y0 bitmap width) o).GRAM x y =
      if (y - y0) ∈ is ∧ (x - x0) ∈ intRange 0 ((width : Int) - 1)
      then bitmapColor bitmap width (y - y0) (x - x0)
      else getPixel o.GRAM x y := by
  induction is generalizing o with
  | nil => simp [hm]
  | cons i is ih =>
    rw [List.foldl_cons]
    have hrow := foldl_bitmapPixel_normal x0 y0 bitmap width i (intRange 0 ((width : Int) - 1))
      o hm x y hx hy
    have hm2 : (bitmapRow x0 y0 bitmap width o i).bmMode = OLED_BM_NORMAL := hrow.1
    refine ⟨(ih _ hm2).1, ?_⟩
    rw [(ih _ hm2).2]
    have hrow2 : getPixel (bitmapRow x0 y0 bitmap width o i).GRAM x y = _ := hrow.2
    rw [hrow2]
    by_cases h1 : (y - y0) ∈ is ∧ (x - x0) ∈ intRange 0 ((width : Int) - 1)
    · have : (y - y0) ∈ i :: is ∧ (x - x0) ∈ intRange 0 ((width : Int) - 1) :=
        ⟨List.mem_cons_of_mem _ h1.1, h1.2⟩
      rw [if_pos h1, if_pos this]
    · rw [if_neg h1]
      by_cases h2 : y = y0 + i ∧ (x - x0) ∈ intRange 0 ((width : Int) - 1)
      · have hi : y - y0 = i := by omega
        have : (y - y0) ∈ i :: is ∧ (x - x0) ∈ intRange 0 ((width : Int) - 1) :=
          ⟨by rw [hi]; exact List.mem_cons_self _ _, h2.2⟩
        rw [if_pos h2, if_pos this, hi]
      · have : ¬ ((y - y0) ∈ i :: is ∧ (x - x0) ∈ intRange 0 ((width : Int) - 1)) := by
          rintro ⟨e1, e2⟩
          rcases List.mem_cons.1 e1 with e | e
          · exact h2 ⟨by omega, e2⟩
          · exact h1 ⟨e, e2⟩
        rw [if_neg h2, if_neg this]

/-- The source bit read by the code is the bit of the packed bitmap with
`ceil(w/8)` bytes per row. -/
theorem bitmapColor_eq (bitmap : Nat → Nat) (w i j : Nat) (hj : j < w) :
    bitmapColor bitmap w (i : Int) (j : Int) =
      (bitmap (i * ((w + 7) / 8) + j / 8) >>> (j % 8)) &&& 1 := by
  unfold bitmapColor
  rw [tdiv8 (by omega), tdiv8 (by omega), tmod8 (by omega)]
  have e1 : (((i : Int) * (((w : Int) - 1) / 8 + 1) + (j : Int) / 8)).toNat =
      i * ((w + 7) / 8) + j / 8 := by
    have h2 : ((w : Int) - 1) / 8 + 1 = (((w + 7) / 8 : Nat) : Int) := by omega
    rw [h2]
    have h3 : ((j : Int) / 8) = ((j / 8 : Nat) : Int) := by omega
    rw [h3]
    have : ((i : Int) * (((w + 7) / 8 : Nat) : Int) + ((j / 8 : Nat) : Int)) =
        ((i * ((w + 7) / 8) + j / 8 : Nat) : Int) := by push_cast; ring
    rw [this, Int.toNat_ofNat]
  have e2 : ((j : Int) % 8).toNat = j % 8 := by omega
  rw [e1, e2]

/-- C5: bitmap round trip in NORMAL mode.  For every packed bitmap of width `w`
and height `h` and every origin `(x0, y0)`, after `oled_DispBitmap` with
`bmMode = OLED_BM_NORMAL` each on-display pixel `(x0+j, y0+i)` with `0 <= i < h`,
`0 <= j < w` equals the source bit `(bitmap[i*ceil(w/8) + j/8] >> (j%8)) & 1`,
whatever the foreground/background colours and the previous mirror. -/
theorem DispBitmap_normal_roundtrip (o : oled_t) (hm : o.bmMode = OLED_BM_NORMAL)
    (x0 y0 : Int) (bitmap : Nat → Nat) (w h i j : Nat) (hi : i < h) (hj : j < w)
    (hx : 0 ≤ x0 + j ∧ x0 + j ≤ 127) (hy : 0 ≤ y0 + i ∧ y0 + i ≤ 63) :
    getPixel (oled_DispBitmap o x0 y0 bitmap w h).GRAM (x0 + j) (y0 + i) =
      (bitmap (i * ((w + 7) / 8) + j / 8) >>> (j % 8)) &&& 1 := by
  unfold oled_DispBitmap
  rw [(foldl_bitmapRow_normal x0 y0 bitmap w _ o hm (x0 + j) (y0 + i) hx hy).2]
  have h1 : (y0 + (i : Int) - y0) ∈ intRange 0 ((h : Int) - 1) ∧
      (x0 + (j : Int) - x0) ∈ intRange 0 ((w : Int) - 1) := by
    rw [mem_intRange, mem_intRange]; omega
  rw [if_pos h1]
  have e1 : y0 + (i : Int) - y0 = i := by omega
  have e2 : x0 + (j : Int) - x0 = j := by omega
  rw [e1, e2, bitmapColor_eq bitmap w i j hj]

theorem DispBitmap_normal_roundtrip_witness :
    blank.bmMode = OLED_BM_NORMAL ∧ 1 < 3 ∧ 9 < 12 ∧
      ((0 : Int) ≤ 110 + (9 : Nat) ∧ (110 : Int) + (9 : Nat) ≤ 127) ∧
      ((0 : Int) ≤ -1 + (1 : Nat) ∧ (-1 : Int) + (1 : Nat) ≤ 63) ∧
      getPixel (oled_DispBitmap blank 110 (-1) (fun n => 37 * n + 5) 12 3).GRAM
          (110 + (9 : Nat)) (-1 + (1 : Nat)) =
        ((fun n => 37 * n + 5) (1 * ((12 + 7) / 8) + 9 / 8) >>> (9 % 8)) &&& 1 :=
  ⟨rfl, by decide, by decide, by decide, by decide,
    DispBitmap_normal_roundtrip blank rfl 110 (-1) (fun n => 37 * n + 5) 12 3 1 9
      (by decide) (by decide) (by decide) (by decide)⟩

/-! ## Lines: claims C6 and C7 -/

/-- C6: `oled_DrawLine` is symmetric in its endpoints: for all integers
`x0 y0 x1 y1`, every pen size and every initial context, the mirror after
`oled_DrawLine o x0 y0 x1 y1` equals the mirror after
`oled_DrawLine o x1 y1 x0 y0`; the two calls even yield the same context, bus
trace included. -/
theorem DrawLine_symmetric (o : oled_t) (x0 y0 x1 y1 : Int) :
    (oled_DrawLine o x0 y0 x1 y1).GRAM = (oled_DrawLine o x1 y1 x0 y0).GRAM ∧
      oled_DrawLine o x0 y0 x1 y1 = oled_DrawLine o x1 y1 x0 y0 := by
  have e : oled_DrawLine o x0 y0 x1 y1 = oled_DrawLine o x1 y1 x0 y0 := by
    unfold oled_DrawLine
    by_cases hx : x0 = x1
    · subst hx
      rw [if_pos rfl, if_pos rfl]
      unfold DrawVLine
      by_cases h1 : y1 ≤ y0 <;> by_cases h2 : y0 ≤ y1
      · have : y0 = y1 := by omega
        subst this
        rfl
      · rw [if_pos h1, if_neg h2]
      · rw [if_neg h1, if_pos h2]
      · omega
    · have hx2 : ¬ x1 = x0 := fun h => hx h.symm
      rw [if_neg hx, if_neg hx2]
      by_cases hy : y0 = y1
      · subst hy
        rw [if_pos rfl, if_pos rfl]
        unfold DrawHLine
        by_cases h1 : x1 ≤ x0
        · rw [if_pos h1, if_neg (by omega)]
        · rw [if_neg h1, if_pos (by omega)]
      · have hy2 : ¬ y1 = y0 := fun h => hy h.symm
        rw [if_neg hy, if_neg hy2]
        by_cases h1 : x1 < x0
        · rw [if_pos h1, if_neg (by omega)]
        · rw [if_neg h1, if_pos (by omega)]
  exact ⟨by rw [e], e⟩

/-- C7: axis-aligned lines are one rectangle fill.  For every pen size `p`,
`oled_DrawLine o x0 y x1 y` is the single `WriteGRAM` of the rectangle
`[min(x0,x1)-p .. max(x0,x1)+p] x [y-p .. y+p]` in the foreground colour, and
`oled_DrawLine o x y0 x y1` the one of `[x-p .. x+p] x [min(y0,y1)-p ..
max(y0,y1)+p]` (same mirror and bus trace); with `p = 0` they coincide with
`oled_FillRect` of the one-row / one-column rectangle between the endpoints. -/
theorem DrawLine_axis_aligned (o : oled_t) (x0 x1 y0 y1 x y : Int) :
    oled_DrawLine o x0 y x1 y =
        WriteGRAM o (min x0 x1 - o.penSize) (y - o.penSize) (max x0 x1 + o.penSize)
          (y + o.penSize) o.color ∧
      oled_DrawLine o x y0 x y1 =
        WriteGRAM o (x - o.penSize) (min y0 y1 - o.penSize) (x + o.penSize)
          (max y0 y1 + o.penSize) o.color ∧
      (o.penSize = 0 →
        oled_DrawLine o x0 y x1 y = oled_FillRect o (min x0 x1) y (max x0 x1) y ∧
        oled_DrawLine o x y0 x y1 = oled_FillRect o x (min y0 y1) x (max y0 y1)) := by
  have hH : oled_DrawLine o x0 y x1 y =
      WriteGRAM o (min x0 x1 - o.penSize) (y - o.penSize) (max x0 x1 + o.penSize)
        (y + o.penSize) o.color := by
    unfold oled_DrawLine
    by_cases hx : x0 = x1
    · subst hx
      rw [if_pos rfl]
      unfold DrawVLine
      rw [if_pos (le_refl _), min_self, max_self]
    · rw [if_neg hx, if_pos rfl]
      unfold DrawHLine
      by_cases h : x1 ≤ x0
      · rw [if_pos h, min_eq_right h, max_eq_left h]
      · rw [if_neg h, min_eq_left (by omega), max_eq_right (by omega)]
  have hV : oled_DrawLine o x y0 x y1 =
      WriteGRAM o (x - o.penSize) (min y0 y1 - o.penSize) (x + o.penSize)
        (max y0 y1 + o.penSize) o.color := by
    unfold oled_DrawLine
    rw [if_pos rfl]
    unfold DrawVLine
    by_cases h : y1 ≤ y0
    · rw [if_pos h, min_eq_right h, max_eq_left h]
    · rw [if_neg h, min_eq_left (by omega), max_eq_right (by omega)]
  refine ⟨hH, hV, ?_⟩
  intro hp
  rw [hH, hV, hp]
  unfold oled_FillRect
  simp

theorem DrawLine_axis_aligned_witness :
    blank.penSize = 0 ∧
      oled_DrawLine blank 96 32 32 32 = oled_FillRect blank (min 96 32) 32 (max 96 32) 32 :=
  ⟨rfl, ((DrawLine_axis_aligned blank 96 32 16 48 64 32).2.2 rfl).1⟩

/-! ## The circle loop as a list of rectangle fills -/

theorem foldl_fill_ite (c : Prop) [Decidable c] (o : oled_t) (r : Rect) :
    (if c then [r] else []).foldl fillRectCall o = if c then fillRectCall o r else o := by
  split <;> rfl

theorem fillRectCall_color (o : oled_t) (r : Rect) : (fillRectCall o r).color = o.color := by
  unfold fillRectCall
  rw [WriteGRAM_color]

theorem foldl_fillRectCall_color (rs : List Rect) (o : oled_t) :
    (rs.foldl fillRectCall o).color = o.color := by
  induction rs generalizing o with
  | nil => rfl
  | cons r rs ih => rw [List.foldl_cons, ih, fillRectCall_color]

theorem PlotCircle_eq_foldl (o : oled_t) (xc yc x yIn yOut : Int) (octants : Nat) :
    PlotCircle o xc yc x yIn yOut octants =
      (plotRects xc yc x yIn yOut octants).foldl fillRectCall o := by
  unfold PlotCircle plotRects
  simp only [List.foldl_append, foldl_fill_ite]
  rfl

theorem circleLoop_eq (xc yc : Int) (octants : Nat) (fuel : Nat) (v : CircleVars) (o : oled_t) :
    circleLoop xc yc octants fuel v o =
      (circleSteps fuel v).map (fun l =>
        (l.flatMap (fun v => plotRects xc yc v.x v.yIn v.yOut octants)).foldl fillRectCall o) := by
  induction fuel generalizing v o with
  | zero =>
    unfold circleLoop circleSteps
    split <;> rfl
  | succ n ih =>
    unfold circleLoop circleSteps
    by_cases h : v.yIn ≤ v.yOut
    · rw [if_pos h, if_pos h, ih, Option.map_map]
      congr 1
      funext l
      simp only [Function.comp, List.flatMap_cons, List.foldl_append, PlotCircle_eq_foldl]
    · rw [if_neg h, if_neg h]
      rfl

/-- The fuel of the embedding is enough: the measure
`2 * max 0 (yIn - x) + max 0 (yOut - yIn + 1)` drops at every iteration, so the
loop leaves within that many iterations. -/
theorem circleSteps_fuel (fuel : Nat) (v : CircleVars)
    (h : (2 * max 0 (v.yIn - v.x) + max 0 (v.yOut - v.yIn + 1)).toNat ≤ fuel) :
    ∃ l, circleSteps fuel v = some l := by
  induction fuel generalizing v with
  | zero =>
    unfold circleSteps
    rw [if_neg (by omega)]
    exact ⟨[], rfl⟩
  | succ n ih =>
    unfold circleSteps
    by_cases hc : v.yIn ≤ v.yOut
    · rw [if_pos hc]
      have hn : (2 * max 0 ((circleNext v).yIn - (circleNext v).x) +
          max 0 ((circleNext v).yOut - (circleNext v).yIn + 1)).toNat ≤ n := by
        unfold circleNext
        simp only []
        split_ifs <;> omega
      obtain ⟨l, hl⟩ := ih (circleNext v) hn
      exact ⟨v :: l, by rw [hl]; rfl⟩
    · rw [if_neg hc]
      exact ⟨[], rfl⟩

/-- The loop of `BresenhamCircleAlgorithm` leaves before the fuel of the
embedding runs out, for all radii. -/
theorem circleSteps_circleFuel (rIn rOut : Int) :
    ∃ l, circleSteps (circleFuel rIn rOut)
      { x := 0, yIn := rIn, yOut := rOut, dIn := 3 - 2 * rIn, dOut := 3 - 2 * rOut } = some l := by
  apply circleSteps_fuel
  unfold circleFuel
  simp only [sub_zero]
  exact le_refl _

/-- The `while` loop of `BresenhamCircleAlgorithm` returns: with the fuel of the
embedding `circleLoop` never reports exhaustion, whatever the radii. -/
theorem circleLoop_returns (o : oled_t) (xc yc rIn rOut : Int) (octants : Nat) :
    ∃ o', circleLoop xc yc octants (circleFuel rIn rOut)
      { x := 0, yIn := rIn, yOut := rOut, dIn := 3 - 2 * rIn, dOut := 3 - 2 * rOut } o =
        some o' := by
  obtain ⟨l, hl⟩ := circleSteps_circleFuel rIn rOut
  rw [circleLoop_eq, hl]
  exact ⟨_, rfl⟩

/-- The circle rasterizer is the sequence of `WriteGRAM` calls listed by
`circleRects`. -/
theorem BresenhamCircleAlgorithm_eq_foldl (o : oled_t) (xc yc rIn rOut : Int) (octants : Nat) :
    BresenhamCircleAlgorithm o xc yc rIn rOut octants =
      (circleRects xc yc rIn rOut octants).foldl fillRectCall o := by
  unfold BresenhamCircleAlgorithm circleRects
  by_cases h : rIn > rOut ∨ rOut = 0
  · rw [if_pos h, if_pos h]
    rfl
  · rw [if_neg h, if_neg h, circleLoop_eq]
    unfold circleTrace
    obtain ⟨l, hl⟩ := circleSteps_circleFuel rIn rOut
    rw [hl]
    rfl

/-! ## Sequences of fills in one colour -/

theorem fillRectCall_testBit (o : oled_t) (r : Rect) (k i : Nat) :
    ((fillRectCall o r).GRAM k).testBit i = true ↔
      (hits r k ∧ i < 8 ∧ ((covers r k i ∧ o.color ≠ 0) ∨
          (¬ covers r k i ∧ (o.GRAM k).testBit i = true))) ∨
        (¬ hits r k ∧ (o.GRAM k).testBit i = true) := by
  unfold fillRectCall covers hits
  rw [WriteGRAM_testBit]
  by_cases hh : hitCell (clipX0 r.x0) (clipY0 r.y0) (clipX1 r.x1) (clipY1 r.y1) k
  · by_cases hc : clipY0 r.y0 ≤ 8 * ((k / 128 : Nat) : Int) + i ∧
        8 * ((k / 128 : Nat) : Int) + i ≤ clipY1 r.y1
    · rw [if_pos hh, if_pos hc]
      simp only [Bool.and_eq_true, decide_eq_true_eq]
      tauto
    · rw [if_pos hh, if_neg hc]
      simp only [Bool.and_eq_true, decide_eq_true_eq]
      tauto
  · rw [if_neg hh]
    tauto

/-- The mirror after a sequence of fills in the foreground colour, bit by bit:
it depends only on which bytes are visited and which bits are covered. -/
theorem foldl_fill_testBit (rs : List Rect) (o : oled_t) (k i : Nat) :
    ((rs.foldl fillRectCall o).GRAM k).testBit i = true ↔
      ((∃ r ∈ rs, hits r k) ∧ i < 8 ∧
          (((∃ r ∈ rs, covers r k i) ∧ o.color ≠ 0) ∨
            (¬ (∃ r ∈ rs, covers r k i) ∧ (o.GRAM k).testBit i = true))) ∨
        (¬ (∃ r ∈ rs, hits r k) ∧ (o.GRAM k).testBit i = true) := by
  induction rs generalizing o with
  | nil => simp
  | cons r rs ih =>
    rw [List.foldl_cons, ih, fillRectCall_color, fillRectCall_testBit]
    have hDB : (∃ r ∈ rs, covers r k i) → (∃ r ∈ rs, hits r k) := by
      rintro ⟨r', h1, h2⟩
      exact ⟨r', h1, h2.1⟩
    have hCA : covers r k i → hits r k := fun h => h.1
    simp only [List.exists_mem_cons_iff]
    generalize (∃ r ∈ rs, covers r k i) = D at *
    generalize (∃ r ∈ rs, hits r k) = B at *
    generalize covers r k i = C at *
    generalize hits r k = A at *
    generalize ((o.GRAM k).testBit i = true) = G at *
    by_cases hA : A <;> by_cases hB : B <;> by_cases hC : C <;> by_cases hD : D <;>
      simp only [hA, hB, hC, hD, true_and, false_and, and_true, and_false, true_or, false_or,
        or_true, or_false, not_true_eq_false, not_false_eq_true, true_implies, false_implies,
        imp_false] at hDB hCA ⊢ <;> tauto

theorem foldl_fill_GRAM_congr (l1 l2 : List Rect) (h : ∀ r, r ∈ l1 ↔ r ∈ l2) (o : oled_t) :
    (l1.foldl fillRectCall o).GRAM = (l2.foldl fillRectCall o).GRAM := by
  funext k
  apply Nat.eq_of_testBit_eq
  intro i
  rw [Bool.eq_iff_iff, foldl_fill_testBit, foldl_fill_testBit]
  simp only [h]

/-! ## Circles, arcs and pies: claims C8 to C10 -/

theorem painted_flatMap {α : Type} (l : List α) (f : α → List Rect) (x y : Int) :
    painted (l.flatMap f) x y ↔ ∃ v ∈ l, painted (f v) x y := by
  unfold painted
  simp only [List.mem_flatMap]
  constructor
  · rintro ⟨r, ⟨v, hv, hr⟩, h⟩
    exact ⟨v, hv, r, hr, h⟩
  · rintro ⟨v, hv, r, hr, h⟩
    exact ⟨r, ⟨v, hv, hr⟩, h⟩

/-- The positions painted by one call of `PlotCircle` with all octants
selected, relative to the centre. -/
theorem painted_plotRects_full (xc yc x yIn yOut a b : Int) :
    painted (plotRects xc yc x yIn yOut 0xFF) (xc + a) (yc + b) ↔
      (((yIn ≤ a ∧ a ≤ yOut) ∨ (yIn ≤ -a ∧ -a ≤ yOut)) ∧ (b = x ∨ b = -x)) ∨
        ((a = x ∨ a = -x) ∧ ((yIn ≤ b ∧ b ≤ yOut) ∨ (yIn ≤ -b ∧ -b ≤ yOut))) := by
  have e : plotRects xc yc x yIn yOut 0xFF =
      [Rect.mk (xc + yIn) (yc + x) (xc + yOut) (yc + x),
       Rect.mk (xc + x) (yc + yIn) (xc + x) (yc + yOut),
       Rect.mk (xc - x) (yc + yIn) (xc - x) (yc + yOut),
       Rect.mk (xc - yOut) (yc + x) (xc - yIn) (yc + x),
       Rect.mk (xc - yOut) (yc - x) (xc - yIn) (yc - x),
       Rect.mk (xc - x) (yc - yOut) (xc - x) (yc - yIn),
       Rect.mk (xc + x) (yc - yOut) (xc + x) (yc - yIn),
       Rect.mk (xc + yIn) (yc - x) (xc + yOut) (yc - x)] := rfl
  unfold painted
  rw [e]
  simp only [List.exists_mem_cons_iff, List.not_mem_nil, false_and, exists_false, or_false]
  omega

/-- C8: with pen size 0, for every centre `(xc, yc)` and radius `r`,
`oled_DrawCircle` is the sequence of `WriteGRAM` calls on the rectangles
`circleRects xc yc r r 0xFF`, and the set of positions they paint (before
clipping to the display) is invariant under the 8 octant reflections about the
centre: if `(xc+a, yc+b)` is painted then so are `(xc±a, yc±b)` and
`(xc±b, yc±a)`. -/
theorem DrawCircle_octant_symmetric (o : oled_t) (hp : o.penSize = 0) (xc yc r : Int) :
    oled_DrawCircle o xc yc r = (circleRects xc yc r r 0xFF).foldl fillRectCall o ∧
      ∀ a b : Int, painted (circleRects xc yc r r 0xFF) (xc + a) (yc + b) →
        painted (circleRects xc yc r r 0xFF) (xc - a) (yc + b) ∧
        painted (circleRects xc yc r r 0xFF) (xc + a) (yc - b) ∧
        painted (circleRects xc yc r r 0xFF) (xc - a) (yc - b) ∧
        painted (circleRects xc yc r r 0xFF) (xc + b) (yc + a) ∧
        painted (circleRects xc yc r r 0xFF) (xc - b) (yc + a) ∧
        painted (circleRects xc yc r r 0xFF) (xc + b) (yc - a) ∧
        painted (circleRects xc yc r r 0xFF) (xc - b) (yc - a) := by
  constructor
  · unfold oled_DrawCircle
    rw [hp, BresenhamCircleAlgorithm_eq_foldl]
    simp
  · intro a b
    unfold circleRects
    by_cases hg : r > r ∨ r = 0
    · rw [if_pos hg]
      rintro ⟨r', hr', _⟩
      cases hr'
    · rw [if_neg hg]
      simp only [painted_flatMap, sub_eq_add_neg, painted_plotRects_full]
      rintro ⟨v, hv, h⟩
      refine ⟨⟨v, hv, ?_⟩, ⟨v, hv, ?_⟩, ⟨v, hv, ?_⟩, ⟨v, hv, ?_⟩, ⟨v, hv, ?_⟩, ⟨v, hv, ?_⟩,
        ⟨v, hv, ?_⟩⟩ <;> omega

theorem DrawCircle_octant_symmetric_witness :
    blank.penSize = 0 ∧
      oled_DrawCircle blank 64 32 20 = (circleRects 64 32 20 20 0xFF).foldl fillRectCall blank :=
  ⟨rfl, (DrawCircle_octant_symmetric blank rfl 64 32 20).1⟩

theorem octantMask_0_8 : octantMask 0 8 = 0xFF := by decide

/-- C9: full-range arcs and pies equal the full shapes: for every context,
centre and radius, `oled_DrawArc o xc yc r 0 8` yields the same final state
(mirror and bus trace) as `oled_DrawCircle o xc yc r`, and
`oled_DrawPie o xc yc r 0 8` the same as `oled_FillCircle o xc yc r`. -/
theorem full_arc_pie_eq_circle (o : oled_t) (xc yc r : Int) :
    oled_DrawArc o xc yc r 0 8 = oled_DrawCircle o xc yc r ∧
      oled_DrawPie o xc yc r 0 8 = oled_FillCircle o xc yc r := by
  unfold oled_DrawArc oled_DrawPie oled_DrawCircle oled_FillCircle
  simp [octantMask_0_8]

theorem DrawPie_eq_foldl (o : oled_t) (xc yc r a0 a1 : Int) (h0 : 0 ≤ a0) (h1 : a0 ≤ a1)
    (h8 : a1 ≤ 8) :
    oled_DrawPie o xc yc r a0 a1 =
      (circleRects xc yc 0 r (octantMask a0 a1)).foldl fillRectCall o := by
  unfold oled_DrawPie
  rw [if_neg (by omega)]
  simp only []
  rw [if_neg (by omega), BresenhamCircleAlgorithm_eq_foldl]

theorem mem_plotRects_quadrants (xc yc x yIn yOut : Int) (r : Rect) :
    (r ∈ plotRects xc yc x yIn yOut (octantMask 0 2) ∨
      r ∈ plotRects xc yc x yIn yOut (octantMask 2 4) ∨
      r ∈ plotRects xc yc x yIn yOut (octantMask 4 6) ∨
      r ∈ plotRects xc yc x yIn yOut (octantMask 6 8)) ↔
    r ∈ plotRects xc yc x yIn yOut 0xFF := by
  have m1 : octantMask 0 2 = 3 := by decide
  have m2 : octantMask 2 4 = 12 := by decide
  have m3 : octantMask 4 6 = 48 := by decide
  have m4 : octantMask 6 8 = 192 := by decide
  rw [m1, m2, m3, m4]
  unfold plotRects
  simp only [show (0xFF &&& 0x01 ≠ 0) = True from by decide,
    show (0xFF &&& 0x02 ≠ 0) = True from by decide, show (0xFF &&& 0x04 ≠ 0) = True from by decide,
    show (0xFF &&& 0x08 ≠ 0) = True from by decide, show (0xFF &&& 0x10 ≠ 0) = True from by decide,
    show (0xFF &&& 0x20 ≠ 0) = True from by decide, show (0xFF &&& 0x40 ≠ 0) = True from by decide,
    show (0xFF &&& 0x80 ≠ 0) = True from by decide,
    show (3 &&& 0x01 ≠ 0) = True from by decide, show (3 &&& 0x02 ≠ 0) = True from by decide,
    show (3 &&& 0x04 ≠ 0) = False from by decide, show (3 &&& 0x08 ≠ 0) = False from by decide,
    show (3 &&& 0x10 ≠ 0) = False from by decide, show (3 &&& 0x20 ≠ 0) = False from by decide,
    show (3 &&& 0x40 ≠ 0) = False from by decide, show (3 &&& 0x80 ≠ 0) = False from by decide,
    show (12 &&& 0x01 ≠ 0) = False from by decide, show (12 &&& 0x02 ≠ 0) = False from by decide,
    show (12 &&& 0x04 ≠ 0) = True from by decide, show (12 &&& 0x08 ≠ 0) = True from by decide,
    show (12 &&& 0x10 ≠ 0) = False from by decide, show (12 &&& 0x20 ≠ 0) = False from by decide,
    show (12 &&& 0x40 ≠ 0) = False from by decide, show (12 &&& 0x80 ≠ 0) = False from by decide,
    show (48 &&& 0x01 ≠ 0) = False from by decide, show (48 &&& 0x02 ≠ 0) = False from by decide,
    show (48 &&& 0x04 ≠ 0) = False from by decide, show (48 &&& 0x08 ≠ 0) = False from by decide,
    show (48 &&& 0x10 ≠ 0) = True from by decide, show (48 &&& 0x20 ≠ 0) = True from by decide,
    show (48 &&& 0x40 ≠ 0) = False from by decide, show (48 &&& 0x80 ≠ 0) = False from by decide,
    show (192 &&& 0x01 ≠ 0) = False from by decide, show (192 &&& 0x02 ≠ 0) = False from by decide,
    show (192 &&& 0x04 ≠ 0) = False from by decide, show (192 &&& 0x08 ≠ 0) = False from by decide,
    show (192 &&& 0x10 ≠ 0) = False from by decide, show (192 &&& 0x20 ≠ 0) = False from by decide,
    show (192 &&& 0x40 ≠ 0) = True from by decide, show (192 &&& 0x80 ≠ 0) = True from by decide,
    if_true, if_false, List.append_nil, List.nil_append, List.singleton_append,
    List.cons_append, List.mem_cons, List.mem_singleton, List.not_mem_nil, or_false]
  tauto

theorem mem_circleRects_quadrants (xc yc rIn rOut : Int) (r : Rect) :
    r ∈ circleRects xc yc rIn rOut (octantMask 0 2) ++
        (circleRects xc yc rIn rOut (octantMask 2 4) ++
          (circleRects xc yc rIn rOut (octantMask 4 6) ++
            circleRects xc yc rIn rOut (octantMask 6 8))) ↔
      r ∈ circleRects xc yc rIn rOut 0xFF := by
  unfold circleRects
  by_cases hg : rIn > rOut ∨ rOut = 0
  · simp only [if_pos hg, List.append_nil]
  · simp only [if_neg hg, List.mem_append, List.mem_flatMap]
    constructor
    · rintro (⟨v, hv, h⟩ | ⟨v, hv, h⟩ | ⟨v, hv, h⟩ | ⟨v, hv, h⟩)
      · exact ⟨v, hv, (mem_plotRects_quadrants _ _ _ _ _ _).1 (Or.inl h)⟩
      · exact ⟨v, hv, (mem_plotRects_quadrants _ _ _ _ _ _).1 (Or.inr (Or.inl h))⟩
      · exact ⟨v, hv, (mem_plotRects_quadrants _ _ _ _ _ _).1 (Or.inr (Or.inr (Or.inl h)))⟩
      · exact ⟨v, hv, (mem_plotRects_quadrants _ _ _ _ _ _).1 (Or.inr (Or.inr (Or.inr h)))⟩
    · rintro ⟨v, hv, h⟩
      rcases (mem_plotRects_quadrants _ _ _ _ _ _).2 h with h | h | h | h
      · exact Or.inl ⟨v, hv, h⟩
      · exact Or.inr (Or.inl ⟨v, hv, h⟩)
      · exact Or.inr (Or.inr (Or.inl ⟨v, hv, h⟩))
      · exact Or.inr (Or.inr (Or.inr ⟨v, hv, h⟩))

/-- C10: quadrant pies compose to the filled circle: for every centre
`(xc, yc)`, radius `r` and initial mirror, drawing `oled_DrawPie` with the
angle ranges (0,2), (2,4), (4,6), (6,8) in sequence leaves the mirror identical
to a single `oled_FillCircle o xc yc r`. -/
theorem quadrant_pies_eq_FillCircle (o : oled_t) (xc yc r : Int) :
    (oled_DrawPie (oled_DrawPie (oled_DrawPie (oled_DrawPie o xc yc r 0 2) xc yc r 2 4)
        xc yc r 4 6) xc yc r 6 8).GRAM =
      (oled_FillCircle o xc yc r).GRAM := by
  rw [DrawPie_eq_foldl _ _ _ _ 6 8 (by decide) (by decide) (by decide),
    DrawPie_eq_foldl _ _ _ _ 4 6 (by decide) (by decide) (by decide),
    DrawPie_eq_foldl _ _ _ _ 2 4 (by decide) (by decide) (by decide),
    DrawPie_eq_foldl _ _ _ _ 0 2 (by decide) (by decide) (by decide),
    ← List.foldl_append, ← List.foldl_append, ← List.foldl_append]
  unfold oled_FillCircle
  rw [BresenhamCircleAlgorithm_eq_foldl]
  exact foldl_fill_GRAM_congr _ _ (mem_circleRects_quadrants xc yc 0 r) o

/-- The scenario of C10: centre (64, 32), radius 20 on the blank display. -/
theorem quadrant_pies_eq_FillCircle_witness :
    (oled_DrawPie (oled_DrawPie (oled_DrawPie (oled_DrawPie blank 64 32 20 0 2) 64 32 20 2 4)
        64 32 20 4 6) 64 32 20 6 8).GRAM =
      (oled_FillCircle blank 64 32 20).GRAM :=
  quadrant_pies_eq_FillCircle blank 64 32 20

/-! ## Frame of the drawing primitives -/

theorem sameConfig_refl (o : oled_t) : sameConfig o o :=
  ⟨rfl, rfl, rfl, rfl, rfl, rfl, rfl⟩

theorem sameConfig_trans {a b c : oled_t} (h1 : sameConfig a b) (h2 : sameConfig b c) :
    sameConfig a c := by
  obtain ⟨a1, a2, a3, a4, a5, a6, a7⟩ := h1
  obtain ⟨b1, b2, b3, b4, b5, b6, b7⟩ := h2
  exact ⟨a1.trans b1, a2.trans b2, a3.trans b3, a4.trans b4, a5.trans b5, a6.trans b6,
    a7.trans b7⟩

theorem WriteGRAM_sameConfig (o : oled_t) (x0 y0 x1 y1 : Int) (color : Nat) :
    sameConfig (WriteGRAM o x0 y0 x1 y1 color) o :=
  ⟨WriteGRAM_slaveAddr .., WriteGRAM_bkColor .., WriteGRAM_color .., WriteGRAM_penSize ..,
    WriteGRAM_font .., WriteGRAM_bmMode .., WriteGRAM_textMode ..⟩

theorem foldl_sameConfig {α : Type} (f : oled_t → α → oled_t)
    (hf : ∀ o a, sameConfig (f o a) o) (l : List α) (o : oled_t) :
    sameConfig (l.foldl f o) o := by
  induction l generalizing o with
  | nil => exact sameConfig_refl o
  | cons a l ih => exact sameConfig_trans (ih (f o a)) (hf o a)

theorem bitmapPixel_sameConfig (x0 y0 : Int) (bitmap : Nat → Nat) (width : Nat) (i : Int)
    (o : oled_t) (j : Int) : sameConfig (bitmapPixel x0 y0 bitmap width i o j) o := by
  unfold bitmapPixel
  simp only []
  split_ifs <;>
    first
      | exact sameConfig_refl o
      | exact WriteGRAM_sameConfig ..
      | exact sameConfig_trans (WriteGRAM_sameConfig ..) (WriteGRAM_sameConfig ..)

theorem bitmapRow_sameConfig (x0 y0 : Int) (bitmap : Nat → Nat) (width : Nat)
    (o : oled_t) (i : Int) : sameConfig (bitmapRow x0 y0 bitmap width o i) o :=
  foldl_sameConfig _ (bitmapPixel_sameConfig x0 y0 bitmap width i) _ o

theorem DispBitmap_sameConfig (o : oled_t) (x0 y0 : Int) (bitmap : Nat → Nat)
    (width height : Nat) : sameConfig (oled_DispBitmap o x0 y0 bitmap width height) o :=
  foldl_sameConfig _ (bitmapRow_sameConfig x0 y0 bitmap width) _ o

/-! ## Compositing of one source pixel -/

theorem pixelOf_of_le_one {c : Nat} (h : c = 0 ∨ c = 1) : pixelOf c = c := by
  rcases h with rfl | rfl <;> rfl

theorem WriteGRAM_pixel_same (o : oled_t) (x y : Int) (color : Nat)
    (hx : 0 ≤ x ∧ x ≤ 127) (hy : 0 ≤ y ∧ y ≤ 63) :
    getPixel (WriteGRAM o x y x y color).GRAM x y = pixelOf color := by
  rw [WriteGRAM_getPixel o x y x y color x y hx hy, if_pos (by omega)]
  rfl

theorem WriteGRAM_pixel_other (o : oled_t) (u v : Int) (color : Nat) (x y : Int)
    (hx : 0 ≤ x ∧ x ≤ 127) (hy : 0 ≤ y ∧ y ≤ 63) (h : ¬ (x = u ∧ y = v)) :
    getPixel (WriteGRAM o u v u v color).GRAM x y = getPixel o.GRAM x y := by
  rw [WriteGRAM_getPixel o u v u v color x y hx hy, if_neg (by omega)]

theorem bitmapPixel_inv (x0 y0 : Int) (bitmap : Nat → Nat) (width : Nat) (i : Int)
    (o : oled_t) (j : Int) (hm : o.bmMode = OLED_BM_INV) :
    bitmapPixel x0 y0 bitmap width i o j =
      WriteGRAM o (x0 + j) (y0 + i) (x0 + j) (y0 + i)
        (not8 (bitmapColor bitmap width i j ||| 0xFE)) := by
  unfold bitmapPixel
  simp [hm, OLED_BM_NORMAL, OLED_BM_INV, OLED_BM_WHITE_TRAN, OLED_BM_BLACK_TRAN,
    OLED_BM_WHITE_FILL, OLED_BM_BLACK_FILL]

theorem bitmapPixel_whiteTran (x0 y0 : Int) (bitmap : Nat → Nat) (width : Nat) (i : Int)
    (o : oled_t) (j : Int) (hm : o.bmMode = OLED_BM_WHITE_TRAN) :
    bitmapPixel x0 y0 bitmap width i o j =
      if bitmapColor bitmap width i j = 1
      then WriteGRAM o (x0 + j) (y0 + i) (x0 + j) (y0 + i) o.color else o := by
  unfold bitmapPixel
  simp [hm, OLED_BM_NORMAL, OLED_BM_INV, OLED_BM_WHITE_TRAN, OLED_BM_BLACK_TRAN,
    OLED_BM_WHITE_FILL, OLED_BM_BLACK_FILL]

theorem bitmapPixel_blackTran (x0 y0 : Int) (bitmap : Nat → Nat) (width : Nat) (i : Int)
    (o : oled_t) (j : Int) (hm : o.bmMode = OLED_BM_BLACK_TRAN) :
    bitmapPixel x0 y0 bitmap width i o j =
      if bitmapColor bitmap width i j = 0
      then WriteGRAM o (x0 + j) (y0 + i) (x0 + j) (y0 + i) o.color else o := by
  unfold bitmapPixel
  simp [hm, OLED_BM_NORMAL, OLED_BM_INV, OLED_BM_WHITE_TRAN, OLED_BM_BLACK_TRAN,
    OLED_BM_WHITE_FILL, OLED_BM_BLACK_FILL]

theorem bitmapPixel_whiteFill (x0 y0 : Int) (bitmap : Nat → Nat) (width : Nat) (i : Int)
    (o : oled_t) (j : Int) (hm : o.bmMode = OLED_BM_WHITE_FILL) :
    bitmapPixel x0 y0 bitmap width i o j =
      if bitmapColor bitmap width i j = 1
      then WriteGRAM o (x0 + j) (y0 + i) (x0 + j) (y0 + i) o.color
      else WriteGRAM o (x0 + j) (y0 + i) (x0 + j) (y0 + i) o.bkColor := by
  unfold bitmapPixel
  simp [hm, OLED_BM_NORMAL, OLED_BM_INV, OLED_BM_WHITE_TRAN, OLED_BM_BLACK_TRAN,
    OLED_BM_WHITE_FILL, OLED_BM_BLACK_FILL]

theorem bitmapPixel_blackFill (x0 y0 : Int) (bitmap : Nat → Nat) (width : Nat) (i : Int)
    (o : oled_t) (j : Int) (hm : o.bmMode = OLED_BM_BLACK_FILL) :
    bitmapPixel x0 y0 bitmap width i o j =
      if bitmapColor bitmap width i j = 0
      then WriteGRAM o (x0 + j) (y0 + i) (x0 + j) (y0 + i) o.color
      else WriteGRAM o (x0 + j) (y0 + i) (x0 + j) (y0 + i) o.bkColor := by
  unfold bitmapPixel
  simp [hm, OLED_BM_NORMAL, OLED_BM_INV, OLED_BM_WHITE_TRAN, OLED_BM_BLACK_TRAN,
    OLED_BM_WHITE_FILL, OLED_BM_BLACK_FILL]

theorem bitmapPixel_otherMode (x0 y0 : Int) (bitmap : Nat → Nat) (width : Nat) (i : Int)
    (o : oled_t) (j : Int) (hm : 5 < o.bmMode) :
    bitmapPixel x0 y0 bitmap width i o j = o := by
  unfold bitmapPixel
  have h0 : o.bmMode ≠ 0 := by omega
  have h1 : o.bmMode ≠ 1 := by omega
  have h2 : o.bmMode ≠ 2 := by omega
  have h3 : o.bmMode ≠ 3 := by omega
  have h4 : o.bmMode ≠ 4 := by omega
  have h5 : o.bmMode ≠ 5 := by omega
  simp [h0, h1, h2, h3, h4, h5, OLED_BM_NORMAL, OLED_BM_INV, OLED_BM_WHITE_TRAN,
    OLED_BM_BLACK_TRAN, OLED_BM_WHITE_FILL, OLED_BM_BLACK_FILL]

theorem WriteGRAM_pixel_at (o : oled_t) (u v : Int) (color : Nat) (x y : Int)
    (hx : 0 ≤ x ∧ x ≤ 127) (hy : 0 ≤ y ∧ y ≤ 63) :
    getPixel (WriteGRAM o u v u v color).GRAM x y =
      if x = u ∧ y = v then pixelOf color else getPixel o.GRAM x y := by
  by_cases h : x = u ∧ y = v
  · obtain ⟨rfl, rfl⟩ := h
    rw [if_pos ⟨rfl, rfl⟩, WriteGRAM_pixel_same o x y color hx hy]
  · rw [if_neg h, WriteGRAM_pixel_other o u v color x y hx hy h]

/-- One pass of the loop body of `oled_DispBitmap`, seen from a display pixel. -/
theorem bitmapPixel_getPixel (x0 y0 : Int) (bitmap : Nat → Nat) (width : Nat) (i : Int)
    (o : oled_t) (j : Int) (x y : Int) (hx : 0 ≤ x ∧ x ≤ 127) (hy : 0 ≤ y ∧ y ≤ 63) :
    getPixel (bitmapPixel x0 y0 bitmap width i o j).GRAM x y =
      if x = x0 + j ∧ y = y0 + i
      then composite o (bitmapColor bitmap width i j) (getPixel o.GRAM x y)
      else getPixel o.GRAM x y := by
  have hcases : o.bmMode = OLED_BM_NORMAL ∨ o.bmMode = OLED_BM_INV ∨
      o.bmMode = OLED_BM_WHITE_TRAN ∨ o.bmMode = OLED_BM_BLACK_TRAN ∨
      o.bmMode = OLED_BM_WHITE_FILL ∨ o.bmMode = OLED_BM_BLACK_FILL ∨ 5 < o.bmMode := by
    unfold OLED_BM_NORMAL OLED_BM_INV OLED_BM_WHITE_TRAN OLED_BM_BLACK_TRAN OLED_BM_WHITE_FILL
      OLED_BM_BLACK_FILL
    omega
  rcases hcases with hm | hm | hm | hm | hm | hm | hm
  · rw [bitmapPixel_normal _ _ _ _ _ _ _ hm, WriteGRAM_pixel_at _ _ _ _ _ _ hx hy]
    simp [composite, hm]
  · rw [bitmapPixel_inv _ _ _ _ _ _ _ hm, WriteGRAM_pixel_at _ _ _ _ _ _ hx hy]
    simp [composite, hm, OLED_BM_NORMAL, OLED_BM_INV]
  · rw [bitmapPixel_whiteTran _ _ _ _ _ _ _ hm]
    by_cases hs : bitmapColor bitmap width i j = 1
    · rw [if_pos hs, WriteGRAM_pixel_at _ _ _ _ _ _ hx hy]
      simp [composite, hm, hs, OLED_BM_NORMAL, OLED_BM_INV, OLED_BM_WHITE_TRAN]
    · rw [if_neg hs]
      simp [composite, hm, hs, OLED_BM_NORMAL, OLED_BM_INV, OLED_BM_WHITE_TRAN]
  · rw [bitmapPixel_blackTran _ _ _ _ _ _ _ hm]
    by_cases hs : bitmapColor bitmap width i j = 0
    · rw [if_pos hs, WriteGRAM_pixel_at _ _ _ _ _ _ hx hy]
      simp [composite, hm, hs, OLED_BM_NORMAL, OLED_BM_INV, OLED_BM_WHITE_TRAN, OLED_BM_BLACK_TRAN]
    · rw [if_neg hs]
      simp [composite, hm, hs, OLED_BM_NORMAL, OLED_BM_INV, OLED_BM_WHITE_TRAN, OLED_BM_BLACK_TRAN]
  · rw [bitmapPixel_whiteFill _ _ _ _ _ _ _ hm]
    by_cases hs : bitmapColor bitmap width i j = 1
    · rw [if_pos hs, WriteGRAM_pixel_at _ _ _ _ _ _ hx hy]
      simp [composite, hm, hs, OLED_BM_NORMAL, OLED_BM_INV, OLED_BM_WHITE_TRAN,
        OLED_BM_BLACK_TRAN, OLED_BM_WHITE_FILL]
    · rw [if_neg hs, WriteGRAM_pixel_at _ _ _ _ _ _ hx hy]
      simp [composite, hm, hs, OLED_BM_NORMAL, OLED_BM_INV, OLED_BM_WHITE_TRAN,
        OLED_BM_BLACK_TRAN, OLED_BM_WHITE_FILL]
  · rw [bitmapPixel_blackFill _ _ _ _ _ _ _ hm]
    by_cases hs : bitmapColor bitmap width i j = 0
    · rw [if_pos hs, WriteGRAM_pixel_at _ _ _ _ _ _ hx hy]
      simp [composite, hm, hs, OLED_BM_NORMAL, OLED_BM_INV, OLED_BM_WHITE_TRAN,
        OLED_BM_BLACK_TRAN, OLED_BM_WHITE_FILL, OLED_BM_BLACK_FILL]
    · rw [if_neg hs, WriteGRAM_pixel_at _ _ _ _ _ _ hx hy]
      simp [composite, hm, hs, OLED_BM_NORMAL, OLED_BM_INV, OLED_BM_WHITE_TRAN,
        OLED_BM_BLACK_TRAN, OLED_BM_WHITE_FILL, OLED_BM_BLACK_FILL]
  · rw [bitmapPixel_otherMode _ _ _ _ _ _ _ hm]
    have h0 : o.bmMode ≠ 0 := by omega
    have h1 : o.bmMode ≠ 1 := by omega
    have h2 : o.bmMode ≠ 2 := by omega
    have h3 : o.bmMode ≠ 3 := by omega
    have h4 : o.bmMode ≠ 4 := by omega
    have h5 : o.bmMode ≠ 5 := by omega
    simp [composite, h0, h1, h2, h3, h4, h5, OLED_BM_NORMAL, OLED_BM_INV, OLED_BM_WHITE_TRAN,
      OLED_BM_BLACK_TRAN, OLED_BM_WHITE_FILL, OLED_BM_BLACK_FILL]

/-! ## Compositing of a whole bitmap -/

theorem composite_congr {o' o : oled_t} (h : sameConfig o' o) (s old : Nat) :
    composite o' s old = composite o s old := by
  obtain ⟨_, h2, h3, _, _, h6, _⟩ := h
  unfold composite
  rw [h2, h3, h6]

theorem foldl_bitmapPixel_getPixel (x0 y0 : Int) (bitmap : Nat → Nat) (width : Nat) (i : Int)
    (js : List Int) (hn : js.Nodup) (o : oled_t) (x y : Int)
    (hx : 0 ≤ x ∧ x ≤ 127) (hy : 0 ≤ y ∧ y ≤ 63) :
    getPixel (js.foldl (bitmapPixel x0 y0 bitmap width i) o).GRAM x y =
      if y = y0 + i ∧ (x - x0) ∈ js
      then composite o (bitmapColor bitmap width i (x - x0)) (getPixel o.GRAM x y)
      else getPixel o.GRAM x y := by
  induction js generalizing o with
  | nil => simp
  | cons j js ih =>
    rw [List.nodup_cons] at hn
    rw [List.foldl_cons, ih hn.2, bitmapPixel_getPixel _ _ _ _ _ _ _ _ _ hx hy,
      composite_congr (bitmapPixel_sameConfig x0 y0 bitmap width i o j)]
    by_cases h1 : y = y0 + i ∧ (x - x0) ∈ js
    · have h2 : ¬ (x = x0 + j ∧ y = y0 + i) := by
        rintro ⟨e, _⟩
        apply hn.1
        have : x - x0 = j := by omega
        rw [← this]
        exact h1.2
      have h3 : y = y0 + i ∧ (x - x0) ∈ j :: js := ⟨h1.1, List.mem_cons_of_mem _ h1.2⟩
      rw [if_pos h1, if_neg h2, if_pos h3]
    · rw [if_neg h1]
      by_cases h2 : x = x0 + j ∧ y = y0 + i
      · have hj : x - x0 = j := by omega
        have h3 : y = y0 + i ∧ (x - x0) ∈ j :: js :=
          ⟨h2.2, by rw [hj]; exact List.mem_cons_self _ _⟩
        rw [if_pos h2, if_pos h3, hj]
      · have h3 : ¬ (y = y0 + i ∧ (x - x0) ∈ j :: js) := by
          rintro ⟨e1, e2⟩
          rcases List.mem_cons.1 e2 with e | e
          · exact h2 ⟨by omega, e1⟩
          · exact h1 ⟨e1, e⟩
        rw [if_neg h2, if_neg h3]

theorem foldl_bitmapRow_getPixel (x0 y0 : Int) (bitmap : Nat → Nat) (width : Nat)
    (is : List Int) (hn : is.Nodup) (o : oled_t) (x y : Int)
    (hx : 0 ≤ x ∧ x ≤ 127) (hy : 0 ≤ y ∧ y ≤ 63) :
    getPixel (is.foldl (bitmapRow x0 y0 bitmap width) o).GRAM x y =
      if (y - y0) ∈ is ∧ (x - x0) ∈ intRange 0 ((width : Int) - 1)
      then composite o (bitmapColor bitmap width (y - y0) (x - x0)) (getPixel o.GRAM x y)
      else getPixel o.GRAM x y := by
  induction is generalizing o with
  | nil => simp
  | cons i is ih =>
    rw [List.nodup_cons] at hn
    have hrow : getPixel (bitmapRow x0 y0 bitmap width o i).GRAM x y = _ :=
      foldl_bitmapPixel_getPixel x0 y0 bitmap width i (intRange 0 ((width : Int) - 1))
        (intRange_nodup _ _) o x y hx hy
    rw [List.foldl_cons, ih hn.2, hrow,
      composite_congr (bitmapRow_sameConfig x0 y0 bitmap width o i)]
    by_cases h1 : (y - y0) ∈ is ∧ (x - x0) ∈ intRange 0 ((width : Int) - 1)
    · have h2 : ¬ (y = y0 + i ∧ (x - x0) ∈ intRange 0 ((width : Int) - 1)) := by
        rintro ⟨e, _⟩
        apply hn.1
        have : y - y0 = i := by omega
        rw [← this]
        exact h1.1
      have h3 : (y - y0) ∈ i :: is ∧ (x - x0) ∈ intRange 0 ((width : Int) - 1) :=
        ⟨List.mem_cons_of_mem _ h1.1, h1.2⟩
      rw [if_pos h1, if_neg h2, if_pos h3]
    · rw [if_neg h1]
      by_cases h2 : y = y0 + i ∧ (x - x0) ∈ intRange 0 ((width : Int) - 1)
      · have hi : y - y0 = i := by omega
        have h3 : (y - y0) ∈ i :: is ∧ (x - x0) ∈ intRange 0 ((width : Int) - 1) :=
          ⟨by rw [hi]; exact List.mem_cons_self _ _, h2.2⟩
        rw [if_pos h2, if_pos h3, hi]
      · have h3 : ¬ ((y - y0) ∈ i :: is ∧ (x - x0) ∈ intRange 0 ((width : Int) - 1)) := by
          rintro ⟨e1, e2⟩
          rcases List.mem_cons.1 e1 with e | e
          · exact h2 ⟨by omega, e2⟩
          · exact h1 ⟨e, e2⟩
        rw [if_neg h2, if_neg h3]

/-- The mirror after `oled_DispBitmap`, pixel by pixel, for every bitmap mode:
a display pixel inside the bitmap is composited once with its source pixel,
every other display pixel keeps its value. -/
theorem DispBitmap_getPixel (o : oled_t) (x0 y0 : Int) (bitmap : Nat → Nat)
    (width height : Nat) (x y : Int) (hx : 0 ≤ x ∧ x ≤ 127) (hy : 0 ≤ y ∧ y ≤ 63) :
    getPixel (oled_DispBitmap o x0 y0 bitmap width height).GRAM x y =
      if inBitmap x0 y0 width height x y
      then composite o (bitmapColor bitmap width (y - y0) (x - x0)) (getPixel o.GRAM x y)
      else getPixel o.GRAM x y := by
  unfold oled_DispBitmap
  rw [foldl_bitmapRow_getPixel x0 y0 bitmap width _ (intRange_nodup _ _) o x y hx hy]
  have e : ((y - y0) ∈ intRange 0 ((height : Int) - 1) ∧
      (x - x0) ∈ intRange 0 ((width : Int) - 1)) ↔ inBitmap x0 y0 width height x y := by
    unfold inBitmap
    rw [mem_intRange, mem_intRange]
    omega
  by_cases h : inBitmap x0 y0 width height x y
  · rw [if_pos h, if_pos (e.2 h)]
  · rw [if_neg h, if_neg (fun h' => h (e.1 h'))]

/-! ## Compositing modes: claims C16 to C18 -/

theorem bitmapColor_cases (bitmap : Nat → Nat) (width : Nat) (i j : Int) :
    (bitmapColor bitmap width i j = 0 ∧ ¬ bitmapColor bitmap width i j = 1) ∨
      (bitmapColor bitmap width i j = 1 ∧ ¬ bitmapColor bitmap width i j = 0) := by
  rcases bitmapColor_le_one bitmap width i j with h | h <;> rw [h] <;> simp

theorem composite_inv (o : oled_t) (hm : o.bmMode = OLED_BM_INV) (s old : Nat) :
    composite o s old = pixelOf (not8 (s ||| 0xFE)) := by
  simp [composite, hm, OLED_BM_NORMAL, OLED_BM_INV]

theorem composite_whiteTran (o : oled_t) (hm : o.bmMode = OLED_BM_WHITE_TRAN) (s old : Nat) :
    composite o s old = if s = 1 then pixelOf o.color else old := by
  simp [composite, hm, OLED_BM_NORMAL, OLED_BM_INV, OLED_BM_WHITE_TRAN]

theorem composite_blackTran (o : oled_t) (hm : o.bmMode = OLED_BM_BLACK_TRAN) (s old : Nat) :
    composite o s old = if s = 0 then pixelOf o.color else old := by
  simp [composite, hm, OLED_BM_NORMAL, OLED_BM_INV, OLED_BM_WHITE_TRAN, OLED_BM_BLACK_TRAN]

theorem composite_whiteFill (o : oled_t) (hm : o.bmMode = OLED_BM_WHITE_FILL) (s old : Nat) :
    composite o s old = if s = 1 then pixelOf o.color else pixelOf o.bkColor := by
  simp [composite, hm, OLED_BM_NORMAL, OLED_BM_INV, OLED_BM_WHITE_TRAN, OLED_BM_BLACK_TRAN,
    OLED_BM_WHITE_FILL]

theorem composite_blackFill (o : oled_t) (hm : o.bmMode = OLED_BM_BLACK_FILL) (s old : Nat) :
    composite o s old = if s = 0 then pixelOf o.color else pixelOf o.bkColor := by
  simp [composite, hm, OLED_BM_NORMAL, OLED_BM_INV, OLED_BM_WHITE_TRAN, OLED_BM_BLACK_TRAN,
    OLED_BM_WHITE_FILL, OLED_BM_BLACK_FILL]

theorem composite_otherMode (o : oled_t) (hm : 5 < o.bmMode) (s old : Nat) :
    composite o s old = old := by
  have h0 : o.bmMode ≠ 0 := by omega
  have h1 : o.bmMode ≠ 1 := by omega
  have h2 : o.bmMode ≠ 2 := by omega
  have h3 : o.bmMode ≠ 3 := by omega
  have h4 : o.bmMode ≠ 4 := by omega
  have h5 : o.bmMode ≠ 5 := by omega
  simp [composite, h0, h1, h2, h3, h4, h5, OLED_BM_NORMAL, OLED_BM_INV, OLED_BM_WHITE_TRAN,
    OLED_BM_BLACK_TRAN, OLED_BM_WHITE_FILL, OLED_BM_BLACK_FILL]

set_option maxRecDepth 100000 in
/-- The byte `not8 v` is the C value `~v` (that is `-v - 1`) converted to `uint8`. -/
theorem not8_eq_toU8 : ∀ v < 256, not8 v = toU8 (-(v : Int) - 1) := by decide

/-- C16: INVERTED compositing.  With `bmMode = OLED_BM_INV`, every on-display
pixel of the bitmap becomes `1 - s`, where `s` is its source bit, whatever the
foreground and background colours; the colour argument `~(s | 0xFE)` passed to
`WriteGRAM` is exactly 1 for `s = 0` and exactly 0 for `s = 1` once converted to
`uint8`. -/
theorem DispBitmap_inverted (o : oled_t) (hm : o.bmMode = OLED_BM_INV) (x0 y0 : Int)
    (bitmap : Nat → Nat) (w h : Nat) (x y : Int) (hx : 0 ≤ x ∧ x ≤ 127) (hy : 0 ≤ y ∧ y ≤ 63)
    (hin : inBitmap x0 y0 w h x y) :
    getPixel (oled_DispBitmap o x0 y0 bitmap w h).GRAM x y =
        1 - bitmapColor bitmap w (y - y0) (x - x0) ∧
      (not8 (0 ||| 0xFE) = 1 ∧ not8 (1 ||| 0xFE) = 0) ∧
      (toU8 (-(((0 ||| 0xFE : Nat)) : Int) - 1) = 1 ∧ toU8 (-(((1 ||| 0xFE : Nat)) : Int) - 1) = 0) := by
  refine ⟨?_, ⟨by decide, by decide⟩, ⟨by decide, by decide⟩⟩
  rw [DispBitmap_getPixel o x0 y0 bitmap w h x y hx hy, if_pos hin]
  rw [composite_inv o hm]
  rcases bitmapColor_le_one bitmap w (y - y0) (x - x0) with e | e <;> rw [e] <;> decide

theorem DispBitmap_inverted_witness :
    ({ blank with bmMode := OLED_BM_INV } : oled_t).bmMode = OLED_BM_INV ∧
      ((0 : Int) ≤ 35 ∧ (35 : Int) ≤ 127) ∧ ((0 : Int) ≤ 14 ∧ (14 : Int) ≤ 63) ∧
      inBitmap 32 13 64 38 35 14 ∧
      getPixel (oled_DispBitmap { blank with bmMode := OLED_BM_INV } 32 13
          (fun n => 37 * n + 5) 64 38).GRAM 35 14 =
        1 - bitmapColor (fun n => 37 * n + 5) 64 (14 - 13) (35 - 32) :=
  ⟨rfl, by decide, by decide, by decide,
    (DispBitmap_inverted { blank with bmMode := OLED_BM_INV } rfl 32 13 (fun n => 37 * n + 5)
      64 38 35 14 (by decide) (by decide) (by decide)).1⟩

/-- C17: transparent compositing.  With `bmMode = OLED_BM_WHITE_TRAN` (resp.
`OLED_BM_BLACK_TRAN`) the loop body of `oled_DispBitmap` calls `WriteGRAM` on a
destination pixel if and only if its source bit is 1 (resp. 0) and otherwise
leaves the context as it is; afterwards the on-display bitmap pixels with that
source bit have the foreground colour and every other display pixel, bitmap
pixels with the opposite source bit included, has its previous value. -/
theorem DispBitmap_transparent (o : oled_t) (hc : o.color = 0 ∨ o.color = 1) (x0 y0 : Int)
    (bitmap : Nat → Nat) (w h : Nat) :
    (o.bmMode = OLED_BM_WHITE_TRAN →
      (∀ (o' : oled_t) (i j : Int), o'.bmMode = OLED_BM_WHITE_TRAN →
        bitmapPixel x0 y0 bitmap w i o' j =
          if bitmapColor bitmap w i j = 1
          then WriteGRAM o' (x0 + j) (y0 + i) (x0 + j) (y0 + i) o'.color else o') ∧
      (∀ x y : Int, 0 ≤ x ∧ x ≤ 127 → 0 ≤ y ∧ y ≤ 63 →
        getPixel (oled_DispBitmap o x0 y0 bitmap w h).GRAM x y =
          if inBitmap x0 y0 w h x y ∧ bitmapColor bitmap w (y - y0) (x - x0) = 1
          then o.color else getPixel o.GRAM x y)) ∧
    (o.bmMode = OLED_BM_BLACK_TRAN →
      (∀ (o' : oled_t) (i j : Int), o'.bmMode = OLED_BM_BLACK_TRAN →
        bitmapPixel x0 y0 bitmap w i o' j =
          if bitmapColor bitmap w i j = 0
          then WriteGRAM o' (x0 + j) (y0 + i) (x0 + j) (y0 + i) o'.color else o') ∧
      (∀ x y : Int, 0 ≤ x ∧ x ≤ 127 → 0 ≤ y ∧ y ≤ 63 →
        getPixel (oled_DispBitmap o x0 y0 bitmap w h).GRAM x y =
          if inBitmap x0 y0 w h x y ∧ bitmapColor bitmap w (y - y0) (x - x0) = 0
          then o.color else getPixel o.GRAM x y)) := by
  constructor
  · intro hm
    refine ⟨fun o' i j hm' => bitmapPixel_whiteTran x0 y0 bitmap w i o' j hm', ?_⟩
    intro x y hx hy
    rw [DispBitmap_getPixel o x0 y0 bitmap w h x y hx hy]
    rw [composite_whiteTran o hm, pixelOf_of_le_one hc]
    by_cases hin : inBitmap x0 y0 w h x y <;>
      by_cases hs : bitmapColor bitmap w (y - y0) (x - x0) = 1 <;> simp [hin, hs]
  · intro hm
    refine ⟨fun o' i j hm' => bitmapPixel_blackTran x0 y0 bitmap w i o' j hm', ?_⟩
    intro x y hx hy
    rw [DispBitmap_getPixel o x0 y0 bitmap w h x y hx hy]
    rw [composite_blackTran o hm, pixelOf_of_le_one hc]
    by_cases hin : inBitmap x0 y0 w h x y <;>
      by_cases hs : bitmapColor bitmap w (y - y0) (x - x0) = 0 <;> simp [hin, hs]

theorem DispBitmap_transparent_witness :
    (({ blank with bmMode := OLED_BM_WHITE_TRAN } : oled_t).color = 0 ∨
        ({ blank with bmMode := OLED_BM_WHITE_TRAN } : oled_t).color = 1) ∧
      ({ blank with bmMode := OLED_BM_WHITE_TRAN } : oled_t).bmMode = OLED_BM_WHITE_TRAN ∧
      ((0 : Int) ≤ 35 ∧ (35 : Int) ≤ 127) ∧ ((0 : Int) ≤ 14 ∧ (14 : Int) ≤ 63) ∧
      getPixel (oled_DispBitmap { blank with bmMode := OLED_BM_WHITE_TRAN } 32 13
          (fun n => 37 * n + 5) 64 38).GRAM 35 14 =
        (if inBitmap 32 13 64 38 35 14 ∧ bitmapColor (fun n => 37 * n + 5) 64 (14 - 13) (35 - 32) = 1
         then ({ blank with bmMode := OLED_BM_WHITE_TRAN } : oled_t).color
         else getPixel ({ blank with bmMode := OLED_BM_WHITE_TRAN } : oled_t).GRAM 35 14) :=
  ⟨Or.inr rfl, rfl, by decide, by decide,
    ((DispBitmap_transparent { blank with bmMode := OLED_BM_WHITE_TRAN } (Or.inr rfl) 32 13
      (fun n => 37 * n + 5) 64 38).1 rfl).2 35 14 (by decide) (by decide)⟩

/-- C18: fill compositing.  With `bmMode = OLED_BM_WHITE_FILL` every on-display
bitmap pixel becomes the foreground colour if its source bit is 1 and the
background colour otherwise; with `bmMode = OLED_BM_BLACK_FILL` it becomes the
foreground colour if its source bit is 0 and the background colour otherwise. -/
theorem DispBitmap_fill (o : oled_t) (hc : o.color = 0 ∨ o.color = 1)
    (hb : o.bkColor = 0 ∨ o.bkColor = 1) (x0 y0 : Int) (bitmap : Nat → Nat) (w h : Nat)
    (x y : Int) (hx : 0 ≤ x ∧ x ≤ 127) (hy : 0 ≤ y ∧ y ≤ 63) (hin : inBitmap x0 y0 w h x y) :
    (o.bmMode = OLED_BM_WHITE_FILL →
      getPixel (oled_DispBitmap o x0 y0 bitmap w h).GRAM x y =
        if bitmapColor bitmap w (y - y0) (x - x0) = 1 then o.color else o.bkColor) ∧
    (o.bmMode = OLED_BM_BLACK_FILL →
      getPixel (oled_DispBitmap o x0 y0 bitmap w h).GRAM x y =
        if bitmapColor bitmap w (y - y0) (x - x0) = 0 then o.color else o.bkColor) := by
  constructor
  · intro hm
    rw [DispBitmap_getPixel o x0 y0 bitmap w h x y hx hy, if_pos hin]
    rw [composite_whiteFill o hm, pixelOf_of_le_one hc, pixelOf_of_le_one hb]
  · intro hm
    rw [DispBitmap_getPixel o x0 y0 bitmap w h x y hx hy, if_pos hin]
    rw [composite_blackFill o hm, pixelOf_of_le_one hc, pixelOf_of_le_one hb]

theorem DispBitmap_fill_witness :
    (({ litScreen with bmMode := OLED_BM_BLACK_FILL } : oled_t).color = 0 ∨
        ({ litScreen with bmMode := OLED_BM_BLACK_FILL } : oled_t).color = 1) ∧
      (({ litScreen with bmMode := OLED_BM_BLACK_FILL } : oled_t).bkColor = 0 ∨
        ({ litScreen with bmMode := OLED_BM_BLACK_FILL } : oled_t).bkColor = 1) ∧
      ((0 : Int) ≤ 35 ∧ (35 : Int) ≤ 127) ∧ ((0 : Int) ≤ 14 ∧ (14 : Int) ≤ 63) ∧
      inBitmap 32 13 64 38 35 14 ∧
      ({ litScreen with bmMode := OLED_BM_BLACK_FILL } : oled_t).bmMode = OLED_BM_BLACK_FILL ∧
      getPixel (oled_DispBitmap { litScreen with bmMode := OLED_BM_BLACK_FILL } 32 13
          (fun n => 37 * n + 5) 64 38).GRAM 35 14 =
        (if bitmapColor (fun n => 37 * n + 5) 64 (14 - 13) (35 - 32) = 0
         then ({ litScreen with bmMode := OLED_BM_BLACK_FILL } : oled_t).color
         else ({ litScreen with bmMode := OLED_BM_BLACK_FILL } : oled_t).bkColor) :=
  ⟨Or.inr rfl, Or.inl rfl, by decide, by decide, by decide, rfl,
    (DispBitmap_fill { litScreen with bmMode := OLED_BM_BLACK_FILL } (Or.inr rfl) (Or.inl rfl)
      32 13 (fun n => 37 * n + 5) 64 38 35 14 (by decide) (by decide) (by decide)).2 rfl⟩

/-! ## Characters and setters: claims C13, C14, C15 and C19 -/

theorem SetBmMode_of_valid (o : oled_t) (m : Nat) (h : validMode m) :
    oled_SetBmMode o m = { o with bmMode := m } := by
  unfold oled_SetBmMode
  unfold validMode at h
  rw [if_pos h]

theorem SetBmMode_of_invalid (o : oled_t) (m : Nat) (h : ¬ validMode m) :
    oled_SetBmMode o m = o := by
  unfold oled_SetBmMode
  unfold validMode at h
  rw [if_neg h]

theorem SetBmMode_sameMirror (o : oled_t) (m : Nat) :
    (oled_SetBmMode o m).GRAM = o.GRAM ∧ (oled_SetBmMode o m).bus = o.bus ∧
      (oled_SetBmMode o m).font = o.font ∧ (oled_SetBmMode o m).color = o.color ∧
      (oled_SetBmMode o m).bkColor = o.bkColor ∧ (oled_SetBmMode o m).penSize = o.penSize ∧
      (oled_SetBmMode o m).textMode = o.textMode ∧
      (oled_SetBmMode o m).slaveAddr = o.slaveAddr := by
  unfold oled_SetBmMode
  split <;> exact ⟨rfl, rfl, rfl, rfl, rfl, rfl, rfl, rfl⟩

/-- A character outside 32..126 makes `oled_DispChar` return right after it has
switched the bitmap mode to the text mode. -/
theorem DispChar_unprintable (o : oled_t) (x0 y0 c : Int) (hc : c < 32 ∨ 126 < c) :
    oled_DispChar o x0 y0 c = oled_SetBmMode o o.textMode := by
  unfold oled_DispChar
  simp only []
  rw [if_pos (by omega)]

/-- A printable character: the glyph is drawn between the two mode switches. -/
theorem DispChar_printable (o : oled_t) (x0 y0 c : Int) (hc : 32 ≤ c ∧ c ≤ 126) :
    oled_DispChar o x0 y0 c =
      oled_SetBmMode
        (oled_DispBitmap (oled_SetBmMode o o.textMode) x0 y0
          (o.font.characters (c - 32).toNat) o.font.width o.font.height)
        o.bmMode := by
  unfold oled_DispChar
  simp only []
  rw [if_neg (by omega), (SetBmMode_sameMirror o o.textMode).2.2.1]
  rfl

/-- C13, evaluated on the code: after `oled_Init` (bitmap mode NORMAL, text mode
TEXT_TRAN) a call of `oled_DispChar` with the tab character 9 performs no bus
operation and leaves the mirror and the colours alone, but returns with the
bitmap mode switched to the text mode: the early return skips the restore. -/
theorem DispChar_unprintable_changes_bmMode :
    blank.bmMode = OLED_BM_NORMAL ∧
      (oled_DispChar blank 0 0 9).bmMode = OLED_BM_WHITE_TRAN ∧
      (oled_DispChar blank 0 0 9).bus = blank.bus ∧
      (oled_DispChar blank 0 0 9).GRAM = blank.GRAM := by
  rw [DispChar_unprintable blank 0 0 9 (by decide)]
  exact ⟨rfl, rfl, rfl, rfl⟩

theorem DispChar_getPixel (o : oled_t) (x0 y0 c : Int) (hc : 32 ≤ c ∧ c ≤ 126) (x y : Int) :
    getPixel (oled_DispChar o x0 y0 c).GRAM x y =
      getPixel (oled_DispBitmap (oled_SetBmMode o o.textMode) x0 y0
        (o.font.characters (c - 32).toNat) o.font.width o.font.height).GRAM x y := by
  rw [DispChar_printable o x0 y0 c hc, (SetBmMode_sameMirror _ _).1]

/-- C14, evaluated on the code: `OLED_TEXT_FILL` is the same constant as
`OLED_TEXT_TRAN`, and on a screen with every pixel lit, background colour 0 and
text mode `OLED_TEXT_FILL`, drawing the space character (all source bits 0) at
the origin leaves the glyph pixel (0, 0) lit instead of giving it the background
colour. -/
theorem TEXT_FILL_leaves_background :
    OLED_TEXT_FILL = OLED_TEXT_TRAN ∧
      (oled_SetTextMode litScreen OLED_TEXT_FILL).textMode = OLED_TEXT_FILL ∧
      (oled_SetTextMode litScreen OLED_TEXT_FILL).bkColor = 0 ∧
      bitmapColor ((oled_SetTextMode litScreen OLED_TEXT_FILL).font.characters 0)
        (oled_SetTextMode litScreen OLED_TEXT_FILL).font.width 0 0 = 0 ∧
      getPixel (oled_DispChar (oled_SetTextMode litScreen OLED_TEXT_FILL) 0 0 32).GRAM 0 0 = 1 := by
  refine ⟨rfl, rfl, rfl, by decide, ?_⟩
  rw [DispChar_getPixel _ 0 0 32 (by decide),
    DispBitmap_getPixel _ 0 0 _ _ _ 0 0 (by decide) (by decide),
    composite_whiteTran _ rfl]
  decide

theorem ne_withMode_of_pixel (a b : oled_t) (m : Nat) (x y : Int)
    (h : getPixel a.GRAM x y ≠ getPixel b.GRAM x y) : ¬ (a = { b with bmMode := m }) := by
  intro e
  apply h
  rw [e]

/-- C15 as stated fails when the text mode is not a valid bitmap mode: in the
context `badTextMode` (bitmap mode NORMAL, text mode 9) `oled_SetBmMode` rejects
the text mode, so the glyph of 'A' is composited in NORMAL mode and lights the
pixel (0, 0), whereas compositing it in the text mode would leave the pixel
dark. -/
theorem DispChar_invalid_textMode :
    validMode badTextMode.bmMode ∧ ((32 : Int) ≤ 65 ∧ (65 : Int) ≤ 126) ∧
      getPixel (oled_DispChar badTextMode 0 0 65).GRAM 0 0 = 1 ∧
      getPixel (oled_DispBitmap { badTextMode with bmMode := badTextMode.textMode } 0 0
          (badTextMode.font.characters (65 - 32 : Int).toNat)
          badTextMode.font.width badTextMode.font.height).GRAM 0 0 = 0 ∧
      ¬ (oled_DispChar badTextMode 0 0 65 =
          { oled_DispBitmap { badTextMode with bmMode := badTextMode.textMode } 0 0
              (badTextMode.font.characters (65 - 32 : Int).toNat)
              badTextMode.font.width badTextMode.font.height with
            bmMode := badTextMode.bmMode }) := by
  have h1 : getPixel (oled_DispChar badTextMode 0 0 65).GRAM 0 0 = 1 := by
    rw [DispChar_getPixel _ 0 0 65 (by decide),
      SetBmMode_of_invalid badTextMode badTextMode.textMode (by decide),
      DispBitmap_getPixel _ 0 0 _ _ _ 0 0 (by decide) (by decide)]
    decide
  have h2 : getPixel (oled_DispBitmap { badTextMode with bmMode := badTextMode.textMode } 0 0
      (badTextMode.font.characters (65 - 32 : Int).toNat)
      badTextMode.font.width badTextMode.font.height).GRAM 0 0 = 0 := by
    rw [DispBitmap_getPixel _ 0 0 _ _ _ 0 0 (by decide) (by decide),
      composite_otherMode _ (by decide)]
    decide
  refine ⟨by decide, by decide, h1, h2, ?_⟩
  exact ne_withMode_of_pixel _ _ _ 0 0 (by rw [h1, h2]; decide)

/-- C15, amended: for every printable character (32..126) and every context
whose bitmap mode and text mode are both among the six valid modes, the glyph
is composited with the active text mode and, after the call returns, the
bitmap mode equals its value before the call. -/
theorem DispChar_mode_temporary (o : oled_t) (x0 y0 c : Int) (hc : 32 ≤ c ∧ c ≤ 126)
    (hb : validMode o.bmMode) (ht : validMode o.textMode) :
    oled_DispChar o x0 y0 c =
        { oled_DispBitmap { o with bmMode := o.textMode } x0 y0
            (o.font.characters (c - 32).toNat) o.font.width o.font.height with
          bmMode := o.bmMode } ∧
      (oled_DispChar o x0 y0 c).bmMode = o.bmMode := by
  have e : oled_DispChar o x0 y0 c =
      { oled_DispBitmap { o with bmMode := o.textMode } x0 y0
          (o.font.characters (c - 32).toNat) o.font.width o.font.height with
        bmMode := o.bmMode } := by
    rw [DispChar_printable o x0 y0 c hc, SetBmMode_of_valid o o.textMode ht,
      SetBmMode_of_valid _ o.bmMode hb]
  rw [e]
  exact ⟨rfl, rfl⟩

theorem DispChar_mode_temporary_witness :
    ((32 : Int) ≤ 65 ∧ (65 : Int) ≤ 126) ∧ validMode blank.bmMode ∧ validMode blank.textMode ∧
      (oled_DispChar blank 0 0 65).bmMode = blank.bmMode :=
  ⟨by decide, by decide, by decide,
    (DispChar_mode_temporary blank 0 0 65 (by decide) (by decide) (by decide)).2⟩

/-- C19: validated setters.  For every value `v`, `oled_SetColor` and
`oled_SetBkColor` store `v` (and the matching getter returns it) if `v` is 0 or
1, `oled_SetBmMode` stores `v` if `v` is one of the six bitmap modes 0..5, and
for any other `v` the field keeps its previous value; in every case the result
differs from the context before in that one field at most, so no other field,
no mirror byte and no bus operation is involved.  `oled_SetTextMode` likewise
stores only the text-mode constant. -/
theorem setters_validated (o : oled_t) (v : Nat) :
    (oled_SetColor o v = { o with color := if v = 0 ∨ v = 1 then v else o.color } ∧
      oled_GetColor (oled_SetColor o v) = if v = 0 ∨ v = 1 then v else o.color) ∧
    (oled_SetBkColor o v = { o with bkColor := if v = 0 ∨ v = 1 then v else o.bkColor } ∧
      oled_GetBkColor (oled_SetBkColor o v) = if v = 0 ∨ v = 1 then v else o.bkColor) ∧
    (oled_SetBmMode o v = { o with bmMode := if v ≤ 5 then v else o.bmMode } ∧
      oled_GetBmMode (oled_SetBmMode o v) = if v ≤ 5 then v else o.bmMode) ∧
    (oled_SetTextMode o v = { o with textMode := if v = 2 then v else o.textMode } ∧
      oled_GetTextMode (oled_SetTextMode o v) = if v = 2 then v else o.textMode) := by
  refine ⟨?_, ?_, ?_, ?_⟩
  · unfold oled_GetColor oled_SetColor
    by_cases h : v = 0 ∨ v = 1
    · simp only [if_pos h, and_self]
    · simp only [if_neg h, and_self]
  · unfold oled_GetBkColor oled_SetBkColor
    by_cases h : v = 0 ∨ v = 1
    · simp only [if_pos h, and_self]
    · simp only [if_neg h, and_self]
  · unfold oled_GetBmMode
    by_cases h : v ≤ 5
    · have hv : validMode v := by
        unfold validMode OLED_BM_NORMAL OLED_BM_INV OLED_BM_WHITE_TRAN OLED_BM_BLACK_TRAN
          OLED_BM_WHITE_FILL OLED_BM_BLACK_FILL
        omega
      rw [SetBmMode_of_valid o v hv]
      simp only [if_pos h, and_self]
    · have hv : ¬ validMode v := by
        unfold validMode OLED_BM_NORMAL OLED_BM_INV OLED_BM_WHITE_TRAN OLED_BM_BLACK_TRAN
          OLED_BM_WHITE_FILL OLED_BM_BLACK_FILL
        omega
      rw [SetBmMode_of_invalid o v hv]
      simp only [if_neg h, and_self]
  · unfold oled_GetTextMode oled_SetTextMode OLED_TEXT_TRAN OLED_TEXT_FILL OLED_BM_WHITE_TRAN
    by_cases h : v = 2
    · simp only [if_pos h, or_self, and_self]
    · simp only [if_neg h, or_self, and_self]

/-! ## Strings: claim C12 -/

theorem DispChar_font (o : oled_t) (x0 y0 c : Int) : (oled_DispChar o x0 y0 c).font = o.font := by
  by_cases hc : 32 ≤ c ∧ c ≤ 126
  · rw [DispChar_printable o x0 y0 c hc, (SetBmMode_sameMirror _ _).2.2.1,
      (DispBitmap_sameConfig _ _ _ _ _ _).2.2.2.2.1, (SetBmMode_sameMirror _ _).2.2.1]
  · rw [DispChar_unprintable o x0 y0 c (by omega), (SetBmMode_sameMirror _ _).2.2.1]

theorem lineOf_snoc (p : List Int) (c : Int) :
    lineOf (p ++ [c]) = lineOf p + (if c = 10 then 1 else 0) := by
  unfold lineOf
  rw [List.count_append, List.count_singleton]
  by_cases h : c = 10
  · subst h
    simp
  · have h' : ¬ (10 : Int) = c := fun e => h e.symm
    simp [h, h']

theorem colOf_snoc (p : List Int) (c : Int) :
    colOf (p ++ [c]) = if c = 10 then 0 else colOf p + 1 := by
  unfold colOf
  rw [List.reverse_append, List.reverse_singleton, List.singleton_append, List.takeWhile_cons]
  by_cases h : c = 10
  · simp [h]
  · simp [h]

theorem dispStringLoop_layout (x0 y0 : Int) (W H : Nat) (s : List Int) :
    ∀ (p : List Int) (o : oled_t), (∀ c ∈ s, c ≠ 0) → o.font.width = W → o.font.height = H →
      dispStringLoop s x0 (y0 + lineOf p * H) (colOf p) o =
        (layoutFrom x0 y0 W H p s).foldl dispCharAt o := by
  induction s with
  | nil => intro p o _ _ _; rfl
  | cons c s ih =>
    intro p o hs hW hH
    have hc0 : c ≠ 0 := hs c (List.mem_cons_self _ _)
    have hs' : ∀ d ∈ s, d ≠ 0 := fun d hd => hs d (List.mem_cons_of_mem _ hd)
    unfold dispStringLoop layoutFrom
    rw [if_neg hc0]
    by_cases hn : c = 10
    · rw [if_pos hn, if_pos hn, List.nil_append, ← ih (p ++ [c]) o hs' hW hH, lineOf_snoc,
        colOf_snoc, if_pos hn, if_pos hn, hH]
      congr 1
      push_cast
      ring
    · rw [if_neg hn, if_neg hn, List.singleton_append, List.foldl_cons,
        ← ih (p ++ [c]) (dispCharAt o (x0 + colOf p * W, y0 + lineOf p * H, c)) hs'
          (by unfold dispCharAt; rw [DispChar_font, hW])
          (by unfold dispCharAt; rw [DispChar_font, hH]),
        lineOf_snoc, colOf_snoc, if_neg hn, if_neg hn, hW]
      unfold dispCharAt
      simp only [add_zero, Nat.cast_add, Nat.cast_one]

/-- C12: string layout.  For every string `s` (a list of non-NUL characters),
origin `(x0, y0)` and font of glyph size `W x H`, `oled_DispString` is the
sequence of calls of `oled_DispChar`, in string order, for each non-newline
character at `(x0 + k*W, y0 + l*H)`, where `l` is the number of newline
characters before it and `k` the number of non-newline characters since the
last newline (or the start); so for "A\nB" at (0,0) the glyph of 'A' is drawn
at (0,0) and the glyph of 'B' at column 0, row `H`. -/
theorem DispString_layout (o : oled_t) (x0 y0 : Int) (s : List Int) (hs : ∀ c ∈ s, c ≠ 0) :
    oled_DispString o x0 y0 s =
        (stringLayout x0 y0 o.font.width o.font.height s).foldl dispCharAt o ∧
      oled_DispString o 0 0 [65, 10, 66] =
        oled_DispChar (oled_DispChar o 0 0 65) 0 o.font.height 66 := by
  have key : ∀ (t : List Int), (∀ c ∈ t, c ≠ 0) →
      oled_DispString o x0 y0 t =
        (stringLayout x0 y0 o.font.width o.font.height t).foldl dispCharAt o := by
    intro t ht
    have h := dispStringLoop_layout x0 y0 o.font.width o.font.height t [] o ht rfl rfl
    unfold oled_DispString stringLayout
    rw [← h]
    simp [lineOf, colOf]
  refine ⟨key s hs, ?_⟩
  unfold oled_DispString dispStringLoop dispStringLoop dispStringLoop dispStringLoop
  simp [DispChar_font]

theorem DispString_layout_witness :
    (∀ c ∈ ([87, 69, 10, 84, 79] : List Int), c ≠ 0) ∧
      oled_DispString blank 0 0 [87, 69, 10, 84, 79] =
        (stringLayout 0 0 blank.font.width blank.font.height [87, 69, 10, 84, 79]).foldl
          dispCharAt blank :=
  ⟨by decide, (DispString_layout blank 0 0 [87, 69, 10, 84, 79] (by decide)).1⟩

/-! ## Rounded rectangle of radius 0 and points: claims C11 and C20 -/

theorem BresenhamCircleAlgorithm_zero_outer (o : oled_t) (xc yc rIn : Int) (octants : Nat) :
    BresenhamCircleAlgorithm o xc yc rIn 0 octants = o := by
  unfold BresenhamCircleAlgorithm
  rw [if_pos (Or.inr rfl)]

theorem DrawPie_zero_radius (o : oled_t) (xc yc a0 a1 : Int) :
    oled_DrawPie o xc yc 0 a0 a1 = o := by
  unfold oled_DrawPie
  simp only [BresenhamCircleAlgorithm_zero_outer]
  split <;> simp

theorem foldl_fill_GRAM_of_same_cover (l1 l2 : List Rect)
    (hh : ∀ k, (∃ r ∈ l1, hits r k) ↔ (∃ r ∈ l2, hits r k))
    (hc : ∀ k i, (∃ r ∈ l1, covers r k i) ↔ (∃ r ∈ l2, covers r k i)) (o : oled_t) :
    (l1.foldl fillRectCall o).GRAM = (l2.foldl fillRectCall o).GRAM := by
  funext k
  apply Nat.eq_of_testBit_eq
  intro i
  rw [Bool.eq_iff_iff, foldl_fill_testBit, foldl_fill_testBit, hh k, hc k i]

theorem hits_of_inside {a b : Rect} (h : a.inside b) (k : Nat) (ha : hits a k) : hits b k := by
  obtain ⟨⟨h1, h2⟩, h3, h4⟩ := h
  unfold hits hitCell at *
  have ca := clip_bounds a.x0 a.y0 a.x1 a.y1
  have cb := clip_bounds b.x0 b.y0 b.x1 b.y1
  obtain ⟨g1, g2, g3, g4, g5, g6⟩ := ha
  rw [tdiv8 ca.2.2.1] at g3
  rw [tdiv8 (by omega)] at g4
  have m1 : clipX0 b.x0 ≤ clipX0 a.x0 := by unfold clipX0; split_ifs <;> omega
  have m2 : clipX1 a.x1 ≤ clipX1 b.x1 := by unfold clipX1 OLED_WIDTH; split_ifs <;> omega
  have m3 : clipY0 b.y0 ≤ clipY0 a.y0 := by unfold clipY0; split_ifs <;> omega
  have m4 : clipY1 a.y1 ≤ clipY1 b.y1 := by unfold clipY1 OLED_HEIGHT; split_ifs <;> omega
  rw [tdiv8 cb.2.2.1, tdiv8 (by omega)]
  omega

theorem covers_of_inside {a b : Rect} (h : a.inside b) (k i : Nat) (ha : covers a k i) :
    covers b k i := by
  refine ⟨hits_of_inside h k ha.1, ?_⟩
  obtain ⟨⟨h1, h2⟩, h3, h4⟩ := h
  have m3 : clipY0 b.y0 ≤ clipY0 a.y0 := by unfold clipY0; split_ifs <;> omega
  have m4 : clipY1 a.y1 ≤ clipY1 b.y1 := by unfold clipY1 OLED_HEIGHT; split_ifs <;> omega
  have := ha.2
  omega

/-- Fills of rectangles that lie inside an already filled rectangle do not
change the mirror any further. -/
theorem foldl_fill_inside (b : Rect) (l : List Rect) (hl : ∀ a ∈ l, a.inside b) (o : oled_t) :
    ((b :: l).foldl fillRectCall o).GRAM = (fillRectCall o b).GRAM := by
  have e : (fillRectCall o b).GRAM = ([b].foldl fillRectCall o).GRAM := rfl
  rw [e]
  apply foldl_fill_GRAM_of_same_cover
  · intro k
    constructor
    · rintro ⟨r, hr, h⟩
      rcases List.mem_cons.1 hr with rfl | hr
      · exact ⟨r, List.mem_singleton_self _, h⟩
      · exact ⟨b, List.mem_singleton_self _, hits_of_inside (hl r hr) k h⟩
    · rintro ⟨r, hr, h⟩
      rw [List.mem_singleton] at hr
      exact ⟨b, List.mem_cons_self _ _, hr ▸ h⟩
  · intro k i
    constructor
    · rintro ⟨r, hr, h⟩
      rcases List.mem_cons.1 hr with rfl | hr
      · exact ⟨r, List.mem_singleton_self _, h⟩
      · exact ⟨b, List.mem_singleton_self _, covers_of_inside (hl r hr) k i h⟩
    · rintro ⟨r, hr, h⟩
      rw [List.mem_singleton] at hr
      exact ⟨b, List.mem_cons_self _ _, hr ▸ h⟩

/-- C11: for all integers `x0 y0 x1 y1` and every initial context,
`oled_FillRoundedRect o x0 y0 x1 y1 0` leaves the mirror identical to
`oled_FillRect o x0 y0 x1 y1`. -/
theorem FillRoundedRect_zero_radius (o : oled_t) (x0 y0 x1 y1 : Int) :
    (oled_FillRoundedRect o x0 y0 x1 y1 0).GRAM = (oled_FillRect o x0 y0 x1 y1).GRAM := by
  unfold oled_FillRoundedRect
  by_cases hg : x1 - x0 < 2 * 0 ∨ y1 - y0 < 2 * 0
  · rw [if_pos hg]
    unfold oled_FillRect
    rw [WriteGRAM_of_empty]
    unfold clipX0 clipX1 clipY0 clipY1 OLED_WIDTH OLED_HEIGHT
    split_ifs <;> omega
  · rw [if_neg hg]
    simp only [DrawPie_zero_radius, add_zero, sub_zero]
    exact foldl_fill_inside (Rect.mk x0 y0 x1 y1) [Rect.mk x0 y0 x0 y1, Rect.mk x1 y0 x1 y1]
      (by
        intro a ha
        simp only [List.mem_cons, List.mem_singleton, List.not_mem_nil, or_false] at ha
        rcases ha with rfl | rfl <;> unfold Rect.inside <;> simp only [] <;> omega) o

/-- C20 (pen size 0 means a 1-pixel point), evaluated on the code: in the blank
context (pen size 0 as set by `oled_Init`, foreground 1, dark mirror)
`oled_DrawPoint` at the on-display position (10, 10) passes the outer radius 0
to the circle rasterizer, whose test `rOut == 0` returns at once: the context
comes back unchanged and the pixel (10, 10) stays dark instead of taking the
foreground colour. -/
theorem DrawPoint_pen0_draws_nothing :
    blank.penSize = 0 ∧ blank.color = 1 ∧ ((0 : Int) ≤ 10 ∧ (10 : Int) ≤ 127) ∧
      ((0 : Int) ≤ 10 ∧ (10 : Int) ≤ 63) ∧
      oled_DrawPoint blank 10 10 = blank ∧
      getPixel (oled_DrawPoint blank 10 10).GRAM 10 10 = 0 ∧
      getPixel (oled_DrawPoint blank 10 10).GRAM 10 10 ≠ blank.color := by
  refine ⟨rfl, rfl, by decide, by decide, ?_, by decide, by decide⟩
  exact BresenhamCircleAlgorithm_zero_outer blank 10 10 0 0xFF

/-! ## Rejected requests: claims C21, C22 and C25 -/

theorem BresenhamCircleAlgorithm_rejected (o : oled_t) (xc yc rIn rOut : Int) (octants : Nat)
    (h : rIn > rOut ∨ rOut = 0) : BresenhamCircleAlgorithm o xc yc rIn rOut octants = o := by
  unfold BresenhamCircleAlgorithm
  rw [if_pos h]

theorem DrawPie_unfold (o : oled_t) (xc yc r a0 a1 : Int) :
    oled_DrawPie o xc yc r a0 a1 =
      if min a0 a1 < 0 ∨ max a0 a1 > 8 then o
      else BresenhamCircleAlgorithm o xc yc 0 r (octantMask (min a0 a1) (max a0 a1)) := by
  unfold oled_DrawPie
  by_cases h : a1 < a0
  · simp only [if_pos h, min_eq_right (le_of_lt h), max_eq_left (le_of_lt h)]
  · simp only [if_neg h, min_eq_left (not_lt.1 h), max_eq_right (not_lt.1 h)]

theorem DrawArc_unfold (o : oled_t) (xc yc r a0 a1 : Int) :
    oled_DrawArc o xc yc r a0 a1 =
      if min a0 a1 < 0 ∨ max a0 a1 > 8 then o
      else BresenhamCircleAlgorithm o xc yc (r - o.penSize) (r + o.penSize)
        (octantMask (min a0 a1) (max a0 a1)) := by
  unfold oled_DrawArc
  by_cases h : a1 < a0
  · simp only [if_pos h, min_eq_right (le_of_lt h), max_eq_left (le_of_lt h)]
  · simp only [if_neg h, min_eq_left (not_lt.1 h), max_eq_right (not_lt.1 h)]

/-- C21: circle requests with an inner radius exceeding the outer radius, or an
outer radius of zero, are no-ops: for every octant selector
`BresenhamCircleAlgorithm o xc yc rIn rOut octants` with `rIn > rOut` or
`rOut = 0` returns the context as it was (no mirror byte changed, no bus
operation); hence `oled_FillCircle` and `oled_DrawPie` with `r <= 0`, and
`oled_DrawCircle` / `oled_DrawArc` with `r = -penSize`, draw nothing. -/
theorem circle_requests_rejected (o : oled_t) (xc yc : Int) :
    (∀ (rIn rOut : Int) (octants : Nat), rIn > rOut ∨ rOut = 0 →
      BresenhamCircleAlgorithm o xc yc rIn rOut octants = o ∧
      (BresenhamCircleAlgorithm o xc yc rIn rOut octants).GRAM = o.GRAM ∧
      (BresenhamCircleAlgorithm o xc yc rIn rOut octants).bus = o.bus) ∧
    (∀ (r a0 a1 : Int), r ≤ 0 →
      oled_FillCircle o xc yc r = o ∧ oled_DrawPie o xc yc r a0 a1 = o) ∧
    (∀ (r a0 a1 : Int), r = -(o.penSize : Int) →
      oled_DrawCircle o xc yc r = o ∧ oled_DrawArc o xc yc r a0 a1 = o) := by
  refine ⟨?_, ?_, ?_⟩
  · intro rIn rOut octants h
    rw [BresenhamCircleAlgorithm_rejected o xc yc rIn rOut octants h]
    exact ⟨rfl, rfl, rfl⟩
  · intro r a0 a1 hr
    constructor
    · exact BresenhamCircleAlgorithm_rejected o xc yc 0 r 0xFF (by omega)
    · rw [DrawPie_unfold]
      split
      · rfl
      · exact BresenhamCircleAlgorithm_rejected o xc yc 0 r _ (by omega)
  · intro r a0 a1 hr
    constructor
    · exact BresenhamCircleAlgorithm_rejected o xc yc _ _ 0xFF (by omega)
    · rw [DrawArc_unfold]
      split
      · rfl
      · exact BresenhamCircleAlgorithm_rejected o xc yc _ _ _ (by omega)

theorem circle_requests_rejected_witness :
    ((5 : Int) > 3 ∨ (3 : Int) = 0) ∧ ((-2 : Int) ≤ 0) ∧
      BresenhamCircleAlgorithm blank 64 32 5 3 0xFF = blank ∧
      oled_FillCircle blank 64 32 (-2) = blank :=
  ⟨by decide, by decide,
    ((circle_requests_rejected blank 64 32).1 5 3 0xFF (by decide)).1,
    ((circle_requests_rejected blank 64 32).2.1 (-2) 0 8 (by decide)).1⟩

/-- C22: angle handling of `oled_DrawArc` and `oled_DrawPie`: for all integers
`a0`, `a1` the call with `(a0, a1)` yields the same context as the call with
`(a1, a0)`, and whenever `min(a0,a1) < 0` or `max(a0,a1) > 8` the call returns
the context as it was (mirror unchanged, no bus operation). -/
theorem arc_pie_angles (o : oled_t) (xc yc r a0 a1 : Int) :
    (oled_DrawArc o xc yc r a0 a1 = oled_DrawArc o xc yc r a1 a0 ∧
      oled_DrawPie o xc yc r a0 a1 = oled_DrawPie o xc yc r a1 a0) ∧
    (min a0 a1 < 0 ∨ max a0 a1 > 8 →
      oled_DrawArc o xc yc r a0 a1 = o ∧ oled_DrawPie o xc yc r a0 a1 = o) := by
  refine ⟨⟨?_, ?_⟩, ?_⟩
  · rw [DrawArc_unfold, DrawArc_unfold, min_comm a1 a0, max_comm a1 a0]
  · rw [DrawPie_unfold, DrawPie_unfold, min_comm a1 a0, max_comm a1 a0]
  · intro h
    rw [DrawArc_unfold, DrawPie_unfold, if_pos h, if_pos h]
    exact ⟨rfl, rfl⟩

theorem arc_pie_angles_witness :
    (min (9 : Int) 2 < 0 ∨ max (9 : Int) 2 > 8) ∧ oled_DrawArc blank 64 32 20 9 2 = blank :=
  ⟨by decide, ((arc_pie_angles blank 64 32 20 9 2).2 (by decide)).1⟩

/-- C25: rounded rectangles whose corner radius exceeds half of a side are
rejected: for all integers with `x1 - x0 < 2r` or `y1 - y0 < 2r`,
`oled_FillRoundedRect` and `oled_DrawRoundedRect` return the context as it was,
so no mirror byte changes and no bus operation is performed. -/
theorem rounded_rect_rejected (o : oled_t) (x0 y0 x1 y1 r : Int)
    (h : x1 - x0 < 2 * r ∨ y1 - y0 < 2 * r) :
    (oled_FillRoundedRect o x0 y0 x1 y1 r = o ∧ oled_DrawRoundedRect o x0 y0 x1 y1 r = o) ∧
    ((oled_FillRoundedRect o x0 y0 x1 y1 r).GRAM = o.GRAM ∧
      (oled_FillRoundedRect o x0 y0 x1 y1 r).bus = o.bus) ∧
    ((oled_DrawRoundedRect o x0 y0 x1 y1 r).GRAM = o.GRAM ∧
      (oled_DrawRoundedRect o x0 y0 x1 y1 r).bus = o.bus) := by
  have e1 : oled_FillRoundedRect o x0 y0 x1 y1 r = o := by
    unfold oled_FillRoundedRect
    rw [if_pos h]
  have e2 : oled_DrawRoundedRect o x0 y0 x1 y1 r = o := by
    unfold oled_DrawRoundedRect
    rw [if_pos h]
  rw [e1, e2]
  exact ⟨⟨rfl, rfl⟩, ⟨rfl, rfl⟩, ⟨rfl, rfl⟩⟩

theorem rounded_rect_rejected_witness :
    ((96 : Int) - 32 < 2 * 40 ∨ (48 : Int) - 16 < 2 * 40) ∧
      oled_FillRoundedRect blank 32 16 96 48 40 = blank :=
  ⟨by decide, (rounded_rect_rejected blank 32 16 96 48 40 (by decide)).1.1⟩

/-! ## Octant selector, start-up and clear: claims C23, C24 and C26 -/

theorem testBit_octantMask (a0 a1 : Int) (h0 : 0 ≤ a0) (h1 : a0 ≤ a1) (h8 : a1 ≤ 8) (i : Nat) :
    (octantMask a0 a1).testBit i = decide (a0 ≤ (i : Int) ∧ (i : Int) < a1) := by
  unfold octantMask
  rw [show (256 : Nat) = 2 ^ 8 from rfl, Nat.testBit_mod_two_pow, Nat.testBit_and,
    Nat.testBit_shiftRight, Nat.testBit_shiftLeft, testBit_255, testBit_255, Bool.eq_iff_iff]
  simp only [Bool.and_eq_true, decide_eq_true_eq, ge_iff_le]
  omega

/-- C23: octant selector formula.  For all integers `0 <= a0 <= a1 <= 8`, the
8-bit mask `(0xFF >> (8 - a1)) & (0xFF << a0)` computed by `oled_DrawArc` and
`oled_DrawPie` has bit `i` set if and only if `a0 <= i < a1`; it is 0 when
`a0 = a1` and 0xFF for (0, 8); both shift amounts lie in 0..8. -/
theorem octantMask_bits (a0 a1 : Int) (h0 : 0 ≤ a0) (h1 : a0 ≤ a1) (h8 : a1 ≤ 8) :
    (∀ i : Nat, (octantMask a0 a1).testBit i = true ↔ (a0 ≤ (i : Int) ∧ (i : Int) < a1)) ∧
      (a0 = a1 → octantMask a0 a1 = 0) ∧ octantMask 0 8 = 0xFF ∧
      ((0 ≤ 8 - a1 ∧ 8 - a1 ≤ 8) ∧ (0 ≤ a0 ∧ a0 ≤ 8)) ∧
      (∀ (o : oled_t) (xc yc r : Int),
        oled_DrawArc o xc yc r a0 a1 =
            BresenhamCircleAlgorithm o xc yc (r - o.penSize) (r + o.penSize) (octantMask a0 a1) ∧
          oled_DrawPie o xc yc r a0 a1 =
            BresenhamCircleAlgorithm o xc yc 0 r (octantMask a0 a1)) := by
  refine ⟨?_, ?_, by decide, ⟨⟨by omega, by omega⟩, by omega, by omega⟩, ?_⟩
  · intro i
    rw [testBit_octantMask a0 a1 h0 h1 h8 i, decide_eq_true_eq]
  · intro e
    apply Nat.eq_of_testBit_eq
    intro i
    rw [testBit_octantMask a0 a1 h0 h1 h8 i, Nat.zero_testBit, decide_eq_false_iff_not]
    omega
  · intro o xc yc r
    rw [DrawArc_unfold, DrawPie_unfold, min_eq_left h1, max_eq_right h1,
      if_neg (by omega), if_neg (by omega)]
    exact ⟨rfl, rfl⟩

theorem octantMask_bits_witness :
    ((0 : Int) ≤ 5 ∧ (5 : Int) ≤ 8 ∧ (8 : Int) ≤ 8) ∧
      ((octantMask 5 8).testBit 6 = true ↔ ((5 : Int) ≤ (6 : Nat) ∧ ((6 : Nat) : Int) < 8)) :=
  ⟨by decide, (octantMask_bits 5 8 (by decide) (by decide) (by decide)).1 6⟩

theorem pageMask_full (p : Int) : pageMask 0 63 p = 0 := by
  unfold pageMask
  simp only []
  have e0 : (0 : Int).tdiv 8 = 0 := by decide
  have e1 : (63 : Int).tdiv 8 = 7 := by decide
  have e2 : (0 : Int).tmod 8 = 0 := by decide
  have e3 : (63 : Int).tmod 8 = 7 := by decide
  rw [e0, e1, e2, e3]
  split_ifs <;> decide

theorem newByte_mask_zero (c g : Nat) : newByte c 0 g = if c = 0 then 0 else 0xFF := by
  unfold newByte
  split
  · simp
  · simp [not8]

theorem gramCells_full_length : (gramCells 0 0 127 63).length = 1024 := by
  unfold gramCells
  rw [length_flatMap_const _ _ 128 (fun a => by rw [List.length_map, intRange_length]; rfl),
    intRange_length]
  decide

/-- C26: `oled_Clear` fills the whole screen with the background colour
whatever the prior contents: for every initial mirror, afterwards every one of
the 1024 mirror bytes is 0x00 if the background colour is 0 and 0xFF otherwise,
and the data transaction streams exactly 1024 data bytes, all of that value. -/
theorem Clear_fills_screen (o : oled_t) :
    (∀ k, k < 1024 → (oled_Clear o).GRAM k = if o.bkColor = 0 then 0x00 else 0xFF) ∧
      (oled_Clear o).bus =
        o.bus ++ addrPrefix o.slaveAddr 0 0 127 63 ++ [BusOp.write 0x40] ++
          (List.replicate 1024 (if o.bkColor = 0 then 0x00 else 0xFF)).map BusOp.write ++
          [BusOp.stop] ∧
      (List.replicate 1024 (if o.bkColor = 0 then 0x00 else 0xFF)).length = 1024 := by
  have c0 : clipX0 0 = 0 := by decide
  have c1 : clipY0 0 = 0 := by decide
  have c2 : clipX1 (OLED_WIDTH - 1) = 127 := by decide
  have c3 : clipY1 (OLED_HEIGHT - 1) = 63 := by decide
  refine ⟨?_, ?_, List.length_replicate _ _⟩
  · intro k hk
    unfold oled_Clear
    rw [WriteGRAM_GRAM, c0, c1, c2, c3, pageMask_full, newByte_mask_zero]
    have hh : hitCell 0 0 127 63 k := by
      unfold hitCell
      have e0 : (0 : Int).tdiv 8 = 0 := by decide
      have e1 : (63 : Int).tdiv 8 = 7 := by decide
      rw [e0, e1]
      omega
    rw [if_pos hh]
  · unfold oled_Clear
    rw [WriteGRAM_bus_pre o 0 0 (OLED_WIDTH - 1) (OLED_HEIGHT - 1) o.bkColor (by decide) (by decide),
      c0, c1, c2, c3]
    have hd : (gramCells 0 0 127 63).map
        (fun _ => BusOp.write (if o.bkColor = 0 then 0x00 else 0xFF)) =
        (List.replicate 1024 (if o.bkColor = 0 then 0x00 else 0xFF)).map BusOp.write := by
      rw [List.map_const', gramCells_full_length, List.map_replicate]
    simp only [pageMask_full, newByte_mask_zero, addrTrace, List.append_assoc]
    rw [hd]

/-! ## The line rasterizer as a list of plotted offsets -/

theorem DrawPixel_sameConfig (o : oled_t) (x y : Int) : sameConfig (oled_DrawPixel o x y) o :=
  WriteGRAM_sameConfig ..

theorem PlotPoint_sameConfig (o : oled_t) (x0 y0 x y : Int) (rot : Nat) :
    sameConfig (PlotPoint o x0 y0 x y rot) o := by
  unfold PlotPoint
  split_ifs <;> first | exact DrawPixel_sameConfig .. | exact sameConfig_refl o

theorem plotAt_sameConfig (x0 y0 : Int) (rot : Nat) (o : oled_t) (pt : Int × Int) :
    sameConfig (plotAt x0 y0 rot o pt) o :=
  PlotPoint_sameConfig ..

theorem foldl_plotAt_sameConfig (x0 y0 : Int) (rot : Nat) (l : List (Int × Int)) (o : oled_t) :
    sameConfig (l.foldl (plotAt x0 y0 rot) o) o :=
  foldl_sameConfig _ (plotAt_sameConfig x0 y0 rot) l o

theorem PlotPoint_penSize (o : oled_t) (x0 y0 x y : Int) (rot : Nat) :
    (PlotPoint o x0 y0 x y rot).penSize = o.penSize :=
  (PlotPoint_sameConfig o x0 y0 x y rot).2.2.2.1

theorem perpStepL_eq (x0 y0 dx dy step : Int) (rot : Nat) (s : PerpState) (i : Int) :
    perpStepL x0 y0 dx dy step rot s i =
      { error := (perpNextL dx dy ⟨s.error, s.x, s.y⟩).error
        x := (perpNextL dx dy ⟨s.error, s.x, s.y⟩).x
        y := (perpNextL dx dy ⟨s.error, s.x, s.y⟩).y
        o := (perpEmitL s.o.penSize dx dy step ⟨s.error, s.x, s.y⟩ i).foldl
          (plotAt x0 y0 rot) s.o } := by
  unfold perpStepL perpNextL perpEmitL
  simp only [PlotPoint_penSize]
  by_cases h : s.error > dx - 2 * dy
  · by_cases h2 : step = 1 ∧ i ≠ (s.o.penSize : Int)
    · simp only [if_pos h, if_pos h2, h, true_and, if_true, List.foldl_cons, List.foldl_nil, plotAt]
    · simp only [if_pos h, if_neg h2, h, true_and, if_true, if_false, List.foldl_cons, List.foldl_nil,
        plotAt]
  · simp only [if_neg h, h, false_and, if_false, List.foldl_cons, List.foldl_nil, plotAt]

theorem foldl_perpStepL (x0 y0 dx dy step : Int) (rot : Nat) (is : List Int) (s : PerpState) :
    (is.foldl (perpStepL x0 y0 dx dy step rot) s).o =
      (perpPointsL s.o.penSize dx dy step ⟨s.error, s.x, s.y⟩ is).foldl (plotAt x0 y0 rot) s.o := by
  induction is generalizing s with
  | nil => rfl
  | cons i is ih =>
    rw [List.foldl_cons, ih, perpStepL_eq]
    simp only [perpPointsL, List.foldl_append,
      (foldl_plotAt_sameConfig x0 y0 rot _ s.o).2.2.2.1]

theorem PlotPerpLineL_eq (o : oled_t) (x0 y0 dx dy x y step : Int) (rot : Nat) :
    PlotPerpLineL o x0 y0 dx dy x y step rot =
      (perpPointsL o.penSize dx dy step ⟨0, x, y⟩ (intRange 0 ((o.penSize : Int) + 1 - 1))).foldl
        (plotAt x0 y0 rot) o := by
  unfold PlotPerpLineL
  rw [foldl_perpStepL]

theorem perpStepR_eq (x0 y0 dx dy step : Int) (rot : Nat) (s : PerpState) (i : Int) :
    perpStepR x0 y0 dx dy step rot s i =
      { error := (perpNextR dx dy ⟨s.error, s.x, s.y⟩).error
        x := (perpNextR dx dy ⟨s.error, s.x, s.y⟩).x
        y := (perpNextR dx dy ⟨s.error, s.x, s.y⟩).y
        o := (perpEmitR s.o.penSize dx dy step ⟨s.error, s.x, s.y⟩ i).foldl
          (plotAt x0 y0 rot) s.o } := by
  unfold perpStepR perpNextR perpEmitR
  by_cases h0 : i ≠ 0
  · simp only [if_pos h0, PlotPoint_penSize]
    by_cases h : s.error > dx - 2 * dy
    · by_cases h2 : step = 1 ∧ i ≠ (s.o.penSize : Int)
      · simp only [if_pos h, if_pos h2, h, true_and, if_true, List.singleton_append,
          List.foldl_cons, List.foldl_nil, plotAt]
      · simp only [if_pos h, if_neg h2, h, true_and, if_true, if_false, List.append_nil,
          List.foldl_cons, List.foldl_nil, plotAt]
    · simp only [if_neg h, h, false_and, if_false, List.append_nil, List.foldl_cons,
        List.foldl_nil, plotAt]
  · simp only [if_neg h0]
    by_cases h : s.error > dx - 2 * dy
    · by_cases h2 : step = 1 ∧ i ≠ (s.o.penSize : Int)
      · simp only [if_pos h, if_pos h2, h, true_and, if_true, List.nil_append,
          List.foldl_cons, List.foldl_nil, plotAt]
      · simp only [if_pos h, if_neg h2, h, true_and, if_true, if_false, List.append_nil,
          List.foldl_nil]
    · simp only [if_neg h, h, false_and, if_false, List.append_nil, List.foldl_nil]

theorem foldl_perpStepR (x0 y0 dx dy step : Int) (rot : Nat) (is : List Int) (s : PerpState) :
    (is.foldl (perpStepR x0 y0 dx dy step rot) s).o =
      (perpPointsR s.o.penSize dx dy step ⟨s.error, s.x, s.y⟩ is).foldl (plotAt x0 y0 rot) s.o := by
  induction is generalizing s with
  | nil => rfl
  | cons i is ih =>
    rw [List.foldl_cons, ih, perpStepR_eq]
    simp only [perpPointsR, List.foldl_append,
      (foldl_plotAt_sameConfig x0 y0 rot _ s.o).2.2.2.1]

theorem PlotPerpLineR_eq (o : oled_t) (x0 y0 dx dy x y step : Int) (rot : Nat) :
    PlotPerpLineR o x0 y0 dx dy x y step rot =
      (perpPointsR o.penSize dx dy step ⟨0, x, y⟩ (intRange 0 ((o.penSize : Int) + 1 - 1))).foldl
        (plotAt x0 y0 rot) o := by
  unfold PlotPerpLineR
  rw [foldl_perpStepR]

theorem lineStep_eq (x0 y0 dx dy : Int) (rot : Nat) (s : LineState) (x : Int) :
    lineStep x0 y0 dx dy rot s x =
      { error := (lineNext dx dy ⟨s.error, s.y, s.step⟩).error
        y := (lineNext dx dy ⟨s.error, s.y, s.step⟩).y
        step := (lineNext dx dy ⟨s.error, s.y, s.step⟩).step
        o := (lineEmit s.o.penSize dx dy ⟨s.error, s.y, s.step⟩ x).foldl (plotAt x0 y0 rot) s.o } := by
  unfold lineStep lineNext lineEmit lineStepFlag
  simp only [PlotPerpLineL_eq, PlotPerpLineR_eq, List.foldl_append,
    (foldl_plotAt_sameConfig x0 y0 rot _ s.o).2.2.2.1]
  by_cases h : s.error > dx - 2 * dy
  · simp only [if_pos h]
  · simp only [if_neg h]

theorem foldl_lineStep (x0 y0 dx dy : Int) (rot : Nat) (xs : List Int) (s : LineState) :
    (xs.foldl (lineStep x0 y0 dx dy rot) s).o =
      (linePointsFrom s.o.penSize dx dy ⟨s.error, s.y, s.step⟩ xs).foldl (plotAt x0 y0 rot) s.o := by
  induction xs generalizing s with
  | nil => rfl
  | cons x xs ih =>
    rw [List.foldl_cons, ih, lineStep_eq]
    simp only [linePointsFrom, List.foldl_append,
      (foldl_plotAt_sameConfig x0 y0 rot _ s.o).2.2.2.1]

/-- The line rasterizer is the sequence of `PlotPoint` calls listed by
`linePoints`. -/
theorem BresenhamLineAlgorithm_eq_foldl (o : oled_t) (x0 y0 dx dy : Int) (rot : Nat) :
    BresenhamLineAlgorithm o x0 y0 dx dy rot =
      (linePoints o.penSize dx dy).foldl (plotAt x0 y0 rot) o := by
  unfold BresenhamLineAlgorithm linePoints
  by_cases h : dx < 0 ∨ dy < 0 ∨ dy > dx
  · rw [if_pos h, if_pos h]
    rfl
  · rw [if_neg h, if_neg h, foldl_lineStep]

/-! ## The one-pixel line: claim C29 -/

theorem idealY_spec (dx dy x : Int) (hdx : 0 < dx) :
    2 * dx * (idealY dx dy x - 1) < 2 * dy * x - dx ∧ 2 * dy * x - dx ≤ 2 * dx * idealY dx dy x := by
  unfold idealY
  have h1 := Int.ediv_add_emod (dx - 2 * dy * x) (2 * dx)
  have h2 := Int.emod_nonneg (dx - 2 * dy * x) (show (2 * dx) ≠ 0 by omega)
  have h3 := Int.emod_lt_of_pos (dx - 2 * dy * x) (show 0 < 2 * dx by omega)
  constructor <;> nlinarith

theorem idealY_unique (dx dy x y : Int) (hdx : 0 < dx)
    (h1 : 2 * dx * (y - 1) < 2 * dy * x - dx) (h2 : 2 * dy * x - dx ≤ 2 * dx * y) :
    idealY dx dy x = y := by
  obtain ⟨s1, s2⟩ := idealY_spec dx dy x hdx
  have a1 : y - 1 < idealY dx dy x :=
    lt_of_mul_lt_mul_left (lt_of_lt_of_le h1 s2) (by omega : (0 : Int) ≤ 2 * dx)
  have a2 : idealY dx dy x - 1 < y :=
    lt_of_mul_lt_mul_left (lt_of_lt_of_le s1 h2) (by omega : (0 : Int) ≤ 2 * dx)
  omega

theorem lineEmit_pen0 (dx dy : Int) (v : LineVars) (x : Int) :
    lineEmit 0 dx dy v x = [(x, v.y)] := by
  unfold lineEmit
  have e : intRange 0 (((0 : Nat) : Int) + 1 - 1) = [0] := by decide
  rw [e]
  simp [perpPointsL, perpPointsR, perpEmitL, perpEmitR]

theorem linePointsFrom_pen0 (dx dy : Int) (hdx : 0 < dx) (hdy : 0 ≤ dy) (hle : dy ≤ dx) (b : Int) :
    ∀ (n : Nat) (a : Int) (v : LineVars), (b + 1 - a).toNat = n →
      v.error = 2 * dy * a - 2 * dx * v.y → -dx < v.error → v.error ≤ dx →
      linePointsFrom 0 dx dy v (intRange a b) = (intRange a b).map (fun x => (x, idealY dx dy x)) := by
  intro n
  induction n with
  | zero =>
    intro a v hn _ _ _
    rw [intRange_empty (by omega)]
    rfl
  | succ n ih =>
    intro a v hn he hlo hhi
    rw [intRange_cons (by omega)]
    have hy : idealY dx dy a = v.y := by
      apply idealY_unique dx dy a v.y hdx <;> nlinarith
    unfold linePointsFrom
    rw [lineEmit_pen0, List.map_cons, hy, List.singleton_append]
    congr 1
    apply ih (a + 1) (lineNext dx dy v) (by omega)
    · unfold lineNext
      split <;> simp only [] <;> rw [he] <;> ring
    · unfold lineNext
      split <;> simp only [] <;> omega
    · unfold lineNext
      split <;> simp only [] <;> omega

theorem linePoints_pen0 (dx dy : Int) (hdy : 0 < dy) (hle : dy ≤ dx) :
    linePoints 0 dx dy = (intRange 0 dx).map (fun x => (x, idealY dx dy x)) := by
  unfold linePoints
  rw [if_neg (by omega)]
  exact linePointsFrom_pen0 dx dy (by omega) (by omega) hle dx _ 0 _ rfl (by simp) (by simp; omega)
    (by simp; omega)

/-- C29: with pen size 0 the general line is the ideal 1-pixel-wide line.  For
all `0 < dy <= dx`, `BresenhamLineAlgorithm` makes exactly one call of
`PlotPoint` per `x` in `0..dx` (so `dx + 1` calls), in increasing `x`, at the
canonical offset `(x, y(x))` with `y(x) = ceil((2*dy*x - dx) / (2*dx))`, which
is `dy*x/dx` rounded to the nearest integer with ties rounded down; `y(0) = 0`,
`y(dx) = dy` and `y` increases by 0 or 1 per step.  With rotation 1 the call
paints the pixel `(x0 + x, y0 + y(x))`. -/
theorem line_pen0_ideal (o : oled_t) (hp : o.penSize = 0) (x0 y0 dx dy : Int) (rot : Nat)
    (hdy : 0 < dy) (hle : dy ≤ dx) :
    BresenhamLineAlgorithm o x0 y0 dx dy rot =
        (intRange 0 dx).foldl (fun o x => PlotPoint o x0 y0 x (idealY dx dy x) rot) o ∧
      ((intRange 0 dx).length = (dx + 1).toNat ∧ ∀ x, x ∈ intRange 0 dx ↔ (0 ≤ x ∧ x ≤ dx)) ∧
      (∀ x : Int, 2 * dx * (idealY dx dy x - 1) < 2 * dy * x - dx ∧
        2 * dy * x - dx ≤ 2 * dx * idealY dx dy x) ∧
      (∀ x : Int, -dx < 2 * (dy * x - dx * idealY dx dy x) ∧
        2 * (dy * x - dx * idealY dx dy x) ≤ dx) ∧
      (idealY dx dy 0 = 0 ∧ idealY dx dy dx = dy) ∧
      (∀ x : Int, idealY dx dy (x + 1) = idealY dx dy x ∨
        idealY dx dy (x + 1) = idealY dx dy x + 1) ∧
      (∀ (o' : oled_t) (x y : Int),
        PlotPoint o' x0 y0 x y 1 = oled_DrawPixel o' (x0 + x) (y0 + y)) := by
  have hdx : 0 < dx := by omega
  refine ⟨?_, ⟨?_, fun x => mem_intRange⟩, fun x => idealY_spec dx dy x hdx, ?_, ⟨?_, ?_⟩, ?_,
    fun o' x y => rfl⟩
  · rw [BresenhamLineAlgorithm_eq_foldl, hp, linePoints_pen0 dx dy hdy hle, List.foldl_map]
    rfl
  · rw [intRange_length]
    congr 1
    omega
  · intro x
    obtain ⟨s1, s2⟩ := idealY_spec dx dy x hdx
    constructor <;> nlinarith
  · apply idealY_unique dx dy 0 0 hdx <;> omega
  · apply idealY_unique dx dy dx dy hdx <;> nlinarith
  · intro x
    obtain ⟨s1, s2⟩ := idealY_spec dx dy x hdx
    obtain ⟨t1, t2⟩ := idealY_spec dx dy (x + 1) hdx
    have a1 : idealY dx dy x - 1 < idealY dx dy (x + 1) := by
      apply lt_of_mul_lt_mul_left _ (by omega : (0 : Int) ≤ 2 * dx)
      nlinarith
    have a2 : idealY dx dy (x + 1) - 1 < idealY dx dy x + 1 := by
      apply lt_of_mul_lt_mul_left _ (by omega : (0 : Int) ≤ 2 * dx)
      nlinarith
    omega

theorem line_pen0_ideal_witness :
    blank.penSize = 0 ∧ (0 : Int) < 32 ∧ (32 : Int) ≤ 64 ∧
      BresenhamLineAlgorithm blank 32 16 64 32 1 =
        (intRange 0 64).foldl (fun o x => PlotPoint o 32 16 x (idealY 64 32 x) 1) blank :=
  ⟨rfl, by decide, by decide,
    (line_pen0_ideal blank rfl 32 16 64 32 1 (by decide) (by decide)).1⟩

/-! ## Frame of the shape primitives: claim C27 -/

theorem fillRectCall_sameConfig (o : oled_t) (r : Rect) : sameConfig (fillRectCall o r) o :=
  WriteGRAM_sameConfig ..

theorem BresenhamLineAlgorithm_sameConfig (o : oled_t) (x0 y0 dx dy : Int) (rot : Nat) :
    sameConfig (BresenhamLineAlgorithm o x0 y0 dx dy rot) o := by
  rw [BresenhamLineAlgorithm_eq_foldl]
  exact foldl_plotAt_sameConfig ..

theorem BresenhamCircleAlgorithm_sameConfig (o : oled_t) (xc yc rIn rOut : Int) (octants : Nat) :
    sameConfig (BresenhamCircleAlgorithm o xc yc rIn rOut octants) o := by
  rw [BresenhamCircleAlgorithm_eq_foldl]
  exact foldl_sameConfig _ fillRectCall_sameConfig _ o

theorem DrawHLine_sameConfig (o : oled_t) (y x0 x1 : Int) : sameConfig (DrawHLine o y x0 x1) o := by
  unfold DrawHLine
  split <;> exact WriteGRAM_sameConfig ..

theorem DrawVLine_sameConfig (o : oled_t) (x y0 y1 : Int) : sameConfig (DrawVLine o x y0 y1) o := by
  unfold DrawVLine
  split <;> exact WriteGRAM_sameConfig ..

/-- The call of `BresenhamLineAlgorithm` made by `oled_DrawLine` for a segment
that is neither vertical nor horizontal, in terms of its endpoints ordered by
increasing `x`. -/
theorem DrawLine_general (o : oled_t) (x0 y0 x1 y1 : Int) (hx : x0 ≠ x1) (hy : y0 ≠ y1) :
    oled_DrawLine o x0 y0 x1 y1 =
      if (rightEnd x0 y0 x1 y1).1 - (leftEnd x0 y0 x1 y1).1 <
          (rightEnd x0 y0 x1 y1).2 - (leftEnd x0 y0 x1 y1).2 then
        BresenhamLineAlgorithm o (leftEnd x0 y0 x1 y1).2 (leftEnd x0 y0 x1 y1).1
          ((rightEnd x0 y0 x1 y1).2 - (leftEnd x0 y0 x1 y1).2)
          ((rightEnd x0 y0 x1 y1).1 - (leftEnd x0 y0 x1 y1).1) 0
      else if 0 < (rightEnd x0 y0 x1 y1).2 - (leftEnd x0 y0 x1 y1).2 then
        BresenhamLineAlgorithm o (leftEnd x0 y0 x1 y1).1 (leftEnd x0 y0 x1 y1).2
          ((rightEnd x0 y0 x1 y1).1 - (leftEnd x0 y0 x1 y1).1)
          ((rightEnd x0 y0 x1 y1).2 - (leftEnd x0 y0 x1 y1).2) 1
      else if -((rightEnd x0 y0 x1 y1).1 - (leftEnd x0 y0 x1 y1).1) ≤
          (rightEnd x0 y0 x1 y1).2 - (leftEnd x0 y0 x1 y1).2 then
        BresenhamLineAlgorithm o (leftEnd x0 y0 x1 y1).1 (-(leftEnd x0 y0 x1 y1).2)
          ((rightEnd x0 y0 x1 y1).1 - (leftEnd x0 y0 x1 y1).1)
          (-(rightEnd x0 y0 x1 y1).2 - -(leftEnd x0 y0 x1 y1).2) 2
      else
        BresenhamLineAlgorithm o (-(leftEnd x0 y0 x1 y1).2) (leftEnd x0 y0 x1 y1).1
          (-(rightEnd x0 y0 x1 y1).2 - -(leftEnd x0 y0 x1 y1).2)
          ((rightEnd x0 y0 x1 y1).1 - (leftEnd x0 y0 x1 y1).1) 3 := by
  unfold oled_DrawLine leftEnd rightEnd
  rw [if_neg hx, if_neg hy]
  by_cases h : x1 < x0
  · simp only [if_pos h]
    by_cases c0 : x0 - x1 < y0 - y1
    · rw [if_pos c0, if_pos c0]
    · rw [if_neg c0, if_neg c0]
      by_cases c1 : 0 < y0 - y1
      · rw [if_neg (by omega), if_neg (by omega), if_pos c1]
      · rw [if_neg c1]
        by_cases c2 : -(x0 - x1) ≤ y0 - y1
        · rw [if_pos (by omega), if_pos c2]
        · rw [if_neg (by omega), if_pos (by omega), if_neg c2]
  · simp only [if_neg h]
    by_cases c0 : x1 - x0 < y1 - y0
    · rw [if_pos c0, if_pos c0]
    · rw [if_neg c0, if_neg c0]
      by_cases c1 : 0 < y1 - y0
      · rw [if_neg (by omega), if_neg (by omega), if_pos c1]
      · rw [if_neg c1]
        by_cases c2 : -(x1 - x0) ≤ y1 - y0
        · rw [if_pos (by omega), if_pos c2]
        · rw [if_neg (by omega), if_pos (by omega), if_neg c2]

theorem DrawLine_sameConfig (o : oled_t) (x0 y0 x1 y1 : Int) :
    sameConfig (oled_DrawLine o x0 y0 x1 y1) o := by
  by_cases hx : x0 = x1
  · unfold oled_DrawLine
    rw [if_pos hx]
    exact DrawVLine_sameConfig ..
  by_cases hy : y0 = y1
  · unfold oled_DrawLine
    rw [if_neg hx, if_pos hy]
    exact DrawHLine_sameConfig ..
  rw [DrawLine_general o x0 y0 x1 y1 hx hy]
  split_ifs <;> exact BresenhamLineAlgorithm_sameConfig ..

theorem DrawPie_sameConfig (o : oled_t) (xc yc r a0 a1 : Int) :
    sameConfig (oled_DrawPie o xc yc r a0 a1) o := by
  rw [DrawPie_unfold]
  split
  · exact sameConfig_refl o
  · exact BresenhamCircleAlgorithm_sameConfig ..

theorem DrawArc_sameConfig (o : oled_t) (xc yc r a0 a1 : Int) :
    sameConfig (oled_DrawArc o xc yc r a0 a1) o := by
  rw [DrawArc_unfold]
  split
  · exact sameConfig_refl o
  · exact BresenhamCircleAlgorithm_sameConfig ..

theorem FillRect_sameConfig (o : oled_t) (x0 y0 x1 y1 : Int) :
    sameConfig (oled_FillRect o x0 y0 x1 y1) o :=
  WriteGRAM_sameConfig ..

theorem DrawRect_sameConfig (o : oled_t) (x0 y0 x1 y1 : Int) :
    sameConfig (oled_DrawRect o x0 y0 x1 y1) o := by
  unfold oled_DrawRect
  split
  · exact sameConfig_refl o
  · exact sameConfig_trans (DrawVLine_sameConfig ..) (sameConfig_trans (DrawVLine_sameConfig ..)
      (sameConfig_trans (DrawHLine_sameConfig ..) (DrawHLine_sameConfig ..)))

theorem FillRoundedRect_sameConfig (o : oled_t) (x0 y0 x1 y1 r : Int) :
    sameConfig (oled_FillRoundedRect o x0 y0 x1 y1 r) o := by
  unfold oled_FillRoundedRect
  split
  · exact sameConfig_refl o
  · exact sameConfig_trans (DrawPie_sameConfig ..) (sameConfig_trans (DrawPie_sameConfig ..)
      (sameConfig_trans (DrawPie_sameConfig ..) (sameConfig_trans (DrawPie_sameConfig ..)
        (sameConfig_trans (FillRect_sameConfig ..) (sameConfig_trans (FillRect_sameConfig ..)
          (FillRect_sameConfig ..))))))

theorem DrawRoundedRect_sameConfig (o : oled_t) (x0 y0 x1 y1 r : Int) :
    sameConfig (oled_DrawRoundedRect o x0 y0 x1 y1 r) o := by
  unfold oled_DrawRoundedRect
  split
  · exact sameConfig_refl o
  · exact sameConfig_trans (DrawArc_sameConfig ..) (sameConfig_trans (DrawArc_sameConfig ..)
      (sameConfig_trans (DrawArc_sameConfig ..) (sameConfig_trans (DrawArc_sameConfig ..)
        (sameConfig_trans (DrawVLine_sameConfig ..) (sameConfig_trans (DrawVLine_sameConfig ..)
          (sameConfig_trans (DrawHLine_sameConfig ..) (DrawHLine_sameConfig ..)))))))

/-- C27: shape and bitmap primitives are stateless apart from the mirror (and
the bus trace): for every context and all arguments, `oled_Clear`,
`oled_ClearRect`, `oled_DrawPixel`, `oled_DrawLine`, `oled_FillRect`,
`oled_DrawRect`, `oled_FillRoundedRect`, `oled_DrawRoundedRect`,
`oled_DrawCircle`, `oled_FillCircle`, `oled_DrawArc`, `oled_DrawPie`,
`oled_DrawPoint` and `oled_DispBitmap` leave bus address, foreground,
background, pen size, font, bitmap mode and text mode unchanged. -/
theorem primitives_keep_config (o : oled_t) (x0 y0 x1 y1 r a0 a1 : Int)
    (bitmap : Nat → Nat) (w h : Nat) :
    sameConfig (oled_Clear o) o ∧ sameConfig (oled_ClearRect o x0 y0 x1 y1) o ∧
      sameConfig (oled_DrawPixel o x0 y0) o ∧ sameConfig (oled_DrawLine o x0 y0 x1 y1) o ∧
      sameConfig (oled_FillRect o x0 y0 x1 y1) o ∧ sameConfig (oled_DrawRect o x0 y0 x1 y1) o ∧
      sameConfig (oled_FillRoundedRect o x0 y0 x1 y1 r) o ∧
      sameConfig (oled_DrawRoundedRect o x0 y0 x1 y1 r) o ∧
      sameConfig (oled_DrawCircle o x0 y0 r) o ∧ sameConfig (oled_FillCircle o x0 y0 r) o ∧
      sameConfig (oled_DrawArc o x0 y0 r a0 a1) o ∧ sameConfig (oled_DrawPie o x0 y0 r a0 a1) o ∧
      sameConfig (oled_DrawPoint o x0 y0) o ∧
      sameConfig (oled_DispBitmap o x0 y0 bitmap w h) o :=
  ⟨WriteGRAM_sameConfig .., WriteGRAM_sameConfig .., WriteGRAM_sameConfig ..,
    DrawLine_sameConfig .., FillRect_sameConfig .., DrawRect_sameConfig ..,
    FillRoundedRect_sameConfig .., DrawRoundedRect_sameConfig ..,
    BresenhamCircleAlgorithm_sameConfig .., BresenhamCircleAlgorithm_sameConfig ..,
    DrawArc_sameConfig .., DrawPie_sameConfig .., BresenhamCircleAlgorithm_sameConfig ..,
    DispBitmap_sameConfig ..⟩

/-! ## Rotation normalization: claim C28 -/

theorem ends_ordered (x0 y0 x1 y1 : Int) (hx : x0 ≠ x1) (hy : y0 ≠ y1) :
    0 < (rightEnd x0 y0 x1 y1).1 - (leftEnd x0 y0 x1 y1).1 ∧
      (rightEnd x0 y0 x1 y1).2 - (leftEnd x0 y0 x1 y1).2 ≠ 0 := by
  unfold leftEnd rightEnd
  by_cases h : x1 < x0
  · simp only [if_pos h]
    omega
  · simp only [if_neg h]
    omega

theorem slope_cases (X Y : Int) (hX : 0 < X) :
    ((1 : ℚ) < (Y : ℚ) / (X : ℚ) ↔ X < Y) ∧ ((0 : ℚ) < (Y : ℚ) / (X : ℚ) ↔ 0 < Y) ∧
      ((Y : ℚ) / (X : ℚ) ≤ 1 ↔ Y ≤ X) ∧ ((-1 : ℚ) ≤ (Y : ℚ) / (X : ℚ) ↔ -X ≤ Y) ∧
      ((Y : ℚ) / (X : ℚ) < 0 ↔ Y < 0) ∧ ((Y : ℚ) / (X : ℚ) < -1 ↔ Y < -X) := by
  have hq : (0 : ℚ) < (X : ℚ) := by exact_mod_cast hX
  refine ⟨?_, ?_, ?_, ?_, ?_, ?_⟩
  · rw [lt_div_iff₀ hq, one_mul]
    exact_mod_cast Iff.rfl
  · rw [lt_div_iff₀ hq, zero_mul]
    exact_mod_cast Iff.rfl
  · rw [div_le_iff₀ hq, one_mul]
    exact_mod_cast Iff.rfl
  · rw [le_div_iff₀ hq, neg_one_mul]
    exact_mod_cast Iff.rfl
  · rw [div_lt_iff₀ hq, zero_mul]
    exact_mod_cast Iff.rfl
  · rw [div_lt_iff₀ hq, neg_one_mul]
    exact_mod_cast Iff.rfl

/-- C28: rotation normalization always reaches the canonical octant.  For a
segment with `x0 != x1` and `y0 != y1`, with its endpoints ordered by
increasing `x` and `s` its slope: `oled_DrawLine` is one call of
`BresenhamLineAlgorithm`, with rotation 0 when `s > 1`, rotation 1 when
`0 < s <= 1`, rotation 2 when `-1 <= s < 0` and rotation 3 when `s < -1`; in
each case the arguments satisfy `0 < dy <= dx`, so the guard
`dx < 0 || dy < 0 || dy > dx` does not fire; and exactly one of the four slope
conditions holds. -/
theorem DrawLine_rotation (o : oled_t) (x0 y0 x1 y1 : Int) (hx : x0 ≠ x1) (hy : y0 ≠ y1) :
    (1 < slope x0 y0 x1 y1 →
        oled_DrawLine o x0 y0 x1 y1 =
          BresenhamLineAlgorithm o (leftEnd x0 y0 x1 y1).2 (leftEnd x0 y0 x1 y1).1
            ((rightEnd x0 y0 x1 y1).2 - (leftEnd x0 y0 x1 y1).2)
            ((rightEnd x0 y0 x1 y1).1 - (leftEnd x0 y0 x1 y1).1) 0 ∧
        (0 < (rightEnd x0 y0 x1 y1).1 - (leftEnd x0 y0 x1 y1).1 ∧
          (rightEnd x0 y0 x1 y1).1 - (leftEnd x0 y0 x1 y1).1 ≤
            (rightEnd x0 y0 x1 y1).2 - (leftEnd x0 y0 x1 y1).2) ∧
        ¬ lineGuard ((rightEnd x0 y0 x1 y1).2 - (leftEnd x0 y0 x1 y1).2)
          ((rightEnd x0 y0 x1 y1).1 - (leftEnd x0 y0 x1 y1).1)) ∧
      (0 < slope x0 y0 x1 y1 ∧ slope x0 y0 x1 y1 ≤ 1 →
        oled_DrawLine o x0 y0 x1 y1 =
          BresenhamLineAlgorithm o (leftEnd x0 y0 x1 y1).1 (leftEnd x0 y0 x1 y1).2
            ((rightEnd x0 y0 x1 y1).1 - (leftEnd x0 y0 x1 y1).1)
            ((rightEnd x0 y0 x1 y1).2 - (leftEnd x0 y0 x1 y1).2) 1 ∧
        (0 < (rightEnd x0 y0 x1 y1).2 - (leftEnd x0 y0 x1 y1).2 ∧
          (rightEnd x0 y0 x1 y1).2 - (leftEnd x0 y0 x1 y1).2 ≤
            (rightEnd x0 y0 x1 y1).1 - (leftEnd x0 y0 x1 y1).1) ∧
        ¬ lineGuard ((rightEnd x0 y0 x1 y1).1 - (leftEnd x0 y0 x1 y1).1)
          ((rightEnd x0 y0 x1 y1).2 - (leftEnd x0 y0 x1 y1).2)) ∧
      (-1 ≤ slope x0 y0 x1 y1 ∧ slope x0 y0 x1 y1 < 0 →
        oled_DrawLine o x0 y0 x1 y1 =
          BresenhamLineAlgorithm o (leftEnd x0 y0 x1 y1).1 (-(leftEnd x0 y0 x1 y1).2)
            ((rightEnd x0 y0 x1 y1).1 - (leftEnd x0 y0 x1 y1).1)
            (-(rightEnd x0 y0 x1 y1).2 - -(leftEnd x0 y0 x1 y1).2) 2 ∧
        (0 < -(rightEnd x0 y0 x1 y1).2 - -(leftEnd x0 y0 x1 y1).2 ∧
          -(rightEnd x0 y0 x1 y1).2 - -(leftEnd x0 y0 x1 y1).2 ≤
            (rightEnd x0 y0 x1 y1).1 - (leftEnd x0 y0 x1 y1).1) ∧
        ¬ lineGuard ((rightEnd x0 y0 x1 y1).1 - (leftEnd x0 y0 x1 y1).1)
          (-(rightEnd x0 y0 x1 y1).2 - -(leftEnd x0 y0 x1 y1).2)) ∧
      (slope x0 y0 x1 y1 < -1 →
        oled_DrawLine o x0 y0 x1 y1 =
          BresenhamLineAlgorithm o (-(leftEnd x0 y0 x1 y1).2) (leftEnd x0 y0 x1 y1).1
            (-(rightEnd x0 y0 x1 y1).2 - -(leftEnd x0 y0 x1 y1).2)
            ((rightEnd x0 y0 x1 y1).1 - (leftEnd x0 y0 x1 y1).1) 3 ∧
        (0 < (rightEnd x0 y0 x1 y1).1 - (leftEnd x0 y0 x1 y1).1 ∧
          (rightEnd x0 y0 x1 y1).1 - (leftEnd x0 y0 x1 y1).1 ≤
            -(rightEnd x0 y0 x1 y1).2 - -(leftEnd x0 y0 x1 y1).2) ∧
        ¬ lineGuard (-(rightEnd x0 y0 x1 y1).2 - -(leftEnd x0 y0 x1 y1).2)
          ((rightEnd x0 y0 x1 y1).1 - (leftEnd x0 y0 x1 y1).1)) ∧
      ((1 < slope x0 y0 x1 y1 ∨ (0 < slope x0 y0 x1 y1 ∧ slope x0 y0 x1 y1 ≤ 1) ∨
          (-1 ≤ slope x0 y0 x1 y1 ∧ slope x0 y0 x1 y1 < 0) ∨ slope x0 y0 x1 y1 < -1) ∧
        ¬ (1 < slope x0 y0 x1 y1 ∧ 0 < slope x0 y0 x1 y1 ∧ slope x0 y0 x1 y1 ≤ 1) ∧
        ¬ (1 < slope x0 y0 x1 y1 ∧ -1 ≤ slope x0 y0 x1 y1 ∧ slope x0 y0 x1 y1 < 0) ∧
        ¬ (1 < slope x0 y0 x1 y1 ∧ slope x0 y0 x1 y1 < -1) ∧
        ¬ ((0 < slope x0 y0 x1 y1 ∧ slope x0 y0 x1 y1 ≤ 1) ∧
            -1 ≤ slope x0 y0 x1 y1 ∧ slope x0 y0 x1 y1 < 0) ∧
        ¬ ((0 < slope x0 y0 x1 y1 ∧ slope x0 y0 x1 y1 ≤ 1) ∧ slope x0 y0 x1 y1 < -1) ∧
        ¬ ((-1 ≤ slope x0 y0 x1 y1 ∧ slope x0 y0 x1 y1 < 0) ∧ slope x0 y0 x1 y1 < -1)) := by
  obtain ⟨hX, hY⟩ := ends_ordered x0 y0 x1 y1 hx hy
  obtain ⟨s1, s2, s3, s4, s5, s6⟩ :=
    slope_cases ((rightEnd x0 y0 x1 y1).1 - (leftEnd x0 y0 x1 y1).1)
      ((rightEnd x0 y0 x1 y1).2 - (leftEnd x0 y0 x1 y1).2) hX
  have hD := DrawLine_general o x0 y0 x1 y1 hx hy
  unfold slope lineGuard
  rw [s1, s2, s3, s4, s5, s6]
  refine ⟨?_, ?_, ?_, ?_, ?_⟩
  · intro h
    rw [hD, if_pos h]
    exact ⟨rfl, by omega, by omega⟩
  · intro h
    rw [hD, if_neg (by omega), if_pos h.1]
    exact ⟨rfl, by omega, by omega⟩
  · intro h
    rw [hD, if_neg (by omega), if_neg (by omega), if_pos h.1]
    exact ⟨rfl, by omega, by omega⟩
  · intro h
    rw [hD, if_neg (by omega), if_neg (by omega), if_neg (by omega)]
    exact ⟨rfl, by omega, by omega⟩
  · omega

theorem DrawLine_rotation_witness :
    oled_DrawLine blank 8 40 2 10 = BresenhamLineAlgorithm blank 10 2 30 6 0 :=
  ((DrawLine_rotation blank 8 40 2 10 (by decide) (by decide)).1
    (by norm_num [slope, leftEnd, rightEnd])).1

/-! ## Endpoints and bounding box of the one-pixel line: claim C30 -/

theorem plotAt_eq (x0 y0 : Int) (rot : Nat) (hrot : rot < 4) (o : oled_t) (pt : Int × Int) :
    plotAt x0 y0 rot o pt =
      oled_DrawPixel o (plotPos x0 y0 rot pt).1 (plotPos x0 y0 rot pt).2 := by
  unfold plotAt PlotPoint plotPos
  interval_cases rot <;> simp

theorem plotAt_getPixel (x0 y0 : Int) (rot : Nat) (hrot : rot < 4) (o : oled_t) (pt : Int × Int)
    (x y : Int) (hx : 0 ≤ x ∧ x ≤ 127) (hy : 0 ≤ y ∧ y ≤ 63) :
    getPixel (plotAt x0 y0 rot o pt).GRAM x y =
      if plotPos x0 y0 rot pt = (x, y) then pixelOf o.color else getPixel o.GRAM x y := by
  rw [plotAt_eq x0 y0 rot hrot]
  unfold oled_DrawPixel
  rw [WriteGRAM_pixel_at o _ _ o.color x y hx hy]
  by_cases h : plotPos x0 y0 rot pt = (x, y)
  · rw [if_pos h, if_pos (by rw [h]; exact ⟨rfl, rfl⟩)]
  · rw [if_neg h, if_neg]
    rintro ⟨h1, h2⟩
    exact h (Prod.ext h1.symm h2.symm)

theorem foldl_plotAt_getPixel (x0 y0 : Int) (rot : Nat) (hrot : rot < 4) (x y : Int)
    (hx : 0 ≤ x ∧ x ≤ 127) (hy : 0 ≤ y ∧ y ≤ 63) (pts : List (Int × Int)) (o : oled_t) :
    ((∃ pt ∈ pts, plotPos x0 y0 rot pt = (x, y)) →
        getPixel (pts.foldl (plotAt x0 y0 rot) o).GRAM x y = pixelOf o.color) ∧
      ((¬ ∃ pt ∈ pts, plotPos x0 y0 rot pt = (x, y)) →
        getPixel (pts.foldl (plotAt x0 y0 rot) o).GRAM x y = getPixel o.GRAM x y) := by
  induction pts generalizing o with
  | nil => simp
  | cons p ps ih =>
    rw [List.foldl_cons]
    obtain ⟨ih1, ih2⟩ := ih (plotAt x0 y0 rot o p)
    have hc : (plotAt x0 y0 rot o p).color = o.color := (plotAt_sameConfig x0 y0 rot o p).2.2.1
    rw [hc] at ih1
    rw [plotAt_getPixel x0 y0 rot hrot o p x y hx hy] at ih2
    simp only [List.exists_mem_cons_iff]
    constructor
    · intro h
      by_cases hps : ∃ pt ∈ ps, plotPos x0 y0 rot pt = (x, y)
      · exact ih1 hps
      · rw [ih2 hps, if_pos (h.resolve_right hps)]
    · intro h
      rw [ih2 (fun hps => h (Or.inr hps)), if_neg (fun hp => h (Or.inl hp))]

theorem idealY_bounds (dx dy t : Int) (hdy : 0 < dy) (hle : dy ≤ dx) (ht : 0 ≤ t ∧ t ≤ dx) :
    0 ≤ idealY dx dy t ∧ idealY dx dy t ≤ dy := by
  have hdx : 0 < dx := by omega
  obtain ⟨s1, s2⟩ := idealY_spec dx dy t hdx
  have p1 : 0 ≤ dy * t := mul_nonneg (by omega) ht.1
  have p2 : dy * t ≤ dy * dx := mul_le_mul_of_nonneg_left ht.2 (by omega)
  have a1 : -1 < idealY dx dy t := by
    apply lt_of_mul_lt_mul_left _ (by omega : (0 : Int) ≤ 2 * dx)
    nlinarith
  have a2 : idealY dx dy t - 1 < dy := by
    apply lt_of_mul_lt_mul_left _ (by omega : (0 : Int) ≤ 2 * dx)
    nlinarith
  omega

theorem idealY_zero (dx dy : Int) (hdx : 0 < dx) : idealY dx dy 0 = 0 := by
  apply idealY_unique dx dy 0 0 hdx <;> omega

theorem idealY_end (dx dy : Int) (hdx : 0 < dx) : idealY dx dy dx = dy := by
  apply idealY_unique dx dy dx dy hdx <;> nlinarith

/-- The effect of the one-pixel general line on a display pixel: it becomes
the foreground colour when some step `t` in `0..dx` is plotted there, and is
unchanged otherwise. -/
theorem BresenhamLineAlgorithm_pen0_getPixel (o : oled_t) (hp : o.penSize = 0)
    (x0 y0 dx dy : Int) (rot : Nat) (hrot : rot < 4) (hdy : 0 < dy) (hle : dy ≤ dx)
    (x y : Int) (hx : 0 ≤ x ∧ x ≤ 127) (hy : 0 ≤ y ∧ y ≤ 63) :
    ((∃ t, (0 ≤ t ∧ t ≤ dx) ∧ plotPos x0 y0 rot (t, idealY dx dy t) = (x, y)) →
        getPixel (BresenhamLineAlgorithm o x0 y0 dx dy rot).GRAM x y = pixelOf o.color) ∧
      ((¬ ∃ t, (0 ≤ t ∧ t ≤ dx) ∧ plotPos x0 y0 rot (t, idealY dx dy t) = (x, y)) →
        getPixel (BresenhamLineAlgorithm o x0 y0 dx dy rot).GRAM x y = getPixel o.GRAM x y) := by
  rw [BresenhamLineAlgorithm_eq_foldl, hp, linePoints_pen0 dx dy hdy hle]
  have e : (∃ pt ∈ (intRange 0 dx).map (fun x => (x, idealY dx dy x)),
      plotPos x0 y0 rot pt = (x, y)) ↔
      ∃ t, (0 ≤ t ∧ t ≤ dx) ∧ plotPos x0 y0 rot (t, idealY dx dy t) = (x, y) := by
    constructor
    · rintro ⟨pt, hpt, h⟩
      obtain ⟨t, ht, rfl⟩ := List.mem_map.1 hpt
      exact ⟨t, mem_intRange.1 ht, h⟩
    · rintro ⟨t, ht, h⟩
      exact ⟨_, List.mem_map.2 ⟨t, mem_intRange.2 ht, rfl⟩, h⟩
  rw [← e]
  exact foldl_plotAt_getPixel x0 y0 rot hrot x y hx hy _ o

/-- The one-pixel general line between two display points given in increasing
`x`: both endpoints are painted and nothing outside their bounding box is. -/
theorem DrawLine_pen0_ordered (o : oled_t) (hp : o.penSize = 0) (a0 b0 a1 b1 : Int)
    (ha : a0 < a1) (hb : b0 ≠ b1)
    (h0 : (0 ≤ a0 ∧ a0 ≤ 127) ∧ (0 ≤ b0 ∧ b0 ≤ 63))
    (h1 : (0 ≤ a1 ∧ a1 ≤ 127) ∧ (0 ≤ b1 ∧ b1 ≤ 63)) :
    getPixel (oled_DrawLine o a0 b0 a1 b1).GRAM a0 b0 = pixelOf o.color ∧
      getPixel (oled_DrawLine o a0 b0 a1 b1).GRAM a1 b1 = pixelOf o.color ∧
      ∀ x y : Int, (0 ≤ x ∧ x ≤ 127) → (0 ≤ y ∧ y ≤ 63) →
        ¬ ((a0 ≤ x ∧ x ≤ a1) ∧ (min b0 b1 ≤ y ∧ y ≤ max b0 b1)) →
        getPixel (oled_DrawLine o a0 b0 a1 b1).GRAM x y = getPixel o.GRAM x y := by
  have hD := DrawLine_general o a0 b0 a1 b1 (by omega) hb
  have hL : leftEnd a0 b0 a1 b1 = (a0, b0) := by
    unfold leftEnd
    rw [if_neg (by omega)]
  have hR : rightEnd a0 b0 a1 b1 = (a1, b1) := by
    unfold rightEnd
    rw [if_neg (by omega)]
  rw [hL, hR] at hD
  simp only [] at hD
  rw [hD]
  by_cases c0 : a1 - a0 < b1 - b0
  · rw [if_pos c0]
    have hdx : 0 < b1 - b0 := by omega
    have key := fun x y hx hy =>
      BresenhamLineAlgorithm_pen0_getPixel o hp b0 a0 (b1 - b0) (a1 - a0) 0 (by decide)
        (by omega) (by omega) x y hx hy
    refine ⟨(key a0 b0 h0.1 h0.2).1 ⟨0, by omega, ?_⟩,
      (key a1 b1 h1.1 h1.2).1 ⟨b1 - b0, by omega, ?_⟩, ?_⟩
    · rw [idealY_zero _ _ hdx]
      simp [plotPos]
    · rw [idealY_end _ _ hdx]
      simp [plotPos]
    · intro x y hx hy hout
      apply (key x y hx hy).2
      rintro ⟨t, ht, h⟩
      have hb := idealY_bounds (b1 - b0) (a1 - a0) t (by omega) (by omega) ht
      simp only [plotPos, if_true, Prod.mk.injEq] at h
      apply hout
      rw [min_def, max_def]
      split_ifs <;> omega
  · rw [if_neg c0]
    by_cases c1 : 0 < b1 - b0
    · rw [if_pos c1]
      have hdx : 0 < a1 - a0 := by omega
      have key := fun x y hx hy =>
        BresenhamLineAlgorithm_pen0_getPixel o hp a0 b0 (a1 - a0) (b1 - b0) 1 (by decide)
          (by omega) (by omega) x y hx hy
      refine ⟨(key a0 b0 h0.1 h0.2).1 ⟨0, by omega, ?_⟩,
        (key a1 b1 h1.1 h1.2).1 ⟨a1 - a0, by omega, ?_⟩, ?_⟩
      · rw [idealY_zero _ _ hdx]
        simp [plotPos]
      · rw [idealY_end _ _ hdx]
        simp [plotPos]
      · intro x y hx hy hout
        apply (key x y hx hy).2
        rintro ⟨t, ht, h⟩
        have hb := idealY_bounds (a1 - a0) (b1 - b0) t (by omega) (by omega) ht
        simp [plotPos] at h
        apply hout
        rw [min_def, max_def]
        split_ifs <;> omega
    · rw [if_neg c1]
      by_cases c2 : -(a1 - a0) ≤ b1 - b0
      · rw [if_pos c2]
        have hdx : 0 < a1 - a0 := by omega
        have key := fun x y hx hy =>
          BresenhamLineAlgorithm_pen0_getPixel o hp a0 (-b0) (a1 - a0) (-b1 - -b0) 2 (by decide)
            (by omega) (by omega) x y hx hy
        refine ⟨(key a0 b0 h0.1 h0.2).1 ⟨0, by omega, ?_⟩,
          (key a1 b1 h1.1 h1.2).1 ⟨a1 - a0, by omega, ?_⟩, ?_⟩
        · rw [idealY_zero _ _ hdx]
          simp [plotPos]
        · rw [idealY_end _ _ hdx]
          simp [plotPos]
        · intro x y hx hy hout
          apply (key x y hx hy).2
          rintro ⟨t, ht, h⟩
          have hb := idealY_bounds (a1 - a0) (-b1 - -b0) t (by omega) (by omega) ht
          generalize idealY (a1 - a0) (-b1 - -b0) t = Y at h hb
          simp [plotPos] at h
          apply hout
          rw [min_def, max_def]
          split_ifs <;> omega
      · rw [if_neg c2]
        have hdx : 0 < -b1 - -b0 := by omega
        have key := fun x y hx hy =>
          BresenhamLineAlgorithm_pen0_getPixel o hp (-b0) a0 (-b1 - -b0) (a1 - a0) 3 (by decide)
            (by omega) (by omega) x y hx hy
        refine ⟨(key a0 b0 h0.1 h0.2).1 ⟨0, by omega, ?_⟩,
          (key a1 b1 h1.1 h1.2).1 ⟨-b1 - -b0, by omega, ?_⟩, ?_⟩
        · rw [idealY_zero _ _ hdx]
          simp [plotPos]
        · rw [idealY_end _ _ hdx]
          simp [plotPos]
        · intro x y hx hy hout
          apply (key x y hx hy).2
          rintro ⟨t, ht, h⟩
          have hb := idealY_bounds (-b1 - -b0) (a1 - a0) t (by omega) (by omega) ht
          generalize idealY (-b1 - -b0) (a1 - a0) t = Y at h hb
          simp [plotPos] at h
          apply hout
          rw [min_def, max_def]
          split_ifs <;> omega

theorem ends_swap (x0 y0 x1 y1 : Int) (hx : x0 ≠ x1) :
    leftEnd x1 y1 x0 y0 = leftEnd x0 y0 x1 y1 ∧ rightEnd x1 y1 x0 y0 = rightEnd x0 y0 x1 y1 := by
  unfold leftEnd rightEnd
  by_cases h : x1 < x0
  · rw [if_pos h, if_pos h, if_neg (by omega), if_neg (by omega)]
    exact ⟨rfl, rfl⟩
  · rw [if_neg h, if_neg h, if_pos (by omega), if_pos (by omega)]
    exact ⟨rfl, rfl⟩

theorem DrawLine_general_swap (o : oled_t) (x0 y0 x1 y1 : Int) (hx : x0 ≠ x1) (hy : y0 ≠ y1) :
    oled_DrawLine o x0 y0 x1 y1 = oled_DrawLine o x1 y1 x0 y0 := by
  rw [DrawLine_general o x0 y0 x1 y1 hx hy, DrawLine_general o x1 y1 x0 y0 (Ne.symm hx) (Ne.symm hy),
    (ends_swap x0 y0 x1 y1 hx).1, (ends_swap x0 y0 x1 y1 hx).2]

/-- C30: `PlotPoint` inverts the chosen rotation.  For every segment with
`x0 != x1`, `y0 != y1` and both endpoints on the display, `oled_DrawLine` with
pen size 0 sets both endpoint pixels `(x0,y0)` and `(x1,y1)` to the foreground
colour (the colour itself when it is 0 or 1), and changes no display pixel
outside the bounding box `[min(x0,x1)..max(x0,x1)] x [min(y0,y1)..max(y0,y1)]`;
the statement covers all four rotations. -/
theorem DrawLine_pen0_endpoints (o : oled_t) (hp : o.penSize = 0) (x0 y0 x1 y1 : Int)
    (hx : x0 ≠ x1) (hy : y0 ≠ y1)
    (h0 : (0 ≤ x0 ∧ x0 ≤ 127) ∧ (0 ≤ y0 ∧ y0 ≤ 63))
    (h1 : (0 ≤ x1 ∧ x1 ≤ 127) ∧ (0 ≤ y1 ∧ y1 ≤ 63)) :
    (getPixel (oled_DrawLine o x0 y0 x1 y1).GRAM x0 y0 = pixelOf o.color ∧
        getPixel (oled_DrawLine o x0 y0 x1 y1).GRAM x1 y1 = pixelOf o.color) ∧
      ((o.color = 0 ∨ o.color = 1) →
        getPixel (oled_DrawLine o x0 y0 x1 y1).GRAM x0 y0 = o.color ∧
        getPixel (oled_DrawLine o x0 y0 x1 y1).GRAM x1 y1 = o.color) ∧
      ∀ x y : Int, (0 ≤ x ∧ x ≤ 127) → (0 ≤ y ∧ y ≤ 63) →
        ¬ ((min x0 x1 ≤ x ∧ x ≤ max x0 x1) ∧ (min y0 y1 ≤ y ∧ y ≤ max y0 y1)) →
        getPixel (oled_DrawLine o x0 y0 x1 y1).GRAM x y = getPixel o.GRAM x y := by
  have main : (getPixel (oled_DrawLine o x0 y0 x1 y1).GRAM x0 y0 = pixelOf o.color ∧
      getPixel (oled_DrawLine o x0 y0 x1 y1).GRAM x1 y1 = pixelOf o.color) ∧
      ∀ x y : Int, (0 ≤ x ∧ x ≤ 127) → (0 ≤ y ∧ y ≤ 63) →
        ¬ ((min x0 x1 ≤ x ∧ x ≤ max x0 x1) ∧ (min y0 y1 ≤ y ∧ y ≤ max y0 y1)) →
        getPixel (oled_DrawLine o x0 y0 x1 y1).GRAM x y = getPixel o.GRAM x y := by
    by_cases h : x0 < x1
    · obtain ⟨e0, e1, e2⟩ := DrawLine_pen0_ordered o hp x0 y0 x1 y1 h hy h0 h1
      refine ⟨⟨e0, e1⟩, fun x y hx' hy' hout => e2 x y hx' hy' ?_⟩
      rw [min_eq_left (le_of_lt h), max_eq_right (le_of_lt h)] at hout
      exact hout
    · have h' : x1 < x0 := by omega
      rw [DrawLine_general_swap o x0 y0 x1 y1 hx hy]
      obtain ⟨e0, e1, e2⟩ := DrawLine_pen0_ordered o hp x1 y1 x0 y0 h' (Ne.symm hy) h1 h0
      refine ⟨⟨e1, e0⟩, fun x y hx' hy' hout => e2 x y hx' hy' ?_⟩
      rw [min_eq_right (le_of_lt h'), max_eq_left (le_of_lt h'), min_comm y0 y1,
        max_comm y0 y1] at hout
      exact hout
  refine ⟨main.1, fun hc => ?_, main.2⟩
  rw [main.1.1, main.1.2, pixelOf_of_le_one hc]
  exact ⟨rfl, rfl⟩

theorem DrawLine_pen0_endpoints_witness :
    getPixel (oled_DrawLine blank 100 50 90 10).GRAM 100 50 = pixelOf blank.color ∧
      getPixel (oled_DrawLine blank 100 50 90 10).GRAM 90 10 = pixelOf blank.color :=
  (DrawLine_pen0_endpoints blank rfl 100 50 90 10 (by decide) (by decide)
    (by decide) (by decide)).1

/-! ## The iterations of the circle loop -/

theorem circleSteps_length (fuel : Nat) (v : CircleVars) (l : List CircleVars)
    (h : circleSteps fuel v = some l) : l.length ≤ fuel := by
  induction fuel generalizing v l with
  | zero =>
    unfold circleSteps at h
    split at h
    · cases h
    · cases h
      exact le_refl _
  | succ n ih =>
    unfold circleSteps at h
    split at h
    · cases hs : circleSteps n (circleNext v) with
      | none => rw [hs] at h; cases h
      | some l' =>
        rw [hs] at h
        cases h
        have := ih _ _ hs
        simp only [List.length_cons]
        omega
    · cases h
      exact Nat.zero_le _

/-- The trace of the loop lists the successive iterates of `circleNext`: its
`k`-th entry is the `k`-th iterate, the loop test holds at each of them and
fails at the iterate that follows the last. -/
theorem circleSteps_iterate (fuel : Nat) (v : CircleVars) (l : List CircleVars)
    (h : circleSteps fuel v = some l) :
    l = (List.range l.length).map (fun k => circleNext^[k] v) ∧
      (∀ k, k < l.length → (circleNext^[k] v).yIn ≤ (circleNext^[k] v).yOut) ∧
      ¬ ((circleNext^[l.length] v).yIn ≤ (circleNext^[l.length] v).yOut) := by
  induction fuel generalizing v l with
  | zero =>
    unfold circleSteps at h
    split at h
    · cases h
    · cases h
      refine ⟨rfl, fun k hk => absurd hk (Nat.not_lt_zero k), ?_⟩
      simpa using ‹¬ v.yIn ≤ v.yOut›
  | succ n ih =>
    unfold circleSteps at h
    split at h
    · rename_i hc
      cases hs : circleSteps n (circleNext v) with
      | none => rw [hs] at h; cases h
      | some l' =>
        rw [hs] at h
        cases h
        obtain ⟨e1, e2, e3⟩ := ih _ _ hs
        refine ⟨?_, ?_, ?_⟩
        · rw [List.length_cons, List.range_succ_eq_map, List.map_cons, List.map_map]
          congr 1
        · intro k hk
          cases k with
          | zero => exact hc
          | succ k =>
            rw [Function.iterate_succ_apply]
            exact e2 k (by simpa using hk)
        · rw [List.length_cons, Function.iterate_succ_apply]
          exact e3
    · rename_i hc
      cases h
      refine ⟨rfl, fun k hk => absurd hk (Nat.not_lt_zero k), ?_⟩
      simpa using hc

theorem circleTrace_spec (rIn rOut : Int) :
    circleSteps (circleFuel rIn rOut) (circleInit rIn rOut) = some (circleTrace rIn rOut) := by
  obtain ⟨l, hl⟩ := circleSteps_circleFuel rIn rOut
  unfold circleTrace circleInit
  rw [hl]

theorem circleTrace_iterate (rIn rOut : Int) :
    circleTrace rIn rOut =
        (List.range (circleTrace rIn rOut).length).map (circleIter rIn rOut) ∧
      (∀ k, k < (circleTrace rIn rOut).length →
        (circleIter rIn rOut k).yIn ≤ (circleIter rIn rOut k).yOut) ∧
      ¬ ((circleIter rIn rOut (circleTrace rIn rOut).length).yIn ≤
        (circleIter rIn rOut (circleTrace rIn rOut).length).yOut) :=
  circleSteps_iterate _ _ _ (circleTrace_spec rIn rOut)

/-- An invariant of the loop body holds at every iteration of the trace. -/
theorem circleSteps_invariant (P : CircleVars → Prop)
    (hP : ∀ v, P v → v.yIn ≤ v.yOut → P (circleNext v)) (fuel : Nat) (v : CircleVars)
    (l : List CircleVars) (hv : P v) (h : circleSteps fuel v = some l) :
    ∀ u ∈ l, P u ∧ u.yIn ≤ u.yOut := by
  induction fuel generalizing v l with
  | zero =>
    unfold circleSteps at h
    split at h
    · cases h
    · cases h
      intro u hu
      cases hu
  | succ n ih =>
    unfold circleSteps at h
    split at h
    · rename_i hc
      cases hs : circleSteps n (circleNext v) with
      | none => rw [hs] at h; cases h
      | some l' =>
        rw [hs] at h
        cases h
        intro u hu
        rcases List.mem_cons.1 hu with rfl | hu
        · exact ⟨hv, hc⟩
        · exact ih _ _ (hP v hv hc) hs u hu
    · cases h
      intro u hu
      cases hu

theorem circleTrace_invariant (P : CircleVars → Prop)
    (hP : ∀ v, P v → v.yIn ≤ v.yOut → P (circleNext v)) (rIn rOut : Int)
    (h0 : P (circleInit rIn rOut)) :
    ∀ u ∈ circleTrace rIn rOut, P u ∧ u.yIn ≤ u.yOut :=
  circleSteps_invariant P hP _ _ _ h0 (circleTrace_spec rIn rOut)

theorem circleTrace_head (rIn rOut : Int) (h : rIn ≤ rOut) :
    ∃ l, circleTrace rIn rOut = circleInit rIn rOut :: l := by
  have hs := circleTrace_spec rIn rOut
  have hf : circleFuel rIn rOut = (circleFuel rIn rOut - 1) + 1 := by
    unfold circleFuel
    omega
  rw [hf] at hs
  unfold circleSteps at hs
  rw [if_pos (show (circleInit rIn rOut).yIn ≤ (circleInit rIn rOut).yOut from h)] at hs
  cases hq : circleSteps (circleFuel rIn rOut - 1) (circleNext (circleInit rIn rOut)) with
  | none => rw [hq] at hs; cases hs
  | some l' =>
    rw [hq] at hs
    exact ⟨l', (Option.some.inj hs).symm⟩

theorem circleNext_x (v : CircleVars) : (circleNext v).x = v.x + 1 := rfl

theorem circleNext_yOut_le (v : CircleVars) : (circleNext v).yOut ≤ v.yOut := by
  unfold circleNext
  simp only []
  split <;> omega

theorem circleNext_yOut_ge (v : CircleVars) : v.yOut - 1 ≤ (circleNext v).yOut := by
  unfold circleNext
  simp only []
  split <;> omega

theorem circleNext_yIn_of_ge (v : CircleVars) (h : v.yIn ≤ v.x) :
    (circleNext v).yIn = v.yIn + 1 := by
  unfold circleNext
  simp only []
  rw [if_neg (by omega)]

theorem circleNext_yIn_of_lt (v : CircleVars) (h : v.x < v.yIn) :
    (circleNext v).yIn = v.yIn ∨ (circleNext v).yIn = v.yIn - 1 := by
  unfold circleNext
  simp only []
  rw [if_pos h]
  split
  · exact Or.inl rfl
  · exact Or.inr rfl

/-! ## Termination and inner-radius pinning of the circle loop: claims C31 and C35 -/

theorem circleIter_succ (rIn rOut : Int) (n : Nat) :
    circleIter rIn rOut (n + 1) = circleNext (circleIter rIn rOut n) := by
  unfold circleIter
  rw [Function.iterate_succ_apply']

theorem circleIter_x (rIn rOut : Int) (n : Nat) : (circleIter rIn rOut n).x = n := by
  induction n with
  | zero => rfl
  | succ n ih =>
    rw [circleIter_succ, circleNext_x, ih]
    push_cast
    rfl

/-- Once `x >= yIn`, the difference `x - yIn` no longer changes. -/
theorem circleIter_gap (rIn rOut : Int) (k : Nat)
    (hk : (circleIter rIn rOut k).yIn ≤ (circleIter rIn rOut k).x) (j : Nat) :
    (circleIter rIn rOut (k + j)).x - (circleIter rIn rOut (k + j)).yIn =
      (circleIter rIn rOut k).x - (circleIter rIn rOut k).yIn := by
  induction j with
  | zero => rfl
  | succ j ih =>
    have e : k + (j + 1) = (k + j) + 1 := by omega
    rw [e, circleIter_succ, circleNext_x, circleNext_yIn_of_ge _ (by omega)]
    omega

/-- For `0 <= rIn` the inner offset never falls more than one behind `x`. -/
theorem circleIter_gap_le_one (rIn rOut : Int) (h : 0 ≤ rIn) (n : Nat) :
    (circleIter rIn rOut n).x ≤ (circleIter rIn rOut n).yIn + 1 := by
  induction n with
  | zero =>
    show (0 : Int) ≤ rIn + 1
    omega
  | succ n ih =>
    rw [circleIter_succ, circleNext_x]
    by_cases hc : (circleIter rIn rOut n).x < (circleIter rIn rOut n).yIn
    · rcases circleNext_yIn_of_lt _ hc with e | e <;> rw [e] <;> omega
    · rw [circleNext_yIn_of_ge _ (by omega)]
      omega

/-- C31 (inner radius pinning), evaluated on the code: for `rIn = 1`,
`rOut = 3` (the call made by `oled_DrawCircle` with `r = 2` and pen size 1) the
loop makes three iterations with `(x, yIn, yOut)` equal to `(0,1,3)`, `(1,0,3)`
and `(2,1,2)`: `x >= yIn` first holds at the second iteration, and at the third
iteration `yIn = 1` differs from `x = 2`.  In general, for `0 <= rIn`, from the
first iteration with `x >= yIn` on, `x - yIn` stays constant and is 0 or 1. -/
theorem inner_radius_not_pinned :
    ((circleTrace 1 3).map (fun v => (v.x, v.yIn, v.yOut)) = [(0, 1, 3), (1, 0, 3), (2, 1, 2)] ∧
      (circleIter 1 3 1).yIn ≤ (circleIter 1 3 1).x ∧
      (circleIter 1 3 2).yIn ≠ (circleIter 1 3 2).x) ∧
    ∀ (rIn rOut : Int) (k j : Nat), 0 ≤ rIn →
      (circleIter rIn rOut k).yIn ≤ (circleIter rIn rOut k).x →
        (circleIter rIn rOut (k + j)).x - (circleIter rIn rOut (k + j)).yIn =
            (circleIter rIn rOut k).x - (circleIter rIn rOut k).yIn ∧
          ((circleIter rIn rOut (k + j)).yIn = (circleIter rIn rOut (k + j)).x ∨
            (circleIter rIn rOut (k + j)).yIn = (circleIter rIn rOut (k + j)).x - 1) := by
  refine ⟨⟨by decide, by decide, by decide⟩, ?_⟩
  intro rIn rOut k j h0 hk
  have g := circleIter_gap rIn rOut k hk j
  have l := circleIter_gap_le_one rIn rOut h0 k
  refine ⟨g, ?_⟩
  omega

/-- C35: the circle loop terminates for every input.  For all integers `rIn`,
`rOut` (negative radii and `rIn < 0 < rOut` included) there is an `n`, at most
`2 * max 0 rIn + max 0 (rOut - rIn + 1)`, such that the loop test holds at the
iterations before the `n`-th and fails at the `n`-th; accordingly the loop of
the embedding returns a context, which is the result of
`BresenhamCircleAlgorithm` when the request is not rejected.  `yOut` never
increases, and once `x >= yIn` every iteration increases `yIn` by one and
keeps `x >= yIn`. -/
theorem circle_loop_terminates (o : oled_t) (xc yc rIn rOut : Int) (octants : Nat) :
    (∃ n, n ≤ circleFuel rIn rOut ∧
        (∀ k, k < n → (circleIter rIn rOut k).yIn ≤ (circleIter rIn rOut k).yOut) ∧
        ¬ ((circleIter rIn rOut n).yIn ≤ (circleIter rIn rOut n).yOut)) ∧
      (∃ o', circleLoop xc yc octants (circleFuel rIn rOut) (circleInit rIn rOut) o =
          some o' ∧
        (¬ (rIn > rOut ∨ rOut = 0) → BresenhamCircleAlgorithm o xc yc rIn rOut octants = o')) ∧
      (circleFuel rIn rOut : Int) = 2 * max 0 rIn + max 0 (rOut - rIn + 1) ∧
      (∀ v : CircleVars, (circleNext v).yOut ≤ v.yOut) ∧
      (∀ v : CircleVars, v.yIn ≤ v.x →
        (circleNext v).yIn = v.yIn + 1 ∧ (circleNext v).yIn ≤ (circleNext v).x) := by
  refine ⟨?_, ?_, ?_, circleNext_yOut_le, ?_⟩
  · obtain ⟨-, e2, e3⟩ := circleTrace_iterate rIn rOut
    exact ⟨_, circleSteps_length _ _ _ (circleTrace_spec rIn rOut), e2, e3⟩
  · obtain ⟨o', ho'⟩ := circleLoop_returns o xc yc rIn rOut octants
    refine ⟨o', ho', fun hr => ?_⟩
    unfold BresenhamCircleAlgorithm
    rw [if_neg hr, ho']
  · unfold circleFuel
    omega
  · intro v hv
    rw [circleNext_yIn_of_ge v hv, circleNext_x]
    omega

/-! ## Positions painted by a sequence of fills -/

theorem foldl_fill_getPixel (rs : List Rect) (o : oled_t) (x y : Int)
    (hx : 0 ≤ x ∧ x ≤ 127) (hy : 0 ≤ y ∧ y ≤ 63) :
    (painted rs x y → getPixel (rs.foldl fillRectCall o).GRAM x y = pixelOf o.color) ∧
      (¬ painted rs x y → getPixel (rs.foldl fillRectCall o).GRAM x y = getPixel o.GRAM x y) := by
  induction rs generalizing o with
  | nil =>
    constructor
    · rintro ⟨r, hr, -⟩
      cases hr
    · intro _
      rfl
  | cons r rs ih =>
    rw [List.foldl_cons]
    obtain ⟨ih1, ih2⟩ := ih (fillRectCall o r)
    rw [fillRectCall_color] at ih1
    have hstep : getPixel (fillRectCall o r).GRAM x y =
        if (r.x0 ≤ x ∧ x ≤ r.x1) ∧ (r.y0 ≤ y ∧ y ≤ r.y1) then pixelOf o.color
        else getPixel o.GRAM x y := by
      unfold fillRectCall
      rw [WriteGRAM_getPixel o r.x0 r.y0 r.x1 r.y1 o.color x y hx hy]
      rfl
    have hp : painted (r :: rs) x y ↔
        ((r.x0 ≤ x ∧ x ≤ r.x1) ∧ (r.y0 ≤ y ∧ y ≤ r.y1)) ∨ painted rs x y := by
      unfold painted
      simp only [List.exists_mem_cons_iff]
    rw [hp]
    constructor
    · intro h
      by_cases hrs : painted rs x y
      · exact ih1 hrs
      · rw [ih2 hrs, hstep, if_pos (h.resolve_right hrs)]
    · intro h
      rw [ih2 (fun hrs => h (Or.inr hrs)), hstep, if_neg (fun hr => h (Or.inl hr))]

theorem painted_circleRects (xc yc rIn rOut : Int) (octants : Nat)
    (h : ¬ (rIn > rOut ∨ rOut = 0)) (x y : Int) :
    painted (circleRects xc yc rIn rOut octants) x y ↔
      ∃ v ∈ circleTrace rIn rOut, painted (plotRects xc yc v.x v.yIn v.yOut octants) x y := by
  unfold circleRects
  rw [if_neg h, painted_flatMap]

theorem mem_circleTrace (rIn rOut : Int) (v : CircleVars) :
    v ∈ circleTrace rIn rOut ↔
      ∃ k, k < (circleTrace rIn rOut).length ∧ circleIter rIn rOut k = v := by
  obtain ⟨e, -, -⟩ := circleTrace_iterate rIn rOut
  constructor
  · intro hv
    rw [e] at hv
    obtain ⟨k, hk, rfl⟩ := List.mem_map.1 hv
    exact ⟨k, List.mem_range.1 hk, rfl⟩
  · rintro ⟨k, hk, rfl⟩
    rw [e]
    exact List.mem_map.2 ⟨k, List.mem_range.2 hk, rfl⟩

theorem circleIter_yOut_antitone (rIn rOut : Int) (j k : Nat) (h : j ≤ k) :
    (circleIter rIn rOut k).yOut ≤ (circleIter rIn rOut j).yOut := by
  induction k with
  | zero =>
    have : j = 0 := by omega
    rw [this]
  | succ k ih =>
    by_cases hj : j = k + 1
    · rw [hj]
    · have := ih (by omega)
      rw [circleIter_succ]
      exact le_trans (circleNext_yOut_le _) this

/-- Every earlier column of the trace was visited, with an outer offset at
least as large. -/
theorem circleTrace_earlier (rIn rOut : Int) (v : CircleVars) (hv : v ∈ circleTrace rIn rOut)
    (m : Int) (h0 : 0 ≤ m) (hm : m ≤ v.x) :
    ∃ w ∈ circleTrace rIn rOut, w.x = m ∧ v.yOut ≤ w.yOut := by
  obtain ⟨k, hk, rfl⟩ := (mem_circleTrace rIn rOut v).1 hv
  rw [circleIter_x] at hm
  refine ⟨circleIter rIn rOut m.toNat,
    (mem_circleTrace rIn rOut _).2 ⟨m.toNat, by omega, rfl⟩, ?_, ?_⟩
  · rw [circleIter_x]
    omega
  · exact circleIter_yOut_antitone rIn rOut m.toNat k (by omega)

/-! ## The filled circle: claims C36 and C37 -/

/-- With inner radius 0 the inner offset equals `x` at every iteration, and the
outer offset stays between `x` and the radius. -/
theorem fillTrace_invariant (r : Int) (v : CircleVars) (hv : v ∈ circleTrace 0 r) :
    v.yIn = v.x ∧ 0 ≤ v.x ∧ v.x ≤ v.yOut ∧ v.yOut ≤ r := by
  have h := circleTrace_invariant (fun v => v.yIn = v.x ∧ 0 ≤ v.x ∧ v.yOut ≤ r)
    (by
      intro v ⟨h1, h2, h3⟩ _
      refine ⟨?_, ?_, le_trans (circleNext_yOut_le v) h3⟩
      · rw [circleNext_yIn_of_ge v (by omega), circleNext_x, h1]
      · rw [circleNext_x]
        omega)
    0 r ⟨rfl, le_refl _, le_refl _⟩ v hv
  obtain ⟨⟨h1, h2, h3⟩, h4⟩ := h
  exact ⟨h1, h2, by omega, h3⟩

/-- Offsets painted by one iteration of the filled circle, all octants
selected: the smaller of `|a|`, `|b|` is the column `x` and the larger is at
most `yOut`. -/
theorem painted_plotRects_fill (xc yc x yOut a b : Int) (hx : 0 ≤ x) :
    painted (plotRects xc yc x x yOut 0xFF) (xc + a) (yc + b) ↔
      x = min |a| |b| ∧ max |a| |b| ≤ yOut := by
  rw [painted_plotRects_full]
  rcases abs_cases a with ⟨ea, ha⟩ | ⟨ea, ha⟩ <;> rcases abs_cases b with ⟨eb, hb⟩ | ⟨eb, hb⟩ <;>
    rw [ea, eb, min_def, max_def] <;> split_ifs <;> omega

theorem painted_fillCircle (xc yc r a b : Int) (hr : 1 ≤ r) :
    painted (circleRects xc yc 0 r 0xFF) (xc + a) (yc + b) ↔
      ∃ v ∈ circleTrace 0 r, v.x = min |a| |b| ∧ max |a| |b| ≤ v.yOut := by
  rw [painted_circleRects xc yc 0 r 0xFF (by omega)]
  constructor
  · rintro ⟨v, hv, hp⟩
    obtain ⟨h1, h2, -, -⟩ := fillTrace_invariant r v hv
    rw [h1, painted_plotRects_fill xc yc v.x v.yOut a b h2] at hp
    exact ⟨v, hv, hp⟩
  · rintro ⟨v, hv, hp⟩
    obtain ⟨h1, h2, -, -⟩ := fillTrace_invariant r v hv
    refine ⟨v, hv, ?_⟩
    rw [h1, painted_plotRects_fill xc yc v.x v.yOut a b h2]
    exact hp

/-- The first iteration of the filled circle paints every offset on an axis up
to the radius. -/
theorem painted_fillCircle_first (xc yc r : Int) (hr : 1 ≤ r) (a b : Int)
    (h1 : min |a| |b| = 0) (h2 : max |a| |b| ≤ r) :
    painted (circleRects xc yc 0 r 0xFF) (xc + a) (yc + b) := by
  obtain ⟨l, hl⟩ := circleTrace_head 0 r (by omega)
  have hin : circleInit 0 r ∈ circleTrace 0 r := by
    rw [hl]
    exact List.mem_cons_self _ _
  rw [painted_fillCircle xc yc r a b hr]
  exact ⟨circleInit 0 r, hin, h1.symm, h2⟩

/-- C36: a filled circle stays inside its bounding square and covers its axes.
For every `r >= 1`, `oled_FillCircle o xc yc r` is the sequence of fills
`circleRects xc yc 0 r 0xFF`; every position `(x, y)` these fills paint (before
clipping) has `|x - xc| <= r` and `|y - yc| <= r`, and the positions
`(xc + k, yc)`, `(xc - k, yc)`, `(xc, yc + k)`, `(xc, yc - k)` are painted for
every `0 <= k <= r`. -/
theorem FillCircle_bounding_square (o : oled_t) (xc yc r : Int) (hr : 1 ≤ r) :
    oled_FillCircle o xc yc r = (circleRects xc yc 0 r 0xFF).foldl fillRectCall o ∧
      (∀ x y : Int, painted (circleRects xc yc 0 r 0xFF) x y → |x - xc| ≤ r ∧ |y - yc| ≤ r) ∧
      (∀ k : Int, 0 ≤ k → k ≤ r →
        painted (circleRects xc yc 0 r 0xFF) (xc + k) yc ∧
        painted (circleRects xc yc 0 r 0xFF) (xc - k) yc ∧
        painted (circleRects xc yc 0 r 0xFF) xc (yc + k) ∧
        painted (circleRects xc yc 0 r 0xFF) xc (yc - k)) := by
  refine ⟨BresenhamCircleAlgorithm_eq_foldl o xc yc 0 r 0xFF, ?_, ?_⟩
  · intro x y hp
    have ex : x = xc + (x - xc) := by omega
    have ey : y = yc + (y - yc) := by omega
    rw [ex, ey, painted_fillCircle xc yc r _ _ hr] at hp
    obtain ⟨v, hv, -, h2⟩ := hp
    obtain ⟨-, -, -, h6⟩ := fillTrace_invariant r v hv
    have := le_max_left |x - xc| |y - yc|
    have := le_max_right |x - xc| |y - yc|
    constructor <;> omega
  · intro k hk0 hkr
    have key := painted_fillCircle_first xc yc r hr
    have hk : |k| = k := abs_of_nonneg hk0
    have hnk : |(-k)| = k := by rw [abs_neg, hk]
    have e1 := key k 0 (by rw [hk, abs_zero, min_eq_right hk0]) (by rw [hk, abs_zero, max_eq_left hk0]; exact hkr)
    have e2 := key (-k) 0 (by rw [hnk, abs_zero, min_eq_right hk0])
      (by rw [hnk, abs_zero, max_eq_left hk0]; exact hkr)
    have e3 := key 0 k (by rw [hk, abs_zero, min_eq_left hk0]) (by rw [hk, abs_zero, max_eq_right hk0]; exact hkr)
    have e4 := key 0 (-k) (by rw [hnk, abs_zero, min_eq_left hk0])
      (by rw [hnk, abs_zero, max_eq_right hk0]; exact hkr)
    rw [add_zero] at e1 e2 e3 e4
    exact ⟨e1, e2, e3, e4⟩

theorem FillCircle_bounding_square_witness :
    (1 : Int) ≤ 5 ∧ painted (circleRects 64 32 0 5 0xFF) (64 + 5) 32 :=
  ⟨by decide, ((FillCircle_bounding_square blank 64 32 5 (by decide)).2.2 5 (by decide)
    (by decide)).1⟩

/-- C37: a filled circle has no holes.  For every `r >= 1`, if the fills of
`oled_FillCircle o xc yc r` paint the position `(xc + a, yc + b)` then they
also paint `(xc + a2, yc + b)` for every `|a2| <= |a|` and `(xc + a, yc + b2)`
for every `|b2| <= |b|`: every row and column of the disc is a contiguous run
centred on the axis. -/
theorem FillCircle_no_holes (o : oled_t) (xc yc r : Int) (hr : 1 ≤ r) (a b : Int)
    (hp : painted (circleRects xc yc 0 r 0xFF) (xc + a) (yc + b)) :
    oled_FillCircle o xc yc r = (circleRects xc yc 0 r 0xFF).foldl fillRectCall o ∧
      (∀ a2 : Int, |a2| ≤ |a| → painted (circleRects xc yc 0 r 0xFF) (xc + a2) (yc + b)) ∧
      (∀ b2 : Int, |b2| ≤ |b| → painted (circleRects xc yc 0 r 0xFF) (xc + a) (yc + b2)) := by
  refine ⟨BresenhamCircleAlgorithm_eq_foldl o xc yc 0 r 0xFF, ?_, ?_⟩
  · intro a2 h2
    rw [painted_fillCircle xc yc r _ _ hr] at hp ⊢
    obtain ⟨v, hv, h3, h4⟩ := hp
    have hmin : min |a2| |b| ≤ v.x := by
      rw [h3]
      exact min_le_min h2 (le_refl _)
    obtain ⟨w, hw, hw1, hw2⟩ := circleTrace_earlier 0 r v hv (min |a2| |b|)
      (le_min (abs_nonneg _) (abs_nonneg _)) hmin
    refine ⟨w, hw, hw1, le_trans ?_ (le_trans h4 hw2)⟩
    exact max_le_max h2 (le_refl _)
  · intro b2 h2
    rw [painted_fillCircle xc yc r _ _ hr] at hp ⊢
    obtain ⟨v, hv, h3, h4⟩ := hp
    have hmin : min |a| |b2| ≤ v.x := by
      rw [h3]
      exact min_le_min (le_refl _) h2
    obtain ⟨w, hw, hw1, hw2⟩ := circleTrace_earlier 0 r v hv (min |a| |b2|)
      (le_min (abs_nonneg _) (abs_nonneg _)) hmin
    refine ⟨w, hw, hw1, le_trans ?_ (le_trans h4 hw2)⟩
    exact max_le_max (le_refl _) h2
theorem FillCircle_no_holes_witness :
    (1 : Int) ≤ 5 ∧ painted (circleRects 64 32 0 5 0xFF) (64 + 3) (32 + 0) :=
  ⟨by decide, (FillCircle_no_holes blank 64 32 5 (by decide) 5 0
    (painted_fillCircle_first 64 32 5 (by decide) 5 0 (by norm_num) (by norm_num))).2.1 3
      (by norm_num)⟩

/-! ## Outlines with pen size 0: claims C38 and C39 -/

theorem mem_plotRects_single (xc yc x y : Int) (octants : Nat) (rect : Rect)
    (h : rect ∈ plotRects xc yc x y y octants) : rect.x0 = rect.x1 ∧ rect.y0 = rect.y1 := by
  unfold plotRects at h
  simp only [List.mem_append] at h
  rcases h with ((((((h | h) | h) | h) | h) | h) | h) | h <;>
    (split at h
     · rw [List.mem_singleton] at h
       subst h
       exact ⟨rfl, rfl⟩
     · cases h)

/-- With equal radii the two offsets agree at every iteration. -/
theorem outlineTrace_invariant (r : Int) (v : CircleVars) (hv : v ∈ circleTrace r r) :
    v.yIn = v.yOut := by
  have h := circleTrace_invariant
    (fun v => (v.yIn = v.yOut ∧ v.dIn = v.dOut) ∨ v.yOut < v.yIn)
    (by
      intro v hv hc
      rcases hv with ⟨h1, h2⟩ | h
      · by_cases hx : v.x < v.yIn
        · left
          obtain ⟨x, yIn, yOut, dIn, dOut⟩ := v
          simp only [] at h1 h2 hx
          subst h1 h2
          unfold circleNext
          simp only [if_pos hx]
          exact ⟨trivial, trivial⟩
        · right
          have := circleNext_yOut_le v
          rw [circleNext_yIn_of_ge v (by omega)]
          omega
      · omega)
    r r (Or.inl ⟨rfl, rfl⟩) v hv
  obtain ⟨h1 | h1, h2⟩ := h
  · exact h1.1
  · omega

/-- C38: a pen-size-0 circle outline is one pixel thick.  For every `r >= 1`
and pen size 0, `oled_DrawCircle o xc yc r` is the sequence of fills of the
circle loop for the radii `r - penSize`, `r + penSize`; at every iteration
(every call of `PlotCircle`) `yIn = yOut`, so every rectangle written, for any
octant selection, is a single pixel; and the four axis points `(xc + r, yc)`,
`(xc - r, yc)`, `(xc, yc + r)`, `(xc, yc - r)` are painted. -/
theorem DrawCircle_pen0_outline (o : oled_t) (hp : o.penSize = 0) (xc yc r : Int) (hr : 1 ≤ r) :
    oled_DrawCircle o xc yc r =
        (circleRects xc yc (r - o.penSize) (r + o.penSize) 0xFF).foldl fillRectCall o ∧
      (∀ v ∈ circleTrace (r - o.penSize) (r + o.penSize), v.yIn = v.yOut) ∧
      (∀ (octants : Nat) (rect : Rect),
        rect ∈ circleRects xc yc (r - o.penSize) (r + o.penSize) octants →
          rect.x0 = rect.x1 ∧ rect.y0 = rect.y1) ∧
      (painted (circleRects xc yc (r - o.penSize) (r + o.penSize) 0xFF) (xc + r) yc ∧
        painted (circleRects xc yc (r - o.penSize) (r + o.penSize) 0xFF) (xc - r) yc ∧
        painted (circleRects xc yc (r - o.penSize) (r + o.penSize) 0xFF) xc (yc + r) ∧
        painted (circleRects xc yc (r - o.penSize) (r + o.penSize) 0xFF) xc (yc - r)) := by
  refine ⟨BresenhamCircleAlgorithm_eq_foldl o xc yc _ _ 0xFF, ?_⟩
  rw [hp]
  simp only [Nat.cast_zero, sub_zero, add_zero]
  refine ⟨outlineTrace_invariant r, ?_, ?_⟩
  · intro octants rect hrect
    unfold circleRects at hrect
    rw [if_neg (by omega)] at hrect
    obtain ⟨v, hv, hm⟩ := List.mem_flatMap.1 hrect
    rw [outlineTrace_invariant r v hv] at hm
    exact mem_plotRects_single xc yc v.x v.yOut octants rect hm
  · obtain ⟨l, hl⟩ := circleTrace_head r r (le_refl _)
    have hin : circleInit r r ∈ circleTrace r r := by
      rw [hl]
      exact List.mem_cons_self _ _
    have key : ∀ a b : Int, (((r ≤ a ∧ a ≤ r) ∨ (r ≤ -a ∧ -a ≤ r)) ∧ (b = 0 ∨ b = -0)) ∨
        ((a = 0 ∨ a = -0) ∧ ((r ≤ b ∧ b ≤ r) ∨ (r ≤ -b ∧ -b ≤ r))) →
        painted (circleRects xc yc r r 0xFF) (xc + a) (yc + b) := by
      intro a b h
      rw [painted_circleRects xc yc r r 0xFF (by omega)]
      exact ⟨circleInit r r, hin, (painted_plotRects_full xc yc 0 r r a b).2 h⟩
    have e1 := key r 0 (by omega)
    have e2 := key (-r) 0 (by omega)
    have e3 := key 0 r (by omega)
    have e4 := key 0 (-r) (by omega)
    rw [add_zero] at e1 e2 e3 e4
    exact ⟨e1, e2, e3, e4⟩

theorem DrawCircle_pen0_outline_witness :
    blank.penSize = 0 ∧ (1 : Int) ≤ 20 ∧
      painted (circleRects 64 32 (20 - blank.penSize) (20 + blank.penSize) 0xFF) (64 + 20) 32 :=
  ⟨rfl, by decide, (DrawCircle_pen0_outline blank rfl 64 32 20 (by decide)).2.2.2.1⟩

theorem circleTrace_negative (r : Int) (hr : r < 0) : circleTrace r r = [circleInit r r] := by
  obtain ⟨l, hl⟩ := circleTrace_head r r (le_refl _)
  have hlen := circleSteps_length _ _ _ (circleTrace_spec r r)
  have hf : circleFuel r r = 1 := by
    unfold circleFuel
    omega
  rw [hl, hf, List.length_cons] at hlen
  have : l = [] := List.length_eq_zero.1 (by omega)
  rw [hl, this]

/-- C39: negative radii are not rejected.  For every `r < 0`,
`oled_DrawCircle o xc yc r` with pen size 0 passes the rejection test
`rIn > rOut || rOut == 0`, runs exactly one loop iteration, and paints exactly
the four positions `(xc + r, yc)`, `(xc - r, yc)`, `(xc, yc + r)`,
`(xc, yc - r)`: afterwards each display pixel among them holds the foreground
colour and every other display pixel is unchanged. -/
theorem DrawCircle_negative_radius (o : oled_t) (hp : o.penSize = 0) (xc yc r : Int)
    (hr : r < 0) :
    ¬ (r - o.penSize > r + o.penSize ∨ r + o.penSize = 0) ∧
      (circleTrace (r - o.penSize) (r + o.penSize)).length = 1 ∧
      oled_DrawCircle o xc yc r =
        (circleRects xc yc (r - o.penSize) (r + o.penSize) 0xFF).foldl fillRectCall o ∧
      (∀ x y : Int, painted (circleRects xc yc (r - o.penSize) (r + o.penSize) 0xFF) x y ↔
        ((x = xc + r ∧ y = yc) ∨ (x = xc - r ∧ y = yc) ∨ (x = xc ∧ y = yc + r) ∨
          (x = xc ∧ y = yc - r))) ∧
      (∀ x y : Int, (0 ≤ x ∧ x ≤ 127) → (0 ≤ y ∧ y ≤ 63) →
        (((x = xc + r ∧ y = yc) ∨ (x = xc - r ∧ y = yc) ∨ (x = xc ∧ y = yc + r) ∨
            (x = xc ∧ y = yc - r)) →
          getPixel (oled_DrawCircle o xc yc r).GRAM x y = pixelOf o.color) ∧
        (¬ ((x = xc + r ∧ y = yc) ∨ (x = xc - r ∧ y = yc) ∨ (x = xc ∧ y = yc + r) ∨
            (x = xc ∧ y = yc - r)) →
          getPixel (oled_DrawCircle o xc yc r).GRAM x y = getPixel o.GRAM x y)) := by
  have hfold : oled_DrawCircle o xc yc r =
      (circleRects xc yc (r - o.penSize) (r + o.penSize) 0xFF).foldl fillRectCall o :=
    BresenhamCircleAlgorithm_eq_foldl o xc yc _ _ 0xFF
  rw [hfold, hp]
  simp only [Nat.cast_zero, sub_zero, add_zero]
  have hpaint : ∀ x y : Int, painted (circleRects xc yc r r 0xFF) x y ↔
      ((x = xc + r ∧ y = yc) ∨ (x = xc - r ∧ y = yc) ∨ (x = xc ∧ y = yc + r) ∨
        (x = xc ∧ y = yc - r)) := by
    intro x y
    have ex : x = xc + (x - xc) := by omega
    have ey : y = yc + (y - yc) := by omega
    rw [painted_circleRects xc yc r r 0xFF (by omega), circleTrace_negative r hr]
    simp only [List.mem_singleton, exists_eq_left]
    show painted (plotRects xc yc 0 r r 0xFF) x y ↔ _
    rw [ex, ey, painted_plotRects_full]
    omega
  refine ⟨by omega, ?_, trivial, hpaint, ?_⟩
  · rw [circleTrace_negative r hr]
    rfl
  · intro x y hx hy
    have h := foldl_fill_getPixel (circleRects xc yc r r 0xFF) o x y hx hy
    rw [hpaint x y] at h
    exact h

theorem DrawCircle_negative_radius_witness :
    blank.penSize = 0 ∧ (-5 : Int) < 0 ∧
      getPixel (oled_DrawCircle blank 64 32 (-5)).GRAM 59 32 = pixelOf blank.color :=
  ⟨rfl, by decide,
    ((DrawCircle_negative_radius blank rfl 64 32 (-5) (by decide)).2.2.2.2 59 32
      (by decide) (by decide)).1 (Or.inl ⟨by decide, rfl⟩)⟩

/-! ## The rectangle outline: claim C33 -/

theorem DrawHLine_pen0 (o : oled_t) (hp : o.penSize = 0) (y x0 x1 : Int) (h : x0 ≤ x1) :
    DrawHLine o y x0 x1 = fillRectCall o (Rect.mk x0 y x1 y) := by
  unfold DrawHLine fillRectCall
  rw [if_pos h, hp]
  simp only [Nat.cast_zero, sub_zero, add_zero]

theorem DrawVLine_pen0 (o : oled_t) (hp : o.penSize = 0) (x y0 y1 : Int) (h : y0 ≤ y1) :
    DrawVLine o x y0 y1 = fillRectCall o (Rect.mk x y0 x y1) := by
  unfold DrawVLine fillRectCall
  rw [if_pos h, hp]
  simp only [Nat.cast_zero, sub_zero, add_zero]

theorem fillRectCall_penSize (o : oled_t) (r : Rect) : (fillRectCall o r).penSize = o.penSize :=
  (fillRectCall_sameConfig o r).2.2.2.1

theorem DrawRect_pen0_eq_foldl (o : oled_t) (hp : o.penSize = 0) (x0 y0 x1 y1 : Int)
    (hx : x0 ≤ x1) (hy : y0 ≤ y1) :
    oled_DrawRect o x0 y0 x1 y1 =
      [Rect.mk x0 y0 x1 y0, Rect.mk x0 y1 x1 y1, Rect.mk x0 y0 x0 y1,
        Rect.mk x1 y0 x1 y1].foldl fillRectCall o := by
  unfold oled_DrawRect
  rw [if_neg (by omega)]
  simp only []
  have p1 : (fillRectCall o (Rect.mk x0 y0 x1 y0)).penSize = 0 := by
    rw [fillRectCall_penSize, hp]
  have p2 : (fillRectCall (fillRectCall o (Rect.mk x0 y0 x1 y0)) (Rect.mk x0 y1 x1 y1)).penSize
      = 0 := by
    rw [fillRectCall_penSize, p1]
  have p3 : (fillRectCall (fillRectCall (fillRectCall o (Rect.mk x0 y0 x1 y0))
      (Rect.mk x0 y1 x1 y1)) (Rect.mk x0 y0 x0 y1)).penSize = 0 := by
    rw [fillRectCall_penSize, p2]
  rw [DrawHLine_pen0 o hp y0 x0 x1 hx, DrawHLine_pen0 _ p1 y1 x0 x1 hx,
    DrawVLine_pen0 _ p2 x0 y0 y1 hy, DrawVLine_pen0 _ p3 x1 y0 y1 hy]
  rfl

/-- C33: `oled_DrawRect` draws only the boundary.  It returns the context
unchanged when `x1 < x0` or `y1 < y0`; otherwise, with pen size 0, a display
pixel `(x, y)` holds the foreground colour afterwards when it lies in
`[x0..x1] x [y0..y1]` with `x` in `{x0, x1}` or `y` in `{y0, y1}`, and is
unchanged when it does not (interior and exterior pixels). -/
theorem DrawRect_boundary (o : oled_t) (x0 y0 x1 y1 : Int) :
    (x1 < x0 ∨ y1 < y0 → oled_DrawRect o x0 y0 x1 y1 = o) ∧
      (o.penSize = 0 → x0 ≤ x1 → y0 ≤ y1 →
        ∀ x y : Int, (0 ≤ x ∧ x ≤ 127) → (0 ≤ y ∧ y ≤ 63) →
          getPixel (oled_DrawRect o x0 y0 x1 y1).GRAM x y =
            if ((x0 ≤ x ∧ x ≤ x1) ∧ (y0 ≤ y ∧ y ≤ y1)) ∧ (x = x0 ∨ x = x1 ∨ y = y0 ∨ y = y1)
            then pixelOf o.color else getPixel o.GRAM x y) := by
  constructor
  · intro h
    unfold oled_DrawRect
    rw [if_pos h]
  · intro hp hx hy x y hxd hyd
    rw [DrawRect_pen0_eq_foldl o hp x0 y0 x1 y1 hx hy]
    have h := foldl_fill_getPixel [Rect.mk x0 y0 x1 y0, Rect.mk x0 y1 x1 y1, Rect.mk x0 y0 x0 y1,
      Rect.mk x1 y0 x1 y1] o x y hxd hyd
    have hpaint : painted [Rect.mk x0 y0 x1 y0, Rect.mk x0 y1 x1 y1, Rect.mk x0 y0 x0 y1,
        Rect.mk x1 y0 x1 y1] x y ↔
        ((x0 ≤ x ∧ x ≤ x1) ∧ (y0 ≤ y ∧ y ≤ y1)) ∧ (x = x0 ∨ x = x1 ∨ y = y0 ∨ y = y1) := by
      unfold painted
      simp only [List.exists_mem_cons_iff, List.not_mem_nil, false_and, exists_false, or_false]
      omega
    rw [hpaint] at h
    by_cases hc : ((x0 ≤ x ∧ x ≤ x1) ∧ (y0 ≤ y ∧ y ≤ y1)) ∧ (x = x0 ∨ x = x1 ∨ y = y0 ∨ y = y1)
    · rw [if_pos hc]
      exact h.1 hc
    · rw [if_neg hc]
      exact h.2 hc

theorem DrawRect_boundary_witness :
    blank.penSize = 0 ∧ (10 : Int) ≤ 20 ∧ (5 : Int) ≤ 15 ∧
      getPixel (oled_DrawRect blank 10 5 20 15).GRAM 12 8 =
        (if (((10 : Int) ≤ 12 ∧ (12 : Int) ≤ 20) ∧ ((5 : Int) ≤ 8 ∧ (8 : Int) ≤ 15)) ∧
            ((12 : Int) = 10 ∨ (12 : Int) = 20 ∨ (8 : Int) = 5 ∨ (8 : Int) = 15)
          then pixelOf blank.color else getPixel blank.GRAM 12 8) :=
  ⟨rfl, by decide, by decide,
    (DrawRect_boundary blank 10 5 20 15).2 rfl (by decide) (by decide) 12 8 (by decide)
      (by decide)⟩

/-! ## Mirror indexing: claim C34 -/

/-- C34: mirror indexing in `WriteGRAM` is always in bounds.  For all integer
arguments, `WriteGRAM` either returns at once or visits the cells `(i, j)` of
the clipped rectangle; when the loops are reached the clipped bounds satisfy
`0 <= x0 <= x1 <= 127` and `0 <= y0 <= y1 <= 63`, every index `i*128 + j` read
or written lies in `0..1023`, and the mask shift amounts `8 - y0%8` and
`1 + y1%8` lie in `1..8`; no mirror entry of index 1024 or more ever changes. -/
theorem WriteGRAM_index_in_bounds (o : oled_t) (x0 y0 x1 y1 : Int) (color : Nat) :
    (WriteGRAM o x0 y0 x1 y1 color =
        if clipX1 x1 < clipX0 x0 then o
        else if clipY1 y1 < clipY0 y0 then o
        else SendStop ((gramCells (clipX0 x0) (clipY0 y0) (clipX1 x1) (clipY1 y1)).foldl
          (gramCell (clipY0 y0) (clipY1 y1) color)
          { o with bus := o.bus ++
              addrTrace o.slaveAddr (clipX0 x0) (clipY0 y0) (clipX1 x1) (clipY1 y1) })) ∧
      (clipX0 x0 ≤ clipX1 x1 → clipY0 y0 ≤ clipY1 y1 →
        (0 ≤ clipX0 x0 ∧ clipX0 x0 ≤ clipX1 x1 ∧ clipX1 x1 ≤ 127) ∧
        (0 ≤ clipY0 y0 ∧ clipY0 y0 ≤ clipY1 y1 ∧ clipY1 y1 ≤ 63) ∧
        (∀ c ∈ gramCells (clipX0 x0) (clipY0 y0) (clipX1 x1) (clipY1 y1),
          (0 ≤ c.1 * OLED_WIDTH + c.2 ∧ c.1 * OLED_WIDTH + c.2 ≤ 1023) ∧
            ((cellIndex c : Nat) : Int) = c.1 * OLED_WIDTH + c.2) ∧
        (1 ≤ 8 - (clipY0 y0).tmod 8 ∧ 8 - (clipY0 y0).tmod 8 ≤ 8) ∧
        (1 ≤ 1 + (clipY1 y1).tmod 8 ∧ 1 + (clipY1 y1).tmod 8 ≤ 8)) ∧
      (∀ k : Nat, 1024 ≤ k → (WriteGRAM o x0 y0 x1 y1 color).GRAM k = o.GRAM k) := by
  obtain ⟨hx0, hx1, hy0, hy1⟩ := clip_bounds x0 y0 x1 y1
  refine ⟨WriteGRAM_unfold o x0 y0 x1 y1 color, ?_, ?_⟩
  · intro hx hy
    have hy1' : 0 ≤ clipY1 y1 := le_trans hy0 hy
    refine ⟨⟨hx0, hx, hx1⟩, ⟨hy0, hy, hy1⟩, ?_, ?_, ?_⟩
    · intro c hc
      rw [mem_gramCells, tdiv8 hy0, tdiv8 hy1'] at hc
      unfold cellIndex OLED_WIDTH
      omega
    · rw [tmod8 hy0]
      omega
    · rw [tmod8 hy1']
      omega
  · intro k hk
    rw [WriteGRAM_GRAM, if_neg]
    intro h
    unfold hitCell at h
    obtain ⟨-, h2, -, h4, -, -⟩ := h
    have hy1' : 0 ≤ clipY1 y1 := le_trans hy0 h2
    rw [tdiv8 hy1'] at h4
    omega

theorem WriteGRAM_index_in_bounds_witness :
    clipX0 (-4) ≤ clipX1 300 ∧ clipY0 (-7) ≤ clipY1 99 ∧
      ((0 ≤ clipX0 (-4) ∧ clipX0 (-4) ≤ clipX1 300 ∧ clipX1 300 ≤ 127)) :=
  ⟨by decide, by decide,
    ((WriteGRAM_index_in_bounds blank (-4) (-7) 300 99 1).2.1 (by decide) (by decide)).1⟩

/-! ## The filled rounded rectangle: claim C40 -/

theorem FillRoundedRect_eq_foldl (o : oled_t) (x0 y0 x1 y1 r : Int)
    (h : ¬ (x1 - x0 < 2 * r ∨ y1 - y0 < 2 * r)) :
    oled_FillRoundedRect o x0 y0 x1 y1 r = (roundedRects x0 y0 x1 y1 r).foldl fillRectCall o := by
  unfold oled_FillRoundedRect roundedRects
  rw [if_neg h]
  simp only [List.foldl_append, DrawPie_eq_foldl _ _ _ _ 6 8 (by decide) (by decide) (by decide),
    DrawPie_eq_foldl _ _ _ _ 4 6 (by decide) (by decide) (by decide),
    DrawPie_eq_foldl _ _ _ _ 2 4 (by decide) (by decide) (by decide),
    DrawPie_eq_foldl _ _ _ _ 0 2 (by decide) (by decide) (by decide)]
  rfl

theorem painted_plotRects_q0 (xc yc x yIn yOut px py : Int) :
    painted (plotRects xc yc x yIn yOut (octantMask 0 2)) px py ↔
      ((xc + yIn ≤ px ∧ px ≤ xc + yOut) ∧ py = yc + x) ∨
        (px = xc + x ∧ (yc + yIn ≤ py ∧ py ≤ yc + yOut)) := by
  have e : plotRects xc yc x yIn yOut (octantMask 0 2) =
      [Rect.mk (xc + yIn) (yc + x) (xc + yOut) (yc + x),
        Rect.mk (xc + x) (yc + yIn) (xc + x) (yc + yOut)] := rfl
  rw [e]
  unfold painted
  simp only [List.exists_mem_cons_iff, List.not_mem_nil, false_and, exists_false, or_false]
  omega

theorem painted_plotRects_q1 (xc yc x yIn yOut px py : Int) :
    painted (plotRects xc yc x yIn yOut (octantMask 2 4)) px py ↔
      (px = xc - x ∧ (yc + yIn ≤ py ∧ py ≤ yc + yOut)) ∨
        ((xc - yOut ≤ px ∧ px ≤ xc - yIn) ∧ py = yc + x) := by
  have e : plotRects xc yc x yIn yOut (octantMask 2 4) =
      [Rect.mk (xc - x) (yc + yIn) (xc - x) (yc + yOut),
        Rect.mk (xc - yOut) (yc + x) (xc - yIn) (yc + x)] := rfl
  rw [e]
  unfold painted
  simp only [List.exists_mem_cons_iff, List.not_mem_nil, false_and, exists_false, or_false]
  omega

theorem painted_plotRects_q2 (xc yc x yIn yOut px py : Int) :
    painted (plotRects xc yc x yIn yOut (octantMask 4 6)) px py ↔
      ((xc - yOut ≤ px ∧ px ≤ xc - yIn) ∧ py = yc - x) ∨
        (px = xc - x ∧ (yc - yOut ≤ py ∧ py ≤ yc - yIn)) := by
  have e : plotRects xc yc x yIn yOut (octantMask 4 6) =
      [Rect.mk (xc - yOut) (yc - x) (xc - yIn) (yc - x),
        Rect.mk (xc - x) (yc - yOut) (xc - x) (yc - yIn)] := rfl
  rw [e]
  unfold painted
  simp only [List.exists_mem_cons_iff, List.not_mem_nil, false_and, exists_false, or_false]
  omega

theorem painted_plotRects_q3 (xc yc x yIn yOut px py : Int) :
    painted (plotRects xc yc x yIn yOut (octantMask 6 8)) px py ↔
      (px = xc + x ∧ (yc - yOut ≤ py ∧ py ≤ yc - yIn)) ∨
        ((xc + yIn ≤ px ∧ px ≤ xc + yOut) ∧ py = yc - x) := by
  have e : plotRects xc yc x yIn yOut (octantMask 6 8) =
      [Rect.mk (xc + x) (yc - yOut) (xc + x) (yc - yIn),
        Rect.mk (xc + yIn) (yc - x) (xc + yOut) (yc - x)] := rfl
  rw [e]
  unfold painted
  simp only [List.exists_mem_cons_iff, List.not_mem_nil, false_and, exists_false, or_false]
  omega

/-- While the outer offset of a filled circle still equals the radius, the
column `x` is short of the radius: the column `x = r` is never reached with
`yOut = r`. -/
theorem fillTrace_corner (r : Int) (hr : 1 ≤ r) (v : CircleVars) (hv : v ∈ circleTrace 0 r) :
    v.yOut = r → v.x < r := by
  have h := circleTrace_invariant
    (fun v => 0 ≤ v.x ∧ v.yOut ≤ r ∧
      (v.yOut = r → v.dOut = 3 - 2 * r + 2 * v.x * v.x + 4 * v.x ∧ v.x < r))
    (by
      intro v ⟨h1, h2, h3⟩ _
      refine ⟨by rw [circleNext_x]; omega, le_trans (circleNext_yOut_le v) h2, ?_⟩
      intro he
      obtain ⟨x, yIn, yOut, dIn, dOut⟩ := v
      simp only [circleNext] at he ⊢
      simp only [] at h1 h2 h3
      by_cases hd : dOut < 0
      · rw [if_pos hd] at he
        obtain ⟨h4, h5⟩ := h3 he
        rw [if_pos hd]
        constructor
        · rw [h4]
          ring
        · nlinarith
      · rw [if_neg hd] at he
        omega)
    0 r ⟨le_refl _, le_refl _, fun _ => ⟨by show 3 - 2 * r = 3 - 2 * r + 2 * 0 * 0 + 4 * 0; ring,
      by show (0 : Int) < r; omega⟩⟩ v hv
  exact fun he => (h.1.2.2 he).2

theorem painted_append (l1 l2 : List Rect) (x y : Int) :
    painted (l1 ++ l2) x y ↔ painted l1 x y ∨ painted l2 x y := by
  unfold painted
  simp only [List.mem_append]
  constructor
  · rintro ⟨r, h | h, hr⟩
    · exact Or.inl ⟨r, h, hr⟩
    · exact Or.inr ⟨r, h, hr⟩
  · rintro (⟨r, h, hr⟩ | ⟨r, h, hr⟩)
    · exact ⟨r, Or.inl h, hr⟩
    · exact ⟨r, Or.inr h, hr⟩

/-- A position painted by the fills of a filled pie, with the data of the
iteration that paints it. -/
theorem painted_pie (xc yc r : Int) (octants : Nat) (x y : Int)
    (h : painted (circleRects xc yc 0 r octants) x y) :
    ∃ v : CircleVars, (0 ≤ v.x ∧ v.x ≤ v.yOut ∧ v.yOut ≤ r ∧ (1 ≤ r → v.yOut = r → v.x < r)) ∧
      painted (plotRects xc yc v.x v.x v.yOut octants) x y := by
  by_cases hg : (0 : Int) > r ∨ r = 0
  · unfold circleRects at h
    rw [if_pos hg] at h
    obtain ⟨rr, hrr, -⟩ := h
    cases hrr
  · rw [painted_circleRects xc yc 0 r octants hg] at h
    obtain ⟨v, hv, hp⟩ := h
    obtain ⟨h1, h2, h3, h4⟩ := fillTrace_invariant r v hv
    rw [h1] at hp
    exact ⟨v, ⟨h2, h3, h4, fun hr => fillTrace_corner r hr v hv⟩, hp⟩

theorem painted_roundedRects (x0 y0 x1 y1 r : Int) (hr : 0 ≤ r) (hx : 2 * r ≤ x1 - x0)
    (hy : 2 * r ≤ y1 - y0) (x y : Int) (h : painted (roundedRects x0 y0 x1 y1 r) x y) :
    ((x0 ≤ x ∧ x ≤ x1) ∧ (y0 ≤ y ∧ y ≤ y1)) ∧
      (1 ≤ r → ¬ ((x = x0 ∨ x = x1) ∧ (y = y0 ∨ y = y1))) := by
  unfold roundedRects at h
  simp only [painted_append] at h
  rcases h with (((h | h) | h) | h) | h
  · unfold painted at h
    simp only [List.exists_mem_cons_iff, List.not_mem_nil, false_and, exists_false, or_false] at h
    omega
  · obtain ⟨v, ⟨h1, h2, h3, h4⟩, hp⟩ := painted_pie _ _ _ _ _ _ h
    rw [painted_plotRects_q3] at hp
    refine ⟨by omega, fun h1r => ?_⟩
    have := h4 h1r
    omega
  · obtain ⟨v, ⟨h1, h2, h3, h4⟩, hp⟩ := painted_pie _ _ _ _ _ _ h
    rw [painted_plotRects_q2] at hp
    refine ⟨by omega, fun h1r => ?_⟩
    have := h4 h1r
    omega
  · obtain ⟨v, ⟨h1, h2, h3, h4⟩, hp⟩ := painted_pie _ _ _ _ _ _ h
    rw [painted_plotRects_q1] at hp
    refine ⟨by omega, fun h1r => ?_⟩
    have := h4 h1r
    omega
  · obtain ⟨v, ⟨h1, h2, h3, h4⟩, hp⟩ := painted_pie _ _ _ _ _ _ h
    rw [painted_plotRects_q0] at hp
    refine ⟨by omega, fun h1r => ?_⟩
    have := h4 h1r
    omega

/-- C40: a filled rounded rectangle stays inside its rectangle.  For all
integers with `r >= 0`, `x1 - x0 >= 2r` and `y1 - y0 >= 2r`,
`oled_FillRoundedRect o x0 y0 x1 y1 r` is the sequence of fills
`roundedRects x0 y0 x1 y1 r`; every position they paint lies in
`[x0..x1] x [y0..y1]`, so no display pixel outside it changes; and for `r >= 1`
none of the four corners `(x0,y0)`, `(x1,y0)`, `(x0,y1)`, `(x1,y1)` is painted,
so the corner pixels are unchanged. -/
theorem FillRoundedRect_inside (o : oled_t) (x0 y0 x1 y1 r : Int) (hr : 0 ≤ r)
    (hx : 2 * r ≤ x1 - x0) (hy : 2 * r ≤ y1 - y0) :
    oled_FillRoundedRect o x0 y0 x1 y1 r = (roundedRects x0 y0 x1 y1 r).foldl fillRectCall o ∧
      (∀ x y : Int, painted (roundedRects x0 y0 x1 y1 r) x y →
        (x0 ≤ x ∧ x ≤ x1) ∧ (y0 ≤ y ∧ y ≤ y1)) ∧
      (∀ x y : Int, (0 ≤ x ∧ x ≤ 127) → (0 ≤ y ∧ y ≤ 63) →
        ¬ ((x0 ≤ x ∧ x ≤ x1) ∧ (y0 ≤ y ∧ y ≤ y1)) →
        getPixel (oled_FillRoundedRect o x0 y0 x1 y1 r).GRAM x y = getPixel o.GRAM x y) ∧
      (1 ≤ r → ∀ x y : Int, (x = x0 ∨ x = x1) → (y = y0 ∨ y = y1) →
        ¬ painted (roundedRects x0 y0 x1 y1 r) x y ∧
        ((0 ≤ x ∧ x ≤ 127) → (0 ≤ y ∧ y ≤ 63) →
          getPixel (oled_FillRoundedRect o x0 y0 x1 y1 r).GRAM x y = getPixel o.GRAM x y)) := by
  have hfold := FillRoundedRect_eq_foldl o x0 y0 x1 y1 r (by omega)
  refine ⟨hfold, fun x y h => (painted_roundedRects x0 y0 x1 y1 r hr hx hy x y h).1, ?_, ?_⟩
  · intro x y hxd hyd hout
    rw [hfold]
    exact (foldl_fill_getPixel _ o x y hxd hyd).2
      (fun h => hout (painted_roundedRects x0 y0 x1 y1 r hr hx hy x y h).1)
  · intro h1 x y hcx hcy
    have hn : ¬ painted (roundedRects x0 y0 x1 y1 r) x y :=
      fun h => (painted_roundedRects x0 y0 x1 y1 r hr hx hy x y h).2 h1 ⟨hcx, hcy⟩
    refine ⟨hn, fun hxd hyd => ?_⟩
    rw [hfold]
    exact (foldl_fill_getPixel _ o x y hxd hyd).2 hn

theorem FillRoundedRect_inside_witness :
    (0 : Int) ≤ 4 ∧ (2 * 4 : Int) ≤ 100 - 20 ∧ (2 * 4 : Int) ≤ 50 - 10 ∧
      getPixel (oled_FillRoundedRect blank 20 10 100 50 4).GRAM 100 10 =
        getPixel blank.GRAM 100 10 :=
  ⟨by decide, by decide, by decide,
    ((FillRoundedRect_inside blank 20 10 100 50 4 (by decide) (by decide) (by decide)).2.2.2
      (by decide) 100 10 (Or.inr rfl) (Or.inl rfl)).2 (by decide) (by decide)⟩

/-! ## The thick line as columns of perpendicular passes -/

/-- The decision `error > thresh` of the Bresenham recurrences, read on the
ideal rows: it holds exactly when the ideal row increases at the next step. -/
theorem idealY_step (dx dy a : Int) (hdx : 0 < dx) (hdy : 0 ≤ dy) (hle : dy ≤ dx) :
    (2 * dy * a - 2 * dx * idealY dx dy a > dx - 2 * dy ↔
        idealY dx dy (a + 1) = idealY dx dy a + 1) ∧
      (¬ (2 * dy * a - 2 * dx * idealY dx dy a > dx - 2 * dy) ↔
        idealY dx dy (a + 1) = idealY dx dy a) := by
  obtain ⟨s1, s2⟩ := idealY_spec dx dy a hdx
  by_cases h : 2 * dy * a - 2 * dx * idealY dx dy a > dx - 2 * dy
  · have e : idealY dx dy (a + 1) = idealY dx dy a + 1 := by
      apply idealY_unique dx dy (a + 1) _ hdx <;> nlinarith
    refine ⟨⟨fun _ => e, fun _ => h⟩, ⟨fun hn => absurd h hn, fun he => ?_⟩⟩
    omega
  · have e : idealY dx dy (a + 1) = idealY dx dy a := by
      apply idealY_unique dx dy (a + 1) _ hdx <;> nlinarith
    refine ⟨⟨fun hh => absurd hh h, fun he => ?_⟩, ⟨fun _ => e, fun _ => h⟩⟩
    omega

theorem perpPointsL_eq (dx dy : Int) (hdx : 0 < dx) (hdy : 0 ≤ dy) (hle : dy ≤ dx) (p : Nat)
    (step X y0 b : Int) :
    ∀ (n : Nat) (a : Int) (v : PerpVars), (b + 1 - a).toNat = n →
      v.error = 2 * dy * a - 2 * dx * idealY dx dy a → v.x = X - idealY dx dy a →
      v.y = y0 + a →
      perpPointsL p dx dy step v (intRange a b) =
        (intRange a b).flatMap (thickL p dx dy step X y0) := by
  intro n
  induction n with
  | zero =>
    intro a v hn _ _ _
    rw [intRange_empty (by omega)]
    rfl
  | succ n ih =>
    intro a v hn he hx hy
    obtain ⟨t1, t2⟩ := idealY_step dx dy a hdx hdy hle
    rw [intRange_cons (by omega), List.flatMap_cons]
    unfold perpPointsL
    congr 1
    · unfold perpEmitL thickL
      rw [hx, hy, he]
      simp only [t1]
    · apply ih (a + 1) (perpNextL dx dy v) (by omega)
      · unfold perpNextL
        by_cases h : v.error > dx - 2 * dy
        · rw [if_pos h]
          rw [he] at h
          rw [t1.1 h]
          simp only []
          rw [he]
          ring
        · rw [if_neg h]
          rw [he] at h
          rw [t2.1 h]
          simp only []
          rw [he]
          ring
      · unfold perpNextL
        by_cases h : v.error > dx - 2 * dy
        · rw [if_pos h]
          rw [he] at h
          rw [t1.1 h]
          simp only []
          rw [hx]
          ring
        · rw [if_neg h]
          rw [he] at h
          rw [t2.1 h]
          simp only []
          rw [hx]
      · unfold perpNextL
        split <;> simp only [] <;> rw [hy] <;> ring

theorem perpPointsR_eq (dx dy : Int) (hdx : 0 < dx) (hdy : 0 ≤ dy) (hle : dy ≤ dx) (p : Nat)
    (step X y0 b : Int) :
    ∀ (n : Nat) (a : Int) (v : PerpVars), (b + 1 - a).toNat = n →
      v.error = 2 * dy * a - 2 * dx * idealY dx dy a → v.x = X + idealY dx dy a →
      v.y = y0 - a →
      perpPointsR p dx dy step v (intRange a b) =
        (intRange a b).flatMap (thickR p dx dy step X y0) := by
  intro n
  induction n with
  | zero =>
    intro a v hn _ _ _
    rw [intRange_empty (by omega)]
    rfl
  | succ n ih =>
    intro a v hn he hx hy
    obtain ⟨t1, t2⟩ := idealY_step dx dy a hdx hdy hle
    rw [intRange_cons (by omega), List.flatMap_cons]
    unfold perpPointsR
    congr 1
    · unfold perpEmitR thickR
      rw [hx, hy, he]
      simp only [t1, add_sub_cancel_right]
    · apply ih (a + 1) (perpNextR dx dy v) (by omega)
      · unfold perpNextR
        by_cases h : v.error > dx - 2 * dy
        · rw [if_pos h]
          rw [he] at h
          rw [t1.1 h]
          simp only []
          rw [he]
          ring
        · rw [if_neg h]
          rw [he] at h
          rw [t2.1 h]
          simp only []
          rw [he]
          ring
      · unfold perpNextR
        by_cases h : v.error > dx - 2 * dy
        · rw [if_pos h]
          rw [he] at h
          rw [t1.1 h]
          simp only []
          rw [hx]
          ring
        · rw [if_neg h]
          rw [he] at h
          rw [t2.1 h]
          simp only []
          rw [hx]
      · unfold perpNextR
        split <;> simp only [] <;> rw [hy] <;> ring

theorem lineEmit_eq (p : Nat) (dx dy : Int) (hdx : 0 < dx) (hdy : 0 ≤ dy) (hle : dy ≤ dx)
    (v : LineVars) (x : Int) (hy : v.y = idealY dx dy x)
    (hs : ((lineStepFlag dx dy v x : Nat) : Int) = stepAt dx dy x) :
    lineEmit p dx dy v x = thickColumn p dx dy x := by
  unfold lineEmit thickColumn
  have e : (p : Int) + 1 - 1 = p := by omega
  have z := idealY_zero dx dy hdx
  rw [e, hs, hy]
  congr 1
  · exact perpPointsL_eq dx dy hdx hdy hle p _ x _ p _ 0 _ rfl (by simp only [z]; ring)
      (by simp only [z]; ring) (by simp)
  · exact perpPointsR_eq dx dy hdx hdy hle p _ x _ p _ 0 _ rfl (by simp only [z]; ring)
      (by simp only [z]; ring) (by simp)

theorem linePointsFrom_eq (p : Nat) (dx dy : Int) (hdx : 0 < dx) (hdy : 0 ≤ dy) (hle : dy ≤ dx)
    (b : Int) :
    ∀ (n : Nat) (a : Int) (v : LineVars), (b + 1 - a).toNat = n → 0 ≤ a →
      v.error = 2 * dy * a - 2 * dx * v.y → v.y = idealY dx dy a →
      (a ≠ 0 → ((v.step : Nat) : Int) = stepAt dx dy a) →
      linePointsFrom p dx dy v (intRange a b) = (intRange a b).flatMap (thickColumn p dx dy) := by
  intro n
  induction n with
  | zero =>
    intro a v hn _ _ _ _
    rw [intRange_empty (by omega)]
    rfl
  | succ n ih =>
    intro a v hn ha he hy hs
    obtain ⟨t1, t2⟩ := idealY_step dx dy a hdx hdy hle
    rw [intRange_cons (by omega), List.flatMap_cons]
    unfold linePointsFrom
    have hflag : ((lineStepFlag dx dy v a : Nat) : Int) = stepAt dx dy a := by
      unfold lineStepFlag
      by_cases h0 : a = 0
      · rw [if_pos ⟨h0, by omega⟩]
        unfold stepAt
        rw [if_pos h0]
        rfl
      · rw [if_neg (fun h => h0 h.1)]
        exact hs h0
    rw [lineEmit_eq p dx dy hdx hdy hle v a hy hflag]
    congr 1
    have hst : stepAt dx dy (a + 1) =
        if idealY dx dy (a + 1) = idealY dx dy a + 1 then 1 else 0 := by
      unfold stepAt
      rw [if_neg (by omega), add_sub_cancel_right]
    apply ih (a + 1) (lineNext dx dy v) (by omega) (by omega)
    · unfold lineNext
      split <;> simp only [] <;> rw [he] <;> ring
    · unfold lineNext
      by_cases h : v.error > dx - 2 * dy
      · rw [if_pos h]
        rw [he, hy] at h
        rw [t1.1 h]
        simp only []
        rw [hy]
      · rw [if_neg h]
        rw [he, hy] at h
        rw [t2.1 h]
        simp only []
        rw [hy]
    · intro _
      rw [hst]
      unfold lineNext
      by_cases h : v.error > dx - 2 * dy
      · rw [if_pos h]
        rw [he, hy] at h
        rw [if_pos (t1.1 h)]
        rfl
      · rw [if_neg h]
        rw [he, hy] at h
        rw [if_neg (by rw [t2.1 h]; omega)]
        rfl

/-- The offsets plotted by the line algorithm, column by column. -/
theorem linePoints_eq (p : Nat) (dx dy : Int) (hdy : 0 < dy) (hle : dy ≤ dx) :
    linePoints p dx dy = (intRange 0 dx).flatMap (thickColumn p dx dy) := by
  unfold linePoints
  rw [if_neg (by omega)]
  exact linePointsFrom_eq p dx dy (by omega) (by omega) hle dx _ 0 _ rfl (le_refl _)
    (by simp) (idealY_zero dx dy (by omega)).symm (fun h => absurd rfl h)

/-! ## The offsets of the thick line by column and perpendicular level -/

theorem idealY_mono (dx dy : Int) (hdx : 0 < dx) (hdy : 0 ≤ dy) {i j : Int} (h : i ≤ j) :
    idealY dx dy i ≤ idealY dx dy j := by
  obtain ⟨s1, -⟩ := idealY_spec dx dy i hdx
  obtain ⟨-, t2⟩ := idealY_spec dx dy j hdx
  have hm : dy * i ≤ dy * j := mul_le_mul_of_nonneg_left h hdy
  have a1 : idealY dx dy i - 1 < idealY dx dy j := by
    apply lt_of_mul_lt_mul_left _ (by omega : (0 : Int) ≤ 2 * dx)
    nlinarith
  omega

theorem idealY_succ_cases (dx dy : Int) (hdx : 0 < dx) (hdy : 0 ≤ dy) (hle : dy ≤ dx) (a : Int) :
    idealY dx dy (a + 1) = idealY dx dy a ∨ idealY dx dy (a + 1) = idealY dx dy a + 1 := by
  obtain ⟨t1, t2⟩ := idealY_step dx dy a hdx hdy hle
  by_cases h : 2 * dy * a - 2 * dx * idealY dx dy a > dx - 2 * dy
  · exact Or.inr (t1.1 h)
  · exact Or.inl (t2.1 h)

theorem perpShift_of_nonneg (dx dy : Int) {i : Int} (h : 0 ≤ i) :
    perpShift dx dy i = idealY dx dy i := by
  unfold perpShift
  rw [if_pos h]

theorem perpShift_neg (dx dy : Int) (hdx : 0 < dx) {j : Int} (h : 0 ≤ j) :
    perpShift dx dy (-j) = -idealY dx dy j := by
  unfold perpShift
  by_cases h0 : j = 0
  · subst h0
    simp [idealY_zero dx dy hdx]
  · rw [if_neg (by omega), neg_neg]

theorem perpShift_succ_cases (dx dy : Int) (hdx : 0 < dx) (hdy : 0 ≤ dy) (hle : dy ≤ dx)
    (i : Int) :
    perpShift dx dy (i + 1) = perpShift dx dy i ∨
      perpShift dx dy (i + 1) = perpShift dx dy i + 1 := by
  by_cases h : 0 ≤ i
  · rw [perpShift_of_nonneg dx dy h, perpShift_of_nonneg dx dy (by omega : 0 ≤ i + 1)]
    exact idealY_succ_cases dx dy hdx hdy hle i
  · obtain ⟨j, hj, rfl⟩ : ∃ j : Int, 0 ≤ j ∧ i = -(j + 1) := ⟨-i - 1, by omega, by ring⟩
    have e : -(j + 1) + 1 = -j := by ring
    rw [e, perpShift_neg dx dy hdx hj, perpShift_neg dx dy hdx (by omega : 0 ≤ j + 1)]
    have hc := idealY_succ_cases dx dy hdx hdy hle j
    omega

theorem perpShift_mono (dx dy : Int) (hdx : 0 < dx) (hdy : 0 ≤ dy) {i j : Int} (h : i ≤ j) :
    perpShift dx dy i ≤ perpShift dx dy j := by
  have z := idealY_zero dx dy hdx
  unfold perpShift
  by_cases hi : 0 ≤ i
  · rw [if_pos hi, if_pos (by omega)]
    exact idealY_mono dx dy hdx hdy h
  · rw [if_neg hi]
    by_cases hj : 0 ≤ j
    · rw [if_pos hj]
      have m1 := idealY_mono dx dy hdx hdy (by omega : (0 : Int) ≤ -i)
      have m2 := idealY_mono dx dy hdx hdy hj
      omega
    · rw [if_neg hj]
      have m1 := idealY_mono dx dy hdx hdy (by omega : -j ≤ -i)
      omega

theorem mem_thickL (p : Nat) (dx dy step X y0 i : Int) (pt : Int × Int) :
    pt ∈ thickL p dx dy step X y0 i ↔
      pt = (X - idealY dx dy i, y0 + i) ∨
        ((idealY dx dy (i + 1) = idealY dx dy i + 1 ∧ (step = 1 ∧ i ≠ (p : Int))) ∧
          pt = (X - idealY dx dy i - 1, y0 + i)) := by
  unfold thickL
  split_ifs with hc <;>
    simp only [List.mem_cons, List.mem_singleton, List.not_mem_nil, or_false] <;> tauto

theorem mem_thickR (p : Nat) (dx dy step X y0 i : Int) (pt : Int × Int) :
    pt ∈ thickR p dx dy step X y0 i ↔
      (i ≠ 0 ∧ pt = (X + idealY dx dy i, y0 - i)) ∨
        ((idealY dx dy (i + 1) = idealY dx dy i + 1 ∧ (step = 1 ∧ i ≠ (p : Int))) ∧
          pt = (X + idealY dx dy i, y0 - i - 1)) := by
  unfold thickR
  split_ifs with h0 hc hc <;>
    simp only [List.mem_append, List.mem_singleton, List.not_mem_nil, or_false, false_or] <;>
    tauto

/-- The offsets plotted by the line algorithm for pen size `p`: the main
offsets `(x - s(i), y(x) + i)` for the columns `x` in `0..dx` and the signed
levels `i` in `-p..p`, and the gap offsets `(x - s(i+1), y(x) + i)` for the
columns entered by a step and the levels `i < p` at which the perpendicular
shifts. -/
theorem mem_linePoints (p : Nat) (dx dy : Int) (hdy : 0 < dy) (hle : dy ≤ dx) (pt : Int × Int) :
    pt ∈ linePoints p dx dy ↔
      ∃ x i : Int, (0 ≤ x ∧ x ≤ dx) ∧ (-(p : Int) ≤ i ∧ i ≤ p) ∧
        (pt = (x - perpShift dx dy i, idealY dx dy x + i) ∨
          (i < p ∧ stepAt dx dy x = 1 ∧ perpShift dx dy (i + 1) = perpShift dx dy i + 1 ∧
            pt = (x - perpShift dx dy (i + 1), idealY dx dy x + i))) := by
  have hdx : 0 < dx := by omega
  have z := idealY_zero dx dy hdx
  rw [linePoints_eq p dx dy hdy hle]
  simp only [List.mem_flatMap, thickColumn, List.mem_append, mem_intRange, mem_thickL, mem_thickR]
  constructor
  · rintro ⟨x, hx, (⟨i, hi, h⟩ | ⟨j, hj, h⟩)⟩
    · rcases h with h | ⟨⟨c1, c2, c3⟩, h⟩
      · exact ⟨x, i, hx, by omega, Or.inl (by rw [perpShift_of_nonneg dx dy hi.1]; exact h)⟩
      · refine ⟨x, i, hx, by omega, Or.inr ⟨by omega, c2, ?_, ?_⟩⟩
        · rw [perpShift_of_nonneg dx dy hi.1, perpShift_of_nonneg dx dy (by omega : 0 ≤ i + 1)]
          exact c1
        · rw [perpShift_of_nonneg dx dy (by omega : 0 ≤ i + 1), c1, h]
          congr 1
          ring
    · rcases h with ⟨h0, h⟩ | ⟨⟨c1, c2, c3⟩, h⟩
      · refine ⟨x, -j, hx, by omega, Or.inl ?_⟩
        rw [perpShift_neg dx dy hdx hj.1, h]
        congr 1
        ring
      · have e1 : -j - 1 + 1 = -j := by ring
        have e2 : -j - 1 = -(j + 1) := by ring
        refine ⟨x, -j - 1, hx, by omega, Or.inr ⟨by omega, c2, ?_, ?_⟩⟩
        · rw [e1, e2, perpShift_neg dx dy hdx hj.1,
            perpShift_neg dx dy hdx (by omega : 0 ≤ j + 1), c1]
          ring
        · rw [e1, perpShift_neg dx dy hdx hj.1, h]
          congr 1 <;> ring
  · rintro ⟨x, i, hx, hi, h | ⟨c0, c1, c2, h⟩⟩
    · by_cases h0 : 0 ≤ i
      · refine ⟨x, hx, Or.inl ⟨i, ⟨h0, hi.2⟩, Or.inl ?_⟩⟩
        rw [h, perpShift_of_nonneg dx dy h0]
      · refine ⟨x, hx, Or.inr ⟨-i, by omega, Or.inl ⟨by omega, ?_⟩⟩⟩
        have e : i = -(-i) := by ring
        rw [h]
        nth_rewrite 1 [e]
        rw [perpShift_neg dx dy hdx (by omega : 0 ≤ -i)]
        congr 1 <;> ring
    · by_cases h0 : 0 ≤ i
      · rw [perpShift_of_nonneg dx dy h0, perpShift_of_nonneg dx dy (by omega : 0 ≤ i + 1)] at c2
        refine ⟨x, hx, Or.inl ⟨i, ⟨h0, hi.2⟩, Or.inr ⟨⟨c2, c1, by omega⟩, ?_⟩⟩⟩
        rw [h, perpShift_of_nonneg dx dy (by omega : 0 ≤ i + 1), c2]
        congr 1
        ring
      · have e1 : i + 1 = -(-i - 1) := by ring
        have e2 : i = -(-i - 1 + 1) := by ring
        have c2' := c2
        rw [e1] at c2'
        nth_rewrite 2 [e2] at c2'
        rw [perpShift_neg dx dy hdx (by omega : 0 ≤ -i - 1),
          perpShift_neg dx dy hdx (by omega : 0 ≤ -i - 1 + 1)] at c2'
        refine ⟨x, hx, Or.inr ⟨-i - 1, by omega, Or.inr ⟨⟨by omega, c1, by omega⟩, ?_⟩⟩⟩
        rw [h, e1, perpShift_neg dx dy hdx (by omega : 0 ≤ -i - 1)]
        congr 1 <;> ring

/-! ## Thick lines have no gaps: claim C32 -/

/-- Every column of the thick line is a contiguous run: an offset with plotted
offsets right below and right above it is plotted. -/
theorem linePoints_column (p : Nat) (dx dy : Int) (hdy : 0 < dy) (hle : dy ≤ dx) (a b : Int)
    (hlo : (a, b - 1) ∈ linePoints p dx dy) (hhi : (a, b + 1) ∈ linePoints p dx dy) :
    (a, b) ∈ linePoints p dx dy := by
  have hdx : 0 < dx := by omega
  have hdy0 : 0 ≤ dy := by omega
  have z := idealY_zero dx dy hdx
  rw [mem_linePoints p dx dy hdy hle] at hlo hhi ⊢
  obtain ⟨x, i, hx, hi, hl⟩ := hlo
  obtain ⟨x', i', hx', hi', hu⟩ := hhi
  rcases hl with hl | ⟨c0, c1, c2, hl⟩
  · rcases hu with hu | ⟨d0, d1, d2, hu⟩
    · simp only [Prod.mk.injEq] at hl hu
      by_cases hii : i' ≤ i
      · have m1 := perpShift_mono dx dy hdx hdy0 hii
        have m2 := idealY_mono dx dy hdx hdy0 (by omega : x' ≤ x)
        omega
      · have m1 := perpShift_mono dx dy hdx hdy0 (by omega : i ≤ i')
        have m2 := idealY_mono dx dy hdx hdy0 (by omega : x ≤ x')
        by_cases h1 : i' = i + 1
        · subst h1
          have sc := perpShift_succ_cases dx dy hdx hdy0 hle i
          have hxx : x' = x + 1 := by
            rcases sc with sc | sc
            · have : x' = x := by omega
              subst this
              omega
            · omega
          subst hxx
          have hstep : stepAt dx dy (x + 1) = 1 := by
            unfold stepAt
            rw [if_neg (by omega), add_sub_cancel_right, if_pos (by omega)]
          refine ⟨x + 1, i, hx', by omega, Or.inr ⟨by omega, hstep, by omega, ?_⟩⟩
          simp only [Prod.mk.injEq]
          omega
        · have h2 : i' = i + 2 := by omega
          subst h2
          have s1 := perpShift_mono dx dy hdx hdy0 (by omega : i ≤ i + 1)
          have s2 := perpShift_mono dx dy hdx hdy0 (by omega : i + 1 ≤ i + 2)
          obtain ⟨xk, hxk⟩ : ∃ xk : Int, xk = a + perpShift dx dy (i + 1) := ⟨_, rfl⟩
          have m3 := idealY_mono dx dy hdx hdy0 (by omega : x ≤ xk)
          have m4 := idealY_mono dx dy hdx hdy0 (by omega : xk ≤ x')
          refine ⟨xk, i + 1, by omega, by omega, Or.inl ?_⟩
          simp only [Prod.mk.injEq]
          omega
    · simp only [Prod.mk.injEq] at hl hu
      by_cases hx0 : x' = 0
      · subst hx0
        have m0 := idealY_mono dx dy hdx hdy0 hx.1
        have m1 := perpShift_mono dx dy hdx hdy0 (by omega : i ≤ i')
        omega
      · have hst : idealY dx dy x' = idealY dx dy (x' - 1) + 1 := by
          unfold stepAt at d1
          rw [if_neg hx0] at d1
          by_contra hne
          rw [if_neg hne] at d1
          omega
        refine ⟨x' - 1, i', by omega, hi', Or.inl ?_⟩
        simp only [Prod.mk.injEq]
        omega
  · simp only [Prod.mk.injEq] at hl
    refine ⟨x, i + 1, hx, by omega, Or.inl ?_⟩
    simp only [Prod.mk.injEq]
    omega

/-- C32: thick lines have no gaps.  For every pen size `p` and every canonical
segment `0 < dy <= dx`, `BresenhamLineAlgorithm` plots the offsets
`linePoints p dx dy` (the calls of `PlotPoint` made through `PlotPerpLineL`,
`PlotPerpLineR` and their gap-fill pixels), and this set has no hole: every
offset whose four edge-adjacent neighbours are all plotted is itself plotted;
indeed an offset is plotted as soon as the offsets right below and right above
it are. -/
theorem thick_line_no_holes (o : oled_t) (x0 y0 dx dy : Int) (rot : Nat) (hdy : 0 < dy)
    (hle : dy ≤ dx) :
    BresenhamLineAlgorithm o x0 y0 dx dy rot =
        (linePoints o.penSize dx dy).foldl (plotAt x0 y0 rot) o ∧
      ∀ p : Nat,
        (∀ a b : Int, (a + 1, b) ∈ linePoints p dx dy → (a - 1, b) ∈ linePoints p dx dy →
          (a, b + 1) ∈ linePoints p dx dy → (a, b - 1) ∈ linePoints p dx dy →
          (a, b) ∈ linePoints p dx dy) ∧
        (∀ a b : Int, (a, b - 1) ∈ linePoints p dx dy → (a, b + 1) ∈ linePoints p dx dy →
          (a, b) ∈ linePoints p dx dy) :=
  ⟨BresenhamLineAlgorithm_eq_foldl o x0 y0 dx dy rot, fun p =>
    ⟨fun a b _ _ hu hl => linePoints_column p dx dy hdy hle a b hl hu,
      fun a b hl hu => linePoints_column p dx dy hdy hle a b hl hu⟩⟩

theorem thick_line_no_holes_witness :
    (0 : Int) < 2 ∧ (2 : Int) ≤ 5 ∧ ((2 : Int), (1 : Int)) ∈ linePoints 1 5 2 :=
  ⟨by decide, by decide,
    ((thick_line_no_holes blank 0 0 5 2 1 (by decide) (by decide)).2 1).2 2 1 (by decide)
      (by decide)⟩

end OLED
